import Mathlib

/-!
# Echomail envelope codec: a shallow embedding of `envelope/envelope.go`

Go strings and byte slices are modelled as lists of byte values (`List Nat`,
every value of a real input below 256).  Go maps are modelled as association
lists with pairwise distinct keys; the order of the list stands for the
(unspecified) iteration order of the map.  The machine type `int` is the
64-bit signed integer: arithmetic on it is done on `Int` and wrapped.

Functions of the standard library with a fixed, simple meaning (`bytes`,
`strings`, `strconv`, `bufio`, `sort`) are embedded as definitions.  The
functions whose code is outside the repository and whose exact behaviour the
codec does not depend on are collected in the structure `Ext`; the general
theorems hold for all values of it, and `refExt` is the instance at which the
codec is evaluated on concrete inputs.
-/

namespace Echomail

/-- A Go string or byte slice. -/
abbrev Bytes := List Nat

/-- The bytes of an ASCII literal. -/
def ascii (s : String) : Bytes := s.data.map Char.toNat

/-! ## Standard-library helpers -/

/-- The Go test bytes.HasPrefix(s, p), also strings.HasPrefix. -/
def hasPrefix : Bytes → Bytes → Bool
  | _, [] => true
  | [], _ :: _ => false
  | c :: cs, p :: ps => if c = p then hasPrefix cs ps else false

/-- The Go search bytes.Index(s, sep): the index of the first occurrence of
sep in s, none for the Go result -1. -/
def index : Bytes → Bytes → Option Nat
  | [], sep => if sep = [] then some 0 else none
  | c :: cs, sep =>
    if hasPrefix (c :: cs) sep then some 0
    else match index cs sep with
      | none => none
      | some i => some (i + 1)

/-- The Go call strings.SplitN(s, sep, 2) for a non-empty separator: the
string is cut at the first occurrence of sep, if any. -/
def splitN2 (s sep : Bytes) : List Bytes :=
  match index s sep with
  | none => [s]
  | some i => [s.take i, s.drop (i + sep.length)]

/-- The Go call strings.Split(s, sep) for a one-byte separator. -/
def splitByte (sep : Nat) : Bytes → List Bytes
  | [] => [[]]
  | c :: cs =>
    if c = sep then [] :: splitByte sep cs
    else match splitByte sep cs with
      | [] => [[c]]
      | l :: ls => (c :: l) :: ls

/-- The Go call strings.ReplaceAll(s, "\r\n", "\n"). -/
def replaceCRLF : Bytes → Bytes
  | [] => []
  | [c] => [c]
  | c :: d :: rest =>
    if c = 13 ∧ d = 10 then 10 :: replaceCRLF rest
    else c :: replaceCRLF (d :: rest)

/-- The UTF-8 encodings of the runes for which unicode.IsSpace holds:
tab, LF, VT, FF, CR, space, U+0085, U+00A0, U+1680, U+2000 to U+200A,
U+2028, U+2029, U+202F, U+205F and U+3000. -/
def spaceSeqs : List Bytes :=
  [[9], [10], [11], [12], [13], [32], [0xC2, 0x85], [0xC2, 0xA0],
   [0xE1, 0x9A, 0x80],
   [0xE2, 0x80, 0x80], [0xE2, 0x80, 0x81], [0xE2, 0x80, 0x82], [0xE2, 0x80, 0x83],
   [0xE2, 0x80, 0x84], [0xE2, 0x80, 0x85], [0xE2, 0x80, 0x86], [0xE2, 0x80, 0x87],
   [0xE2, 0x80, 0x88], [0xE2, 0x80, 0x89], [0xE2, 0x80, 0x8A],
   [0xE2, 0x80, 0xA8], [0xE2, 0x80, 0xA9], [0xE2, 0x80, 0xAF],
   [0xE2, 0x81, 0x9F], [0xE3, 0x80, 0x80]]

/-- The number of bytes of the member of seqs that starts s, 0 when none does. -/
def leadLen (seqs : List Bytes) (s : Bytes) : Nat :=
  match seqs.find? (fun q => hasPrefix s q) with
  | none => 0
  | some q => q.length

/-- Removes from the front of s the members of seqs, as long as one starts
the string; the first argument bounds the number of steps. -/
def stripLeading (seqs : List Bytes) : Nat → Bytes → Bytes
  | 0, s => s
  | fuel + 1, s =>
    match leadLen seqs s with
    | 0 => s
    | k + 1 => stripLeading seqs fuel (s.drop (k + 1))

/-- Leading white space removed (strings.TrimLeftFunc with unicode.IsSpace):
a leading rune is white space exactly when the string starts with the UTF-8
encoding of a white-space rune. -/
def trimLeftSpace (s : Bytes) : Bytes := stripLeading spaceSeqs s.length s

/-- Trailing white space removed (strings.TrimRightFunc with unicode.IsSpace). -/
def trimRightSpace (s : Bytes) : Bytes :=
  (stripLeading (spaceSeqs.map List.reverse) s.length s.reverse).reverse

/-- The Go call strings.TrimSpace(s), also bytes.TrimSpace. -/
def trimSpace (s : Bytes) : Bytes := trimRightSpace (trimLeftSpace s)

/-- The Go call strings.TrimRight(s, "\n"): every trailing line feed removed. -/
def trimRightNL (s : Bytes) : Bytes := (s.reverse.dropWhile (fun c => c = 10)).reverse

/-- The decimal digits of n, most significant first, put in front of acc;
the first argument bounds the number of digits. -/
def itoaAux : Nat → Nat → Bytes → Bytes
  | 0, _, acc => acc
  | fuel + 1, n, acc =>
    if n < 10 then (48 + n) :: acc
    else itoaAux fuel (n / 10) ((48 + n % 10) :: acc)

/-- The text fmt.Sprintf("%d", n) of a non-negative integer. -/
def itoa (n : Nat) : Bytes := itoaAux (n + 1) n []

/-- The value of a string of decimal digits read after the value acc, none
when a byte is not a digit. -/
def parseDigits : Bytes → Nat → Option Nat
  | [], acc => some acc
  | c :: cs, acc => if 48 ≤ c ∧ c ≤ 57 then parseDigits cs (acc * 10 + (c - 48)) else none

/-- The Go call strconv.Atoi(s) on a 64-bit platform: an optional sign, at
least one decimal digit, and a value in the range of int; none for an error. -/
def atoi (s : Bytes) : Option Int :=
  match s with
  | [] => none
  | c :: cs =>
    if c = 45 then
      match cs with
      | [] => none
      | _ :: _ =>
        match parseDigits cs 0 with
        | none => none
        | some n => if n ≤ 2 ^ 63 then some (-(n : Int)) else none
    else if c = 43 then
      match cs with
      | [] => none
      | _ :: _ =>
        match parseDigits cs 0 with
        | none => none
        | some n => if n < 2 ^ 63 then some (n : Int) else none
    else
      match parseDigits (c :: cs) 0 with
      | none => none
      | some n => if n < 2 ^ 63 then some (n : Int) else none

/-- Arithmetic on the Go type int wraps around at 64 bits. -/
def wrapInt64 (x : Int) : Int := (x + 2 ^ 63) % 2 ^ 64 - 2 ^ 63

/-- Lexicographic comparison of strings by bytes, the order of sort.Strings. -/
def strLe : Bytes → Bytes → Bool
  | [], _ => true
  | _ :: _, [] => false
  | a :: as, b :: bs => if a < b then true else if b < a then false else strLe as bs

/-- Inserts a string into a sorted list of strings. -/
def insertStr (a : Bytes) : List Bytes → List Bytes
  | [] => [a]
  | b :: bs => if strLe a b then a :: b :: bs else b :: insertStr a bs

/-- The Go call sort.Strings: the list in ascending lexicographic order. -/
def sortStrings : List Bytes → List Bytes
  | [] => []
  | a :: as => insertStr a (sortStrings as)

/-- The Go call reader.ReadString(delim) on the unread input s: the bytes up
to and including the first delim, and the input left; none when the input
ends before a delim is found (the reader reports io.EOF). -/
def readString (delim : Nat) : Bytes → Option (Bytes × Bytes)
  | [] => none
  | c :: cs =>
    if c = delim then some ([c], cs)
    else match readString delim cs with
      | none => none
      | some (l, r) => some (c :: l, r)

/-! ## Go maps -/

/-- A Go map with string keys. -/
abbrev GoMap (β : Type) := List (Bytes × β)

/-- The Go lookup m[k] with its ok flag. -/
def mapGet {β : Type} : GoMap β → Bytes → Option β
  | [], _ => none
  | (k', v) :: r, k => if k' = k then some v else mapGet r k

/-- The Go assignment m[k] = v. -/
def mapSet {β : Type} : GoMap β → Bytes → β → GoMap β
  | [], k, v => [(k, v)]
  | (k', v') :: r, k, v => if k' = k then (k, v) :: r else (k', v') :: mapSet r k v

/-- The keys of a map, in iteration order. -/
def mapKeys {β : Type} (m : GoMap β) : List Bytes := m.map Prod.fst

/-- The keys of a Go map are pairwise distinct. -/
def mapWF {β : Type} (m : GoMap β) : Prop := (mapKeys m).Nodup

/-! ## Errors and results -/

/-- The errors of the codec, one constructor for each place the source
returns an error. -/
inductive Err where
  | readEOF
  | missingHeader
  | invalidFileEntry (line : Bytes)
  | duplicateName (fn : Bytes)
  | invalidLength (line : Bytes)
  | notEnoughData (name : Bytes)
  | decoding (inner : Err)
  | messageFileMissing
  | emptyMessage
  | notUtf8
  | mustStartWithHeader
  | headerNeverEnded
  | headerLineTooLong
  | emptyLineInHeader
  | missingSeparator
  | emptyKey
  | senderMissing
  | senderBogus
  | groupMissing
  | datetimeParse
  | illegalFilename (fn : Bytes)
  deriving DecidableEq, Repr

/-- The outcome of a Go function returning (value, error) that may also
abort with a run-time panic. -/
inductive Res (α : Type) where
  | ok (a : α)
  | error (e : Err)
  | panic
  deriving DecidableEq, Repr

/-- A point in time (UTC), as the fields of the calendar date and clock. -/
structure Time where
  year : Nat
  month : Nat
  day : Nat
  hour : Nat
  minute : Nat
  second : Nat
  nsec : Nat
  deriving DecidableEq, Repr

/-- The zero value of time.Time: January 1, year 1, 00:00:00 UTC. -/
def Time.zero : Time := ⟨1, 1, 1, 0, 0, 0, 0⟩

/-- The functions the codec calls whose code is outside the repository:
utf8.Valid, strings.ToUpper, time.ParseInLocation with the layout DateFormat
in UTC (none for an error), pathologize.IsClean, and the digest
base64.RawURLEncoding of sha512.Sum512_256. -/
structure Ext where
  utf8Valid : Bytes → Bool
  toUpper : Bytes → Bytes
  parseTime : Bytes → Option Time
  isClean : Bytes → Bool
  computeMsgId : Bytes → Bytes

/-! ## The envelope codec -/

/-- Envelope format identifier string. -/
def MAGIC : Bytes := ascii "ECHO 1.0"

/-- The sentinel line that closes the header section. -/
def endLine : Bytes := ascii "end"

/-- The name of the message file inside an envelope. -/
def dot : Bytes := ascii "."

/-- Base structure for the message envelope: map[string][]byte. -/
abbrev Envelope := GoMap Bytes

/-- The opening marker of the header block. -/
def beginsWith : Bytes := ascii "```Echomail"

/-- The closing marker of the header block. -/
def endsWith : Bytes := ascii "```"

/-- The source function getHeader. -/
def getHeader (b : Bytes) : Except Err Bytes :=
  if !hasPrefix b beginsWith then .error .mustStartWithHeader
  else
    match index (b.drop beginsWith.length) endsWith with
    | none => .error .headerNeverEnded
    | some e => .ok (trimSpace ((b.take (e + beginsWith.length)).drop beginsWith.length))

/-- The loop of parseHeader over the lines, fields being the map built so far. -/
def parseHeaderLines : List Bytes → GoMap Bytes → Except Err (GoMap Bytes)
  | [], fields => .ok fields
  | line :: rest, fields =>
    if line.length > 1024 then .error .headerLineTooLong
    else
      let line1 := trimSpace line
      if line1 = [] then .error .emptyLineInHeader
      else
        match splitN2 line1 (ascii ": ") with
        | [p0, p1] =>
          let key := trimSpace p0
          let value := trimSpace p1
          if key = [] then .error .emptyKey
          else parseHeaderLines rest (mapSet fields key value)
        | _ => .error .missingSeparator

/-- The source function parseHeader. -/
def parseHeader (data : Bytes) : Except Err (GoMap Bytes) :=
  parseHeaderLines (splitByte 10 (replaceCRLF data)) []

/-- The source function MessageHeader: retrieve and parse a message header
into a map. -/
def MessageHeader (msg : Bytes) : Except Err (GoMap Bytes) :=
  match getHeader msg with
  | .error err => .error err
  | .ok hdr => parseHeader hdr

/-- The first segment name that is neither the message file nor a clean
filename, in iteration order: the final loop of Verify. -/
def firstIllegal (X : Ext) (e : Envelope) : Option Bytes :=
  (mapKeys e).find? (fun fn => decide (fn ≠ dot) && !X.isClean fn)

/-- The source method Envelope.Verify: none for the Go result nil. -/
def Verify (X : Ext) (e : Envelope) : Option Err :=
  match mapGet e dot with
  | none => some .messageFileMissing
  | some idx =>
    if idx.length = 0 then some .emptyMessage
    else if !X.utf8Valid idx then some .notUtf8
    else
      match MessageHeader idx with
      | .error err => some err
      | .ok fields =>
        match mapGet fields (ascii "Sender") with
        | none => some .senderMissing
        | some sender =>
          if sender.length ≠ 52 ∨ X.toUpper sender ≠ sender then some .senderBogus
          else
            match mapGet fields (ascii "Group") with
            | none => some .groupMissing
            | some group =>
              if group.length = 0 then some .groupMissing
              else
                match mapGet fields (ascii "Date") with
                | some msgDate =>
                  match X.parseTime msgDate with
                  | none => some .datetimeParse
                  | some _ =>
                    match firstIllegal X e with
                    | some fn => some (.illegalFilename fn)
                    | none => none
                | none =>
                  match firstIllegal X e with
                  | some fn => some (.illegalFilename fn)
                  | none => none

/-- The loop of Write over the sorted filenames: each step appends one entry
line to the header buffer and the content found under the name to the body
buffer (a name that is not a key yields the nil slice). -/
def writeLoop (e : Envelope) : List Bytes → Bytes → Bytes → Bytes × Bytes
  | [], header, body => (header, body)
  | name :: rest, header, body =>
    let content := (mapGet e name).getD []
    writeLoop e rest (header ++ (itoa content.length ++ [32] ++ name ++ [10])) (body ++ content)

/-- The source method Envelope.Write: write an envelope into a byte array. -/
def Write (X : Ext) (e : Envelope) : Except Err Bytes :=
  match Verify X e with
  | some err => .error err
  | none =>
    let filenames := sortStrings ((mapKeys e).map trimSpace)
    let hb := writeLoop e filenames (MAGIC ++ [10]) []
    .ok ((hb.1 ++ (endLine ++ [10])) ++ hb.2)

/-- The first loop of Read: lines are read up to the line "end".  The first
argument bounds the number of lines by the number of unread bytes; when it
is 0 no byte is left and ReadString reports the end of the input. -/
def headerLoop : Nat → Bytes → List Bytes → Nat → Except Err (List Bytes × Nat)
  | 0, _, _, _ => .error .readEOF
  | fuel + 1, src, lines, totalHeaderLen =>
    match readString 10 src with
    | none => .error .readEOF
    | some (line, rest) =>
      let tLine := trimRightNL line
      if tLine = endLine then .ok (lines ++ [tLine], totalHeaderLen + line.length)
      else headerLoop fuel rest (lines ++ [tLine]) (totalHeaderLen + line.length)

/-- The second loop of Read: every entry line is split into a length and a
name; entries and usedNames are the lists built so far. -/
def parseEntries : List Bytes → List (Bytes × Int) → List Bytes →
    Except Err (List (Bytes × Int))
  | [], entries, _ => .ok entries
  | line :: rest, entries, usedNames =>
    match splitN2 line [32] with
    | [p0, p1] =>
      let fn := trimSpace p1
      if usedNames.contains fn then .error (.duplicateName fn)
      else
        match atoi p0 with
        | none => .error (.invalidLength line)
        | some length => parseEntries rest (entries ++ [(fn, length)]) (usedNames ++ [fn])
    | _ => .error (.invalidFileEntry line)

/-- The third loop of Read: the body is cut into the segments.  The slice
expression body[offset : offset+length] aborts when its bounds are not in
the order 0 ≤ low ≤ high ≤ cap(body). -/
def fillLoop (body : Bytes) : List (Bytes × Int) → Int → Envelope → Res Envelope
  | [], _, envelope => .ok envelope
  | (name, length) :: rest, offset, envelope =>
    let high := wrapInt64 (offset + length)
    if high > (body.length : Int) then .error (.notEnoughData name)
    else if offset < 0 ∨ high < offset then .panic
    else
      fillLoop body rest high
        (mapSet envelope name ((body.drop offset.toNat).take (high - offset).toNat))

/-- The source function Read: read an envelope from a byte array. -/
def Read (X : Ext) (source : Bytes) : Res Envelope :=
  match headerLoop source.length source [] 0 with
  | .error err => .error err
  | .ok (lines, totalHeaderLen) =>
    if lines.length = 0 ∨ lines.head? ≠ some MAGIC then .error .missingHeader
    else
      match parseEntries ((lines.take (lines.length - 1)).drop 1) [] [] with
      | .error err => .error err
      | .ok entries =>
        match fillLoop (source.drop totalHeaderLen) entries 0 [] with
        | .panic => .panic
        | .error err => .error err
        | .ok envelope =>
          match Verify X envelope with
          | some err => .error (.decoding err)
          | none => .ok envelope

/-- A more advanced message structure produced by parsing an envelope and
header of the message inside. -/
structure EchomailMessage where
  MsgId : Bytes
  Sender : Bytes
  Group : Bytes
  Date : Option Time
  Header : GoMap Bytes
  Message : Bytes
  Attachments : GoMap Bytes
  deriving DecidableEq, Repr

/-- The source method Envelope.Parse: parse an envelope, producing a more
wieldy message struct.  A lookup of a missing key yields the empty string.
Each iteration of the range loop over the envelope has its own variable fd
(Go 1.22 and later; the source needs Go 1.21 or later for the package
slices), so the pointer stored under fn points to the content of fn. -/
def Parse (X : Ext) (e : Envelope) : Except Err EchomailMessage :=
  match Verify X e with
  | some err => .error err
  | none =>
    let body := (mapGet e dot).getD []
    let hdr := match getHeader body with
      | .ok h => h
      | .error _ => []
    let header := match parseHeader hdr with
      | .ok f => f
      | .error _ => []
    .ok {
      MsgId := X.computeMsgId body
      Sender := (mapGet header (ascii "Sender")).getD []
      Group := (mapGet header (ascii "Group")).getD []
      Date := match mapGet header (ascii "Date") with
        | some dateString => some ((X.parseTime dateString).getD Time.zero)
        | none => none
      Header := header
      Message := body
      Attachments := e.filter (fun p => decide (p.1 ≠ dot)) }

/-! ## A reference instance of the external functions

The instance `refExt` is used to evaluate the codec on concrete inputs. -/

/-- A UTF-8 continuation byte. -/
def isCont (c : Nat) : Bool := decide (0x80 ≤ c) && decide (c ≤ 0xBF)

/-- Modelled from the spec: utf8.Valid, the test that a byte sequence is
well-formed UTF-8 (shortest encodings only, no surrogates, at most U+10FFFF). -/
def utf8Valid : Bytes → Bool
  | [] => true
  | [a] => decide (a < 0x80)
  | [a, b] =>
    if a < 0x80 then utf8Valid [b]
    else decide (0xC2 ≤ a) && decide (a ≤ 0xDF) && isCont b
  | a :: b :: c :: rest =>
    if a < 0x80 then utf8Valid (b :: c :: rest)
    else if 0xC2 ≤ a ∧ a ≤ 0xDF then isCont b && utf8Valid (c :: rest)
    else if 0xE0 ≤ a ∧ a ≤ 0xEF then
      isCont b && isCont c && decide (a = 0xE0 → 0xA0 ≤ b) && decide (a = 0xED → b ≤ 0x9F)
        && utf8Valid rest
    else if 0xF0 ≤ a ∧ a ≤ 0xF4 then
      match rest with
      | [] => false
      | d :: rest1 =>
        isCont b && isCont c && isCont d && decide (a = 0xF0 → 0x90 ≤ b)
          && decide (a = 0xF4 → b ≤ 0x8F) && utf8Valid rest1
    else false

/-- Modelled from the spec: strings.ToUpper on the ASCII letters; every other
byte is kept (the library also maps the letters of other scripts). -/
def toUpperASCII (s : Bytes) : Bytes :=
  s.map (fun c => if 97 ≤ c ∧ c ≤ 122 then c - 32 else c)

/-- Modelled from the spec: pathologize.IsClean, the test for a clean relative
filename: not empty, not `.`, not `..`, and without a path separator or NUL
(so no path traversal, no parent-directory segment, no absolute path). -/
def isCleanName (fn : Bytes) : Bool :=
  decide (fn ≠ []) && decide (fn ≠ ascii ".") && decide (fn ≠ ascii "..")
    && !fn.contains 47 && !fn.contains 92 && !fn.contains 0

/-- A decimal digit. -/
def isDigit (c : Nat) : Bool := decide (48 ≤ c) && decide (c ≤ 57)

/-- A number of exactly two digits at the start of the text. -/
def getnum2 : Bytes → Option (Nat × Bytes)
  | a :: b :: r => if isDigit a && isDigit b then some ((a - 48) * 10 + (b - 48), r) else none
  | _ => none

/-- A number of one or two digits at the start of the text. -/
def getnum12 : Bytes → Option (Nat × Bytes)
  | [] => none
  | [a] => if isDigit a then some (a - 48, []) else none
  | a :: b :: r =>
    if !isDigit a then none
    else if isDigit b then some ((a - 48) * 10 + (b - 48), r)
    else some (a - 48, b :: r)

/-- The text after the byte c, which must start it. -/
def skipByte (c : Nat) : Bytes → Option Bytes
  | [] => none
  | x :: r => if x = c then some r else none

/-- The text after the blank of the layout: an empty text is left as it is,
otherwise the text must start with a blank and all leading blanks go. -/
def skipBlank : Bytes → Option Bytes
  | [] => some []
  | x :: r => if x = 32 then some (r.dropWhile (fun c => c = 32)) else none

/-- The number of days of a month. -/
def daysIn (month year : Nat) : Nat :=
  if month = 2 then
    if year % 4 = 0 ∧ (year % 100 ≠ 0 ∨ year % 400 = 0) then 29 else 28
  else if month = 4 ∨ month = 6 ∨ month = 9 ∨ month = 11 then 30
  else 31

/-- The fraction of a second after the seconds, which the library accepts
although the layout has none: a period or comma and digits.  Returns the
nanoseconds (from the first nine digits) and the text left. -/
def fracSecond (v : Bytes) : Nat × Bytes :=
  match v with
  | p :: d :: r =>
    if (p = 46 ∨ p = 44) ∧ isDigit d then
      let ds := (d :: r).takeWhile isDigit
      let ds9 := ds.take 9
      ((ds9.foldl (fun acc c => acc * 10 + (c - 48)) 0) * 10 ^ (9 - ds9.length),
        (d :: r).dropWhile isDigit)
    else (0, v)
  | _ => (0, v)

/-- Modelled from the spec: time.ParseInLocation with the layout
"2006-01-02 15:04:05" (DateFormat) in UTC; none for an error. -/
def parseDateFormat (v : Bytes) : Option Time :=
  match v with
  | y1 :: y2 :: y3 :: y4 :: v1 =>
    if !(isDigit y1 && isDigit y2 && isDigit y3 && isDigit y4) then none
    else
      let year := (y1 - 48) * 1000 + (y2 - 48) * 100 + (y3 - 48) * 10 + (y4 - 48)
      match skipByte 45 v1 with
      | none => none
      | some v2 =>
      match getnum2 v2 with
      | none => none
      | some (month, v3) =>
      if month = 0 ∨ 12 < month then none else
      match skipByte 45 v3 with
      | none => none
      | some v4 =>
      match getnum2 v4 with
      | none => none
      | some (day, v5) =>
      match skipBlank v5 with
      | none => none
      | some v6 =>
      match getnum12 v6 with
      | none => none
      | some (hour, v7) =>
      if 24 ≤ hour then none else
      match skipByte 58 v7 with
      | none => none
      | some v8 =>
      match getnum2 v8 with
      | none => none
      | some (minute, v9) =>
      if 60 ≤ minute then none else
      match skipByte 58 v9 with
      | none => none
      | some v10 =>
      match getnum2 v10 with
      | none => none
      | some (second, v11) =>
      if 60 ≤ second then none else
      let fr := fracSecond v11
      if fr.2 ≠ [] then none
      else if day < 1 ∨ daysIn month year < day then none
      else some ⟨year, month, day, hour, minute, second, fr.1⟩
  | _ => none

/-- The reference instance.  Its last field stands in for the digest of the
message file, which no statement below depends on. -/
def refExt : Ext where
  utf8Valid := utf8Valid
  toUpper := toUpperASCII
  parseTime := parseDateFormat
  isClean := isCleanName
  computeMsgId := fun body => body

/-! ## Sample data -/

/-- A sender identifier: 52 times the letter A. -/
def sampleSender : Bytes := List.replicate 52 65

/-- A message file with a header block that passes every check and has no Date. -/
def sampleMsg : Bytes :=
  ascii "```Echomail\nSender: " ++ sampleSender ++ ascii "\nGroup: test\n```\nHello"

/-- The checks of Verify other than the one on the Date field, for the
message file idx, its parsed header fields, and the values of the Sender and
Group fields. -/
structure OtherChecks (X : Ext) (e : Envelope) (idx : Bytes) (fields : GoMap Bytes)
    (sender group : Bytes) : Prop where
  hidx : mapGet e dot = some idx
  hlen : idx.length ≠ 0
  hutf : X.utf8Valid idx = true
  hhdr : MessageHeader idx = .ok fields
  hsender : mapGet fields (ascii "Sender") = some sender
  hslen : sender.length = 52
  hsup : X.toUpper sender = sender
  hgroup : mapGet fields (ascii "Group") = some group
  hglen : group.length ≠ 0
  hnames : firstIllegal X e = none

/-- All the checks of Verify: the envelope passes exactly when they hold. -/
structure Verified (X : Ext) (e : Envelope) (idx : Bytes) (fields : GoMap Bytes)
    (sender group : Bytes) extends OtherChecks X e idx fields sender group : Prop where
  hdate : ∀ d, mapGet fields (ascii "Date") = some d → X.parseTime d ≠ none

/-- The number of characters of a well-formed UTF-8 text: its bytes that are
not continuation bytes. -/
def runeCount (s : Bytes) : Nat := (s.filter (fun c => !isCont c)).length

/-- A wire blob whose only entry line declares the length -1. -/
def negativeLengthBlob : Bytes := ascii "ECHO 1.0\n-1 .\nend\n"

/-- A wire blob with a one-byte body section whose entry lines declare the
lengths 1 and 9223372036854775807. -/
def overflowBlob : Bytes := ascii "ECHO 1.0\n1 a\n9223372036854775807 b\nend\nX"

/-- A sender value of 52 bytes and 18 characters: 17 euro signs and the letter A. -/
def euroSender : Bytes := (List.replicate 17 [0xE2, 0x82, 0xAC]).flatten ++ [65]

/-- A message file whose Sender is euroSender. -/
def euroMsg : Bytes :=
  ascii "```Echomail\nSender: " ++ euroSender ++ ascii "\nGroup: test\n```\nHello"

/-- A message file whose Date field does not parse. -/
def badDateMsg : Bytes :=
  ascii "```Echomail\nSender: " ++ sampleSender ++ ascii "\nGroup: test\nDate: tomorrow\n```\nHello"

/-- A message file whose Date field parses. -/
def datedMsg : Bytes :=
  ascii "```Echomail\nSender: " ++ sampleSender
    ++ ascii "\nGroup: test\nDate: 2024-01-02 03:04:05\n```\nHello"

/-- An envelope with an attachment whose name leaves the directory. -/
def traversalEnv : Envelope := [(dot, sampleMsg), (ascii "a/../b", ascii "data")]

/-- An envelope with an attachment whose name is an absolute path. -/
def absoluteEnv : Envelope := [(ascii "/etc/passwd", ascii "data"), (dot, sampleMsg)]

/-- An envelope with an attachment whose name is empty. -/
def emptyNameEnv : Envelope := [(dot, sampleMsg), ([], ascii "data")]

/-- An envelope with two attachments. -/
def sampleEnv : Envelope :=
  [(ascii "b.txt", ascii "xyz"), (dot, sampleMsg), (ascii "a.txt", ascii "12")]

/-- The parsed header of badDateMsg. -/
def badDateFields : GoMap Bytes :=
  [(ascii "Sender", sampleSender), (ascii "Group", ascii "test"), (ascii "Date", ascii "tomorrow")]

/-- The order of sort.Strings as a relation. -/
def StrLE (a b : Bytes) : Prop := strLe a b = true

/-- The envelope sampleEnv with its entries in another iteration order. -/
def sampleEnvReordered : Envelope :=
  [(dot, sampleMsg), (ascii "a.txt", ascii "12"), (ascii "b.txt", ascii "xyz")]

/-- The segment name an entry line declares: the text after the first blank
of the line, as Read takes it (white space around it removed); none when the
line has no blank. -/
def entryName (line : Bytes) : Option Bytes :=
  match splitN2 line [32] with
  | [_, p1] => some (trimSpace p1)
  | _ => none

/-- The entry lines of a header section: all its lines but the first (the
magic line) and the last (the line `end`), the slice lines[1 : len(lines)-1]. -/
def entryLines (lines : List Bytes) : List Bytes := (lines.take (lines.length - 1)).drop 1

/-- A wire blob that names the segment `a.txt` on two entry lines. -/
def duplicateBlob : Bytes :=
  ascii "ECHO 1.0\n94 .\n2 a.txt\n3 a.txt\nend\n" ++ sampleMsg ++ ascii "12xyz"

/-- Lines put one after the other, each closed by a line feed. -/
def joinLines : List Bytes → Bytes
  | [] => []
  | l :: ls => l ++ 10 :: joinLines ls

/-- The wire format: the magic line, the given entry lines, the line `end`,
and the body section. -/
def wire (entryLns : List Bytes) (body : Bytes) : Bytes :=
  joinLines (MAGIC :: entryLns) ++ (endLine ++ 10 :: body)

/-- The entry line `<length> <name>` of a segment: the decimal length, one
blank, the name. -/
def entryLine (p : Nat × Bytes) : Bytes := itoa p.1 ++ 32 :: p.2

/-- The mapping the wire format stands for: the body section cut, from the
offset off on, into consecutive pieces of the declared lengths, each under
the declared name with the white space around it removed. -/
def segments : List (Nat × Bytes) → Bytes → Nat → Envelope
  | [], _, _ => []
  | p :: rest, body, off =>
    (trimSpace p.2, (body.drop off).take p.1) :: segments rest body (off + p.1)

/-- The sum of the declared lengths. -/
def totalLen (ents : List (Nat × Bytes)) : Nat := (ents.map Prod.fst).sum

/-- Declared segments, the second with a blank in front of its name. -/
def spacedEnts : List (Nat × Bytes) := [(94, dot), (1, ascii " a")]

/-- A body section for spacedEnts: the sample message and one more byte. -/
def spacedBody : Bytes := sampleMsg ++ ascii "x"

/-- An envelope with an attachment whose name starts with a blank. -/
def spacedEnv : Envelope := [(dot, sampleMsg), (ascii " a", ascii "xyz")]

/-- An envelope with two attachments whose names differ by a blank in front. -/
def clashEnv : Envelope :=
  [(dot, sampleMsg), (ascii " a", ascii "xyz"), (ascii "a", ascii "pq")]

/-- Declared segments in an order that is not the sorted one. -/
def sampleEnts : List (Nat × Bytes) := [(3, ascii "b.txt"), (94, dot), (2, ascii "a.txt")]

/-- A body section for sampleEnts, with two bytes to spare. -/
def sampleBody : Bytes := ascii "xyz" ++ sampleMsg ++ ascii "12" ++ ascii "!!"

/-- The entry line and content Write emits for the filename n: the content
is the one the envelope holds under n. -/
def contentOf (e : Envelope) (n : Bytes) : Bytes := (mapGet e n).getD []

/-- The output the claimed format prescribes for spacedEnv: its names in
ascending order are ` a` and `.`. -/
def spacedExpected : Bytes :=
  ascii "ECHO 1.0\n3  a\n94 .\nend\n" ++ ascii "xyz" ++ sampleMsg

/-- The text s is cut at the first occurrence of sep into pre and post. -/
def FirstCut (s sep pre post : Bytes) : Prop :=
  s = pre ++ sep ++ post ∧ ∀ pre1 post1, s = pre1 ++ sep ++ post1 → pre.length ≤ pre1.length

/-- The header line stands for the field k with the value v: with the white
space around the line removed, k is the trimmed text before the first `: `
and v the trimmed text after it. -/
def LineField (line k v : Bytes) : Prop :=
  ∃ pre post, FirstCut (trimSpace line) (ascii ": ") pre post
    ∧ k = trimSpace pre ∧ v = trimSpace post

/-- The conditions under which a header line is rejected: it is longer than
1024 bytes, or empty once trimmed, or (trimmed) without the separator `: `, or
the text before the first separator is empty once trimmed. -/
def BadLine (line : Bytes) : Prop :=
  1024 < line.length ∨ trimSpace line = []
    ∨ (¬ ∃ pre post, trimSpace line = pre ++ ascii ": " ++ post)
    ∨ (∃ pre post, FirstCut (trimSpace line) (ascii ": ") pre post ∧ trimSpace pre = [])

/-- The lines of a header block: CRLF replaced by LF, then split on LF. -/
def headerLines (data : Bytes) : List Bytes := splitByte 10 (replaceCRLF data)

/-- A header block whose first and third lines carry the same key. -/
def repeatedKeyHeader : Bytes := ascii "A: 1\r\nB: 2\nA:  3 "

/-- The text has no white space at either end: no encoding of a white-space
rune starts it or ends it. -/
def Trimmed (s : Bytes) : Prop := ∀ q ∈ spaceSeqs, ¬ q <+: s ∧ ¬ q <:+ s

/-- The text is made of members of seqs put one after the other. -/
inductive Stars (seqs : List Bytes) : Bytes → Prop where
  | nil : Stars seqs []
  | cons (q s : Bytes) (hq : q ∈ seqs) (hs : Stars seqs s) : Stars seqs (q ++ s)

/-- The text consists of white space only: it is made of encodings of
white-space runes. -/
def OnlySpace (ws : Bytes) : Prop := Stars spaceSeqs ws

/-- A header block that parses: two fields, with white space around the
second value. -/
def tidyHeader : Bytes := ascii "Subj: hello world\nGroup: \t test  "

/-! ## The thread builder (`cmd/echomail-index/index.go`)

A pointer to a message is modelled by the key of the message in msgMap: the
map holds one object per key.  The state of the program is the map of
message objects together with the slice `messages` of root pointers. -/

/-- The source type Message.  Children holds pointers to messages, that is
their keys in msgMap. -/
structure Message where
  MsgID : Bytes
  Parent : Option Bytes
  Date : Option Time
  From : Bytes
  Subj : Bytes
  Children : List Bytes
  deriving DecidableEq, Repr

/-- The program state: the message objects, and the slice messages. -/
structure Forest where
  heap : GoMap Message
  roots : List Bytes
  deriving DecidableEq, Repr

/-- The field Children of the message a pointer points to. -/
def kids (heap : GoMap Message) (id : Bytes) : List Bytes :=
  match mapGet heap id with
  | some m => m.Children
  | none => []

/-- The field Date of the message a pointer points to. -/
def dateOf (heap : GoMap Message) (id : Bytes) : Option Time :=
  match mapGet heap id with
  | some m => m.Date
  | none => none

/-- The assignment of a new value to the field Children of a message. -/
def setKids (heap : GoMap Message) (id : Bytes) (cs : List Bytes) : GoMap Message :=
  heap.map (fun p => if p.1 = id then (p.1, { p.2 with Children := cs }) else p)

/-- The loop of indexMail that makes the tree: it ranges over msgMap (the
first argument is what is left of the iteration); a message whose Parent
names a key of the map is appended to the Children of that message, any
other message is appended to the slice messages. -/
def linkLoop : List (Bytes × Message) → GoMap Message → List Bytes →
    GoMap Message × List Bytes
  | [], heap, messages => (heap, messages)
  | (id, msg) :: rest, heap, messages =>
    match msg.Parent with
    | some p =>
      match mapGet heap p with
      | some parent => linkLoop rest (setKids heap p (parent.Children ++ [id])) messages
      | none => linkLoop rest heap (messages ++ [id])
    | none => linkLoop rest heap (messages ++ [id])

/-- The state after the linking loop, started with an empty slice messages. -/
def linkMessages (msgMap : GoMap Message) : Forest :=
  let r := linkLoop msgMap msgMap []
  ⟨r.1, r.2⟩

/-- The fields of a time in the order of their weight. -/
def Time.toList (t : Time) : List Nat :=
  [t.year, t.month, t.day, t.hour, t.minute, t.second, t.nsec]

/-- Modelled from the spec: the library method Time.Compare, on times given
by their UTC calendar fields: -1 when t is before u, +1 when it is after, 0
when they are the same. -/
def Time.Compare (t u : Time) : Int :=
  if t.toList < u.toList then -1 else if u.toList < t.toList then 1 else 0

/-- The comparison function of sortMessagesByDate, on the Date fields. -/
def compareDates (a b : Option Time) : Int :=
  match a, b with
  | none, none => 0
  | none, some _ => -1
  | some _, none => 1
  | some x, some y => x.Compare y

/-- A sorting function as the library function slices.SortFunc is: it takes
the comparison function and the slice (here a slice of pointers).  The source
functions below take the sorting function as a parameter. -/
abbrev SortFn := (Bytes → Bytes → Int) → List Bytes → List Bytes

/-- The comparison function cmp is a strict weak ordering, read as
`a is less than b` when cmp a b is negative. -/
def StrictWeak (cmp : Bytes → Bytes → Int) : Prop :=
  (∀ a, ¬ cmp a a < 0)
  ∧ (∀ a b c, cmp a b < 0 → cmp b c < 0 → cmp a c < 0)
  ∧ (∀ a b c, ¬ cmp a b < 0 → ¬ cmp b a < 0 → ¬ cmp b c < 0 → ¬ cmp c b < 0 →
      ¬ cmp a c < 0 ∧ ¬ cmp c a < 0)

/-- What the documentation of slices.SortFunc promises: the result is a
rearrangement of the slice, and for a strict weak ordering it is in ascending
order (no element is less than one before it).  The sort is not guaranteed
to be stable. -/
def SortContract (sort : SortFn) : Prop :=
  ∀ cmp l, (sort cmp l).Perm l
    ∧ (StrictWeak cmp → (sort cmp l).Pairwise (fun a b => ¬ cmp b a < 0))

/-- The source function sortMessagesByDate: the slice sorted with
slices.SortFunc by the Date the pointers point to. -/
def sortMessagesByDate (sort : SortFn) (heap : GoMap Message) (messages : List Bytes) :
    List Bytes :=
  sort (fun a b => compareDates (dateOf heap a) (dateOf heap b)) messages

/-- The slice an argument of sortTreeByDate stands for: none for the slice
messages, some id for the field Children of the message id. -/
def slice (st : Forest) : Option Bytes → List Bytes
  | none => st.roots
  | some id => kids st.heap id

/-- The slice sorted in place: its new content is visible where it is stored. -/
def setSlice (st : Forest) : Option Bytes → List Bytes → Forest
  | none, l => { st with roots := l }
  | some id, l => { st with heap := setKids st.heap id l }

/-- The loop `for _, child := range root` of sortTreeByDate, recur being the
recursive call on child.Children. -/
def sortLoop (recur : Forest → Option Bytes → Option Forest) : List Bytes → Forest →
    Option Forest
  | [], st => some st
  | child :: rest, st =>
    match recur st (some child) with
    | none => none
    | some st1 => sortLoop recur rest st1

/-- The source function sortTreeByDate on the slice ref.  The first argument
bounds the depth of the recursion; none means the bound was reached. -/
def sortTreeByDate (sort : SortFn) : Nat → Forest → Option Bytes → Option Forest
  | 0, _, _ => none
  | fuel + 1, st, ref =>
    let sorted := sortMessagesByDate sort st.heap (slice st ref)
    sortLoop (sortTreeByDate sort fuel) sorted (setSlice st ref sorted)

/-- Modelled from the spec: one pass of an insertion sort; the element x is
moved to the left past every element (the list holds them nearest first) that
it is less than. -/
def insertLeft (cmp : Bytes → Bytes → Int) (x : Bytes) : List Bytes → List Bytes
  | [] => [x]
  | y :: ys => if cmp x y < 0 then y :: insertLeft cmp x ys else x :: y :: ys

/-- Modelled from the spec: insertion sort, the sort slices.SortFunc runs on
a slice of at most 12 elements; done holds the sorted part in reverse. -/
def insertionLoop (cmp : Bytes → Bytes → Int) : List Bytes → List Bytes → List Bytes
  | done, [] => done.reverse
  | done, x :: xs => insertionLoop cmp (insertLeft cmp x done) xs

/-- Modelled from the spec: insertion sort in the place of slices.SortFunc,
an instance of the parameter to evaluate examples with. -/
def insertionSortFunc : SortFn := fun cmp l => insertionLoop cmp [] l

/-! ## The library sort (`slices.SortFunc`)

The thread builder sorts with slices.SortFunc of the Go standard library,
which is outside the source tree; the spec names no algorithm.  The
definitions of this section follow the algorithm of the library (package
slices, pattern-defeating quicksort), function by function and under the
names of the library; the slice is a list that is read and written by index.
The statements about sortTreeByDate for every sorting function take the sort
as a parameter; SortFunc is what the parameter is in the program. -/

/-- The resolvable parent of a message: the key its Parent names, when that
is a key of msgMap. -/
def parentOf (msgMap : GoMap Message) (n : Bytes) : Option Bytes :=
  match mapGet msgMap n with
  | none => none
  | some m =>
    match m.Parent with
    | none => none
    | some p => if p ∈ mapKeys msgMap then some p else none

/-- The message n is d steps of ReplyTo away from a message of the map that
has no resolvable parent. -/
inductive AtDepth (msgMap : GoMap Message) : Nat → Bytes → Prop where
  | root (n : Bytes) (hn : n ∈ mapKeys msgMap) (hp : parentOf msgMap n = none) :
      AtDepth msgMap 0 n
  | step (d : Nat) (n p : Bytes) (hp : parentOf msgMap n = some p) (h : AtDepth msgMap d p) :
      AtDepth msgMap (d + 1) n

/-- The message a is reached from n by k steps of ReplyTo. -/
inductive Ancestor (msgMap : GoMap Message) : Nat → Bytes → Bytes → Prop where
  | self (n : Bytes) : Ancestor msgMap 0 n n
  | step (k : Nat) (n p a : Bytes) (hp : parentOf msgMap n = some p)
      (h : Ancestor msgMap k p a) : Ancestor msgMap (k + 1) n a

/-- The message n lies on a ReplyTo cycle (a message that replies to itself
lies on a cycle of one step). -/
def OnCycle (msgMap : GoMap Message) (n : Bytes) : Prop :=
  ∃ k, Ancestor msgMap (k + 1) n n

/-- The message n occurs in the forest: it is a root or a child of a message
that occurs. -/
inductive Reach (st : Forest) : Bytes → Prop where
  | root (n : Bytes) (h : n ∈ st.roots) : Reach st n
  | kid (n p : Bytes) (hp : Reach st p) (h : n ∈ kids st.heap p) : Reach st n

/-- A place of the message n in the forest: the list runs from n through its
parents up to a root. -/
inductive PathUp (st : Forest) : List Bytes → Bytes → Prop where
  | root (r : Bytes) (h : r ∈ st.roots) : PathUp st [r] r
  | kid (l : List Bytes) (n p : Bytes) (hp : PathUp st l p) (h : n ∈ kids st.heap p) :
      PathUp st (n :: l) n

/-- Dates in ascending order, a missing date before every date. -/
def DateLE : Option Time → Option Time → Prop
  | none, _ => True
  | some _, none => False
  | some x, some y => x.toList ≤ y.toList

/-- The slice is ordered by the dates of msgMap. -/
def DateSorted (msgMap : GoMap Message) (l : List Bytes) : Prop :=
  l.Pairwise (fun a b => DateLE (dateOf msgMap a) (dateOf msgMap b))

/-- The map is as indexMail builds it: no message has children yet. -/
def FreshMap (msgMap : GoMap Message) : Prop := ∀ p ∈ msgMap, p.2.Children = []

/-- A message object with the given key, parent and date. -/
def mkMsg (id : Bytes) (parent : Option Bytes) (date : Option Time) : Bytes × Message :=
  (id, ⟨id, parent, date, [], [], []⟩)

/-- The messages A, B replying to A, C replying to B, and D replying to a
message that is not there. -/
def threadMap : GoMap Message :=
  [mkMsg (ascii "C") (some (ascii "B")) none, mkMsg (ascii "A") none none,
   mkMsg (ascii "D") (some (ascii "missing")) none, mkMsg (ascii "B") (some (ascii "A")) none]

/-- Three messages without parent: dated 2024-01-02, dated 2024-01-01, and
without date. -/
def datedMap : GoMap Message :=
  [mkMsg (ascii "x") none (some ⟨2024, 1, 2, 0, 0, 0, 0⟩),
   mkMsg (ascii "y") none (some ⟨2024, 1, 1, 0, 0, 0, 0⟩),
   mkMsg (ascii "z") none none]

/-- Two messages that reply to each other, one that replies to itself, and
one that replies to the first. -/
def cycleMap : GoMap Message :=
  [mkMsg (ascii "A") (some (ascii "B")) none, mkMsg (ascii "B") (some (ascii "A")) none,
   mkMsg (ascii "S") (some (ascii "S")) none, mkMsg (ascii "E") (some (ascii "A")) none]

/-- The forest st holds the messages of msgMap linked by their resolvable
parents: the keys and dates are those of msgMap, the roots are the messages
without resolvable parent and the children of a message are the messages
whose resolvable parent it is, each list in some order. -/
def Linked (msgMap : GoMap Message) (st : Forest) : Prop :=
  mapKeys st.heap = mapKeys msgMap
  ∧ (∀ n, dateOf st.heap n = dateOf msgMap n)
  ∧ st.roots.Perm ((mapKeys msgMap).filter (fun n => parentOf msgMap n = none))
  ∧ ∀ p, (kids st.heap p).Perm ((mapKeys msgMap).filter (fun n => parentOf msgMap n = some p))

/-- Every list that is in date order in st is in date order in st1. -/
def Keeps (msgMap : GoMap Message) (st st1 : Forest) : Prop :=
  (DateSorted msgMap st.roots → DateSorted msgMap st1.roots)
  ∧ ∀ n, DateSorted msgMap (kids st.heap n) → DateSorted msgMap (kids st1.heap n)

/-- The sort key of a Date: the empty list for a missing date, which is
below the list of the fields of every date. -/
def dateKey : Option Time → List Nat
  | none => []
  | some t => t.toList

/-! ## Theorems -/

theorem Verify_eq_none_iff (X : Ext) (e : Envelope) :
    Verify X e = none ↔ ∃ idx fields sender group, Verified X e idx fields sender group := by
  constructor
  · intro h
    unfold Verify at h
    split at h
    · simp at h
    · rename_i idx hidx
      split at h
      · simp at h
      · rename_i hlen
        split at h
        · simp at h
        · rename_i hutf
          split at h
          · simp at h
          · rename_i fields hhdr
            split at h
            · simp at h
            · rename_i sender hsender
              split at h
              · simp at h
              · rename_i hs
                split at h
                · simp at h
                · rename_i group hgroup
                  split at h
                  · simp at h
                  · rename_i hglen
                    have hs1 : sender.length = 52 ∧ X.toUpper sender = sender := by
                      by_contra hc
                      apply hs
                      by_cases h52 : sender.length = 52
                      · right; intro hu; exact hc ⟨h52, hu⟩
                      · left; exact h52
                    simp only [Bool.not_eq_true, Bool.not_eq_false] at hutf
                    split at h
                    · rename_i msgDate hdate
                      split at h
                      · simp at h
                      · rename_i t ht
                        split at h
                        · simp at h
                        · rename_i hill
                          refine ⟨idx, fields, sender, group, ⟨hidx, hlen, ?_, hhdr, hsender,
                            hs1.1, hs1.2, hgroup, hglen, hill⟩, ?_⟩
                          · simpa using hutf
                          · intro d hd
                            rw [hdate] at hd
                            cases hd
                            rw [ht]; simp
                    · rename_i hdate
                      split at h
                      · simp at h
                      · rename_i hill
                        refine ⟨idx, fields, sender, group, ⟨hidx, hlen, ?_, hhdr, hsender,
                            hs1.1, hs1.2, hgroup, hglen, hill⟩, ?_⟩
                        · simpa using hutf
                        · intro d hd
                          rw [hdate] at hd
                          cases hd
  · rintro ⟨idx, fields, sender, group, hv⟩
    unfold Verify
    simp only [hv.hidx, hv.hlen, hv.hutf, hv.hhdr, hv.hsender, hv.hslen, hv.hsup, hv.hgroup,
      hv.hnames]
    have hg : group ≠ [] := fun hg0 => hv.hglen (by simp [hg0])
    have hi : idx ≠ [] := fun hi0 => hv.hlen (by simp [hi0])
    cases hd : mapGet fields (ascii "Date") with
    | none => simp [hg, hi]
    | some d =>
      simp only [List.length_eq_zero, hg, hi]
      have := hv.hdate d hd
      cases hp : X.parseTime d with
      | none => exact absurd hp this
      | some t => simp [hg, hi]

theorem Verify_date_error (X : Ext) (e : Envelope) (idx : Bytes) (fields : GoMap Bytes)
    (sender group d : Bytes) (ho : OtherChecks X e idx fields sender group)
    (hd : mapGet fields (ascii "Date") = some d) (hp : X.parseTime d = none) :
    Verify X e = some .datetimeParse := by
  have hg : group ≠ [] := fun hg0 => ho.hglen (by simp [hg0])
  have hi : idx ≠ [] := fun hi0 => ho.hlen (by simp [hi0])
  unfold Verify
  simp only [ho.hidx, ho.hutf, ho.hhdr, ho.hsender, ho.hslen, ho.hsup, ho.hgroup, hd, hp]
  simp [hg, hi]

theorem firstIllegal_eq_none_iff (X : Ext) (e : Envelope) :
    firstIllegal X e = none ↔ ∀ fn ∈ mapKeys e, fn ≠ dot → X.isClean fn = true := by
  unfold firstIllegal
  rw [List.find?_eq_none]
  constructor
  · intro h fn hmem hne
    have := h fn hmem
    simpa [hne] using this
  · intro h fn hmem
    by_cases hne : fn = dot
    · simp [hne]
    · simp [hne, h fn hmem hne]

/-! ### Read on malformed length fields -/

/-- C2 (the code at the failing input): on the wire blob whose only entry line
is `-1 .`, Read neither returns an envelope nor an error: strconv.Atoi accepts
the length -1, the bounds test `offset+entry.length > len(body)` lets it
through, and the slice expression body[0:-1] aborts.  This holds whatever the
external functions are. -/
theorem read_negative_length_panics (X : Ext) : Read X negativeLengthBlob = Res.panic := by
  rfl

/-- C3 (the code at the failing input): the blob overflowBlob has a complete
header section (magic line, two entry lines, `end` line); its entry lines
declare the lengths 1 and 9223372036854775807, whose sum exceeds the single
byte left after the header; and Read aborts instead of returning an error,
because `offset+entry.length` wraps around to a negative value. -/
theorem read_overflow_panics :
    headerLoop overflowBlob.length overflowBlob [] 0
      = .ok ([MAGIC, ascii "1 a", ascii "9223372036854775807 b", endLine], 39)
    ∧ parseEntries [ascii "1 a", ascii "9223372036854775807 b"] [] []
      = .ok [(ascii "a", 1), (ascii "b", 9223372036854775807)]
    ∧ (overflowBlob.drop 39).length = 1
    ∧ ∀ X : Ext, Read X overflowBlob = Res.panic := by
  refine ⟨by rfl, by rfl, by decide, fun X => by rfl⟩

/-! ### The checks of Verify -/

/-- C8 (counterexample to the claim as stated): Verify accepts an envelope
whose Sender value has 18 characters, not 52: seventeen euro signs and the
letter A, 52 bytes in all. -/
theorem verify_accepts_18_character_sender :
    Verify refExt [(dot, euroMsg)] = none
    ∧ (∃ fields, MessageHeader euroMsg = .ok fields
        ∧ mapGet fields (ascii "Sender") = some euroSender)
    ∧ runeCount euroSender = 18 ∧ euroSender.length = 52 := by
  refine ⟨by decide, ⟨_, rfl, by decide⟩, by decide, by decide⟩

/-- C8 (amended): whenever Verify succeeds, the message file has a parsed
header with a Sender value that is exactly 52 bytes long and equal to its own
uppercase form; when that value is ASCII it has exactly 52 characters. -/
theorem verify_sender_check (X : Ext) (e : Envelope) (h : Verify X e = none) :
    ∃ idx fields sender, mapGet e dot = some idx ∧ MessageHeader idx = .ok fields
      ∧ mapGet fields (ascii "Sender") = some sender
      ∧ sender.length = 52 ∧ X.toUpper sender = sender
      ∧ ((∀ c ∈ sender, c < 128) → runeCount sender = 52) := by
  obtain ⟨idx, fields, sender, group, hv⟩ := (Verify_eq_none_iff X e).1 h
  refine ⟨idx, fields, sender, hv.hidx, hv.hhdr, hv.hsender, hv.hslen, hv.hsup, ?_⟩
  intro hascii
  unfold runeCount
  rw [List.filter_eq_self.2, hv.hslen]
  intro c hc
  have := hascii c hc
  simp [isCont]
  omega

/-- C8 (witness): the amended statement at an envelope that holds only the
sample message. -/
theorem verify_sender_check_witness :
    ∃ idx fields sender, mapGet [(dot, sampleMsg)] dot = some idx ∧ MessageHeader idx = .ok fields
      ∧ mapGet fields (ascii "Sender") = some sender
      ∧ sender.length = 52 ∧ refExt.toUpper sender = sender
      ∧ ((∀ c ∈ sender, c < 128) → runeCount sender = 52) :=
  verify_sender_check refExt [(dot, sampleMsg)] (by decide)

/-- C9: for every envelope and every segment name fn of it other than `.`,
Verify fails when fn does not pass the clean-filename check, and so, when
Verify succeeds, fn passes it. -/
theorem verify_attachment_names (X : Ext) (e : Envelope) (fn : Bytes)
    (hmem : fn ∈ mapKeys e) (hne : fn ≠ dot) :
    (X.isClean fn = false → Verify X e ≠ none)
    ∧ (Verify X e = none → X.isClean fn = true) := by
  have key : Verify X e = none → X.isClean fn = true := by
    intro h
    obtain ⟨idx, fields, sender, group, hv⟩ := (Verify_eq_none_iff X e).1 h
    exact (firstIllegal_eq_none_iff X e).1 hv.hnames fn hmem hne
  refine ⟨?_, key⟩
  intro hbad hok
  rw [key hok] at hbad
  exact Bool.noConfusion hbad

/-- C9 (witness): with the reference filename check, Verify fails on a name
containing `../`, on an absolute path and on the empty name, and the name
`a.txt` of an envelope that passes is clean. -/
theorem verify_attachment_names_witness :
    Verify refExt traversalEnv ≠ none ∧ Verify refExt absoluteEnv ≠ none
    ∧ Verify refExt emptyNameEnv ≠ none ∧ refExt.isClean (ascii "a.txt") = true :=
  ⟨(verify_attachment_names refExt traversalEnv (ascii "a/../b") (by decide) (by decide)).1
      (by decide),
   (verify_attachment_names refExt absoluteEnv (ascii "/etc/passwd") (by decide) (by decide)).1
      (by decide),
   (verify_attachment_names refExt emptyNameEnv [] (by decide) (by decide)).1 (by decide),
   (verify_attachment_names refExt sampleEnv (ascii "a.txt") (by decide) (by decide)).2
      (by decide)⟩

/-- C10 (counterexample to the claim as stated): the envelope holding
badDateMsg passes every check but the one on Date, its Date value `tomorrow`
does not parse, and Parse does not succeed on it: Parse runs Verify first and
returns the datetime error. -/
theorem parse_fails_on_unparsable_date :
    OtherChecks refExt [(dot, badDateMsg)] badDateMsg badDateFields sampleSender (ascii "test")
    ∧ mapGet badDateFields (ascii "Date") = some (ascii "tomorrow")
    ∧ refExt.parseTime (ascii "tomorrow") = none
    ∧ Verify refExt [(dot, badDateMsg)] = some .datetimeParse
    ∧ Parse refExt [(dot, badDateMsg)] = .error .datetimeParse := by
  refine ⟨⟨by decide, by decide, by decide, by rfl, by decide, by decide, by decide, by decide,
    by decide, by decide⟩, by decide, by decide, by decide, by rfl⟩

/-- C10 (amended): for every envelope that satisfies all other checks but
whose Date header value is present and does not parse, Verify fails with the
datetime error, and Parse, which runs Verify first, fails with the same
error and returns no message. -/
theorem unparsable_date_fatal (X : Ext) (e : Envelope) (idx : Bytes)
    (fields : GoMap Bytes) (sender group d : Bytes)
    (ho : OtherChecks X e idx fields sender group)
    (hd : mapGet fields (ascii "Date") = some d) (hp : X.parseTime d = none) :
    Verify X e = some .datetimeParse ∧ Parse X e = .error .datetimeParse := by
  have hv := Verify_date_error X e idx fields sender group d ho hd hp
  refine ⟨hv, ?_⟩
  unfold Parse
  rw [hv]

/-- C10 (witness): the amended statement at the envelope holding badDateMsg. -/
theorem unparsable_date_fatal_witness :
    Verify refExt [(dot, badDateMsg)] = some .datetimeParse
    ∧ Parse refExt [(dot, badDateMsg)] = .error .datetimeParse :=
  unparsable_date_fatal refExt [(dot, badDateMsg)] badDateMsg badDateFields sampleSender
    (ascii "test") (ascii "tomorrow")
    ⟨by decide, by decide, by decide, by rfl, by decide, by decide, by decide, by decide,
      by decide, by decide⟩ (by decide) (by decide)

/-! ### Maps -/

theorem mapGet_mem {β : Type} (m : GoMap β) (k : Bytes) (v : β) (h : mapGet m k = some v) :
    (k, v) ∈ m := by
  induction m with
  | nil => simp [mapGet] at h
  | cons p r ih =>
    obtain ⟨k1, v1⟩ := p
    unfold mapGet at h
    by_cases hk : k1 = k
    · rw [if_pos hk] at h
      cases h
      rw [hk]
      exact List.mem_cons_self _ _
    · rw [if_neg hk] at h
      exact List.mem_cons_of_mem _ (ih h)

theorem mapGet_of_mem {β : Type} (m : GoMap β) (k : Bytes) (v : β) (hwf : mapWF m)
    (h : (k, v) ∈ m) : mapGet m k = some v := by
  induction m with
  | nil => cases h
  | cons p r ih =>
    obtain ⟨k1, v1⟩ := p
    have hnd : k1 ∉ mapKeys r ∧ mapWF r := by
      simpa [mapWF, mapKeys] using hwf
    unfold mapGet
    rcases List.mem_cons.1 h with heq | hmem
    · cases heq
      simp
    · have hk : k1 ≠ k := by
        intro hk
        apply hnd.1
        rw [hk]
        exact List.mem_map_of_mem Prod.fst hmem
      rw [if_neg hk]
      exact ih hnd.2 hmem

theorem mapGet_none_iff {β : Type} (m : GoMap β) (k : Bytes) :
    mapGet m k = none ↔ k ∉ mapKeys m := by
  induction m with
  | nil => simp [mapGet, mapKeys]
  | cons p r ih =>
    obtain ⟨k1, v1⟩ := p
    unfold mapGet
    by_cases hk : k1 = k
    · simp [hk, mapKeys]
    · rw [if_neg hk, ih]
      simp [mapKeys, Ne.symm hk]

theorem mapWF_perm {β : Type} {m1 m2 : GoMap β} (hp : m1.Perm m2) (hwf : mapWF m1) :
    mapWF m2 :=
  (List.Perm.nodup_iff (hp.map Prod.fst)).1 hwf

theorem mapGet_perm {β : Type} {m1 m2 : GoMap β} (hp : m1.Perm m2) (hwf : mapWF m1)
    (k : Bytes) : mapGet m1 k = mapGet m2 k := by
  cases h1 : mapGet m1 k with
  | none =>
    have : k ∉ mapKeys m2 := fun hm =>
      (mapGet_none_iff m1 k).1 h1 ((hp.map Prod.fst).mem_iff.2 hm)
    exact ((mapGet_none_iff m2 k).2 this).symm
  | some v =>
    exact (mapGet_of_mem m2 k v (mapWF_perm hp hwf) (hp.mem_iff.1 (mapGet_mem m1 k v h1))).symm

/-! ### Verify does not depend on the iteration order -/

theorem Verify_none_of_same (X : Ext) (e1 e2 : Envelope)
    (hget : mapGet e1 dot = mapGet e2 dot)
    (hkeys : ∀ fn, fn ∈ mapKeys e1 ↔ fn ∈ mapKeys e2)
    (h : Verify X e1 = none) : Verify X e2 = none := by
  obtain ⟨idx, fields, sender, group, hv⟩ := (Verify_eq_none_iff X e1).1 h
  refine (Verify_eq_none_iff X e2).2 ⟨idx, fields, sender, group, ⟨?_, hv.hlen, hv.hutf, hv.hhdr,
    hv.hsender, hv.hslen, hv.hsup, hv.hgroup, hv.hglen, ?_⟩, hv.hdate⟩
  · rw [← hget]; exact hv.hidx
  · rw [firstIllegal_eq_none_iff]
    intro fn hmem
    exact (firstIllegal_eq_none_iff X e1).1 hv.hnames fn ((hkeys fn).2 hmem)

theorem Verify_none_perm (X : Ext) {e1 e2 : Envelope} (hp : e1.Perm e2) (hwf : mapWF e1) :
    Verify X e1 = none ↔ Verify X e2 = none := by
  have hk : ∀ fn, fn ∈ mapKeys e1 ↔ fn ∈ mapKeys e2 := fun fn => (hp.map Prod.fst).mem_iff
  constructor
  · exact Verify_none_of_same X e1 e2 (mapGet_perm hp hwf dot) hk
  · exact Verify_none_of_same X e2 e1 (mapGet_perm hp hwf dot).symm (fun fn => (hk fn).symm)

/-! ### Sorting -/

theorem strLe_refl (a : Bytes) : strLe a a = true := by
  induction a with
  | nil => rfl
  | cons x xs ih => simp [strLe, ih]

theorem strLe_total (a b : Bytes) : strLe a b = true ∨ strLe b a = true := by
  induction a generalizing b with
  | nil => left; rfl
  | cons x xs ih =>
    cases b with
    | nil => right; rfl
    | cons y ys =>
      unfold strLe
      rcases Nat.lt_trichotomy x y with h | h | h
      · left; simp [h]
      · subst h
        simpa using ih ys
      · right; simp [h]

theorem strLe_antisymm (a b : Bytes) (h1 : strLe a b = true) (h2 : strLe b a = true) :
    a = b := by
  induction a generalizing b with
  | nil =>
    cases b with
    | nil => rfl
    | cons y ys => simp [strLe] at h2
  | cons x xs ih =>
    cases b with
    | nil => simp [strLe] at h1
    | cons y ys =>
      unfold strLe at h1 h2
      rcases Nat.lt_trichotomy x y with h | h | h
      · have : ¬ y < x := by omega
        simp [h, this] at h2
      · subst h
        simp at h1 h2
        rw [ih ys h1 h2]
      · have : ¬ x < y := by omega
        simp [h, this] at h1

theorem strLe_trans (a b c : Bytes) (h1 : strLe a b = true) (h2 : strLe b c = true) :
    strLe a c = true := by
  induction a generalizing b c with
  | nil => rfl
  | cons x xs ih =>
    cases b with
    | nil => simp [strLe] at h1
    | cons y ys =>
      cases c with
      | nil => simp [strLe] at h2
      | cons z zs =>
        unfold strLe at h1 h2 ⊢
        by_cases hxy : x < y
        · by_cases hyz : y < z
          · have : x < z := by omega
            simp [this]
          · by_cases hzy : z < y
            · simp [hyz, hzy] at h2
            · have : x < z := by omega
              simp [this]
        · by_cases hyx : y < x
          · simp [hxy, hyx] at h1
          · have hxy2 : x = y := by omega
            subst hxy2
            simp at h1
            by_cases hxz : x < z
            · simp [hxz]
            · by_cases hzx : z < x
              · simp [hxz, hzx] at h2
              · simp [hxz, hzx] at h2 ⊢
                exact ih ys zs h1 h2

theorem insertStr_perm (a : Bytes) (l : List Bytes) : (insertStr a l).Perm (a :: l) := by
  induction l with
  | nil => exact List.Perm.refl _
  | cons b bs ih =>
    unfold insertStr
    by_cases h : strLe a b = true
    · rw [if_pos h]
    · rw [if_neg h]
      exact (List.Perm.cons b ih).trans (List.Perm.swap a b bs)

theorem sortStrings_perm (l : List Bytes) : (sortStrings l).Perm l := by
  induction l with
  | nil => exact List.Perm.refl _
  | cons a as ih =>
    unfold sortStrings
    exact (insertStr_perm a _).trans (List.Perm.cons a ih)

theorem insertStr_sorted (a : Bytes) (l : List Bytes) (h : l.Pairwise StrLE) :
    (insertStr a l).Pairwise StrLE := by
  induction l with
  | nil => simp [insertStr]
  | cons b bs ih =>
    unfold insertStr
    have hb := List.pairwise_cons.1 h
    by_cases hab : strLe a b = true
    · rw [if_pos hab]
      refine List.pairwise_cons.2 ⟨?_, h⟩
      intro c hc
      rcases List.mem_cons.1 hc with rfl | hc
      · exact hab
      · exact strLe_trans a b c hab (hb.1 c hc)
    · rw [if_neg hab]
      refine List.pairwise_cons.2 ⟨?_, ih hb.2⟩
      intro c hc
      rcases List.mem_cons.1 ((insertStr_perm a bs).mem_iff.1 hc) with rfl | hc
      · rcases strLe_total c b with h1 | h1
        · exact absurd h1 hab
        · exact h1
      · exact hb.1 c hc

theorem sortStrings_sorted (l : List Bytes) : (sortStrings l).Pairwise StrLE := by
  induction l with
  | nil => exact List.Pairwise.nil
  | cons a as ih => exact insertStr_sorted a _ ih

theorem sorted_perm_unique (l1 l2 : List Bytes) (hp : l1.Perm l2)
    (h1 : l1.Pairwise StrLE) (h2 : l2.Pairwise StrLE) : l1 = l2 := by
  haveI : IsAntisymm Bytes StrLE := ⟨fun a b => strLe_antisymm a b⟩
  exact List.eq_of_perm_of_sorted hp h1 h2

theorem sortStrings_eq_of_perm (l1 l2 : List Bytes) (hp : l1.Perm l2) :
    sortStrings l1 = sortStrings l2 :=
  sorted_perm_unique _ _ (((sortStrings_perm l1).trans hp).trans (sortStrings_perm l2).symm)
    (sortStrings_sorted l1) (sortStrings_sorted l2)

/-! ### Write does not depend on the iteration order -/

theorem writeLoop_congr (e1 e2 : Envelope) (hget : ∀ k, mapGet e1 k = mapGet e2 k)
    (names : List Bytes) (header body : Bytes) :
    writeLoop e1 names header body = writeLoop e2 names header body := by
  induction names generalizing header body with
  | nil => rfl
  | cons n ns ih =>
    unfold writeLoop
    simp only [hget n]
    exact ih _ _

theorem Write_perm (X : Ext) (e1 e2 : Envelope) (hwf : mapWF e1) (hp : e1.Perm e2)
    (h : Verify X e1 = none) : Write X e1 = Write X e2 := by
  have h2 := (Verify_none_perm X hp hwf).1 h
  unfold Write
  rw [h, h2]
  simp only
  have hs : sortStrings ((mapKeys e1).map trimSpace) = sortStrings ((mapKeys e2).map trimSpace) :=
    sortStrings_eq_of_perm _ _ ((hp.map Prod.fst).map trimSpace)
  rw [hs, writeLoop_congr e1 e2 (fun k => mapGet_perm hp hwf k)]

theorem Write_error_of_Verify (X : Ext) (e : Envelope) (err : Err) (h : Verify X e = some err) :
    Write X e = .error err := by
  unfold Write
  rw [h]

/-- C7: the result of Write depends only on the set of entries of the
envelope.  Two envelopes that hold the same entries in different iteration
orders (one association list is a permutation of the other) succeed on the
same byte output or both fail. -/
theorem write_deterministic (X : Ext) (e1 e2 : Envelope) (hwf : mapWF e1) (hp : e1.Perm e2) :
    (∀ out, Write X e1 = .ok out ↔ Write X e2 = .ok out)
    ∧ ((∃ err, Write X e1 = .error err) ↔ (∃ err, Write X e2 = .error err)) := by
  cases h1 : Verify X e1 with
  | none =>
    rw [Write_perm X e1 e2 hwf hp h1]
    exact ⟨fun _ => Iff.rfl, Iff.rfl⟩
  | some err1 =>
    cases h2 : Verify X e2 with
    | none =>
      rw [(Verify_none_perm X hp hwf).2 h2] at h1
      cases h1
    | some err2 =>
      rw [Write_error_of_Verify X e1 err1 h1, Write_error_of_Verify X e2 err2 h2]
      constructor
      · intro out
        constructor <;> intro h <;> cases h
      · exact ⟨fun _ => ⟨err2, rfl⟩, fun _ => ⟨err1, rfl⟩⟩


/-- C7 (witness): the sample envelope and a reordering of it. -/
theorem write_deterministic_witness :
    (∀ out, Write refExt sampleEnv = .ok out ↔ Write refExt sampleEnvReordered = .ok out)
    ∧ ((∃ err, Write refExt sampleEnv = .error err)
        ↔ (∃ err, Write refExt sampleEnvReordered = .error err)) :=
  write_deterministic refExt sampleEnv sampleEnvReordered
    (by unfold mapWF mapKeys; decide) (by unfold sampleEnv sampleEnvReordered; decide)

/-! ### Duplicate names -/

theorem parseEntries_ok_distinct (L : List Bytes) (es : List (Bytes × Int)) (used : List Bytes)
    (res : List (Bytes × Int)) (h : parseEntries L es used = .ok res) :
    (∀ l ∈ L, ∀ n, entryName l = some n → n ∉ used)
    ∧ L.Pairwise (fun a b => ∀ n, entryName a = some n → entryName b ≠ some n) := by
  induction L generalizing es used with
  | nil => exact ⟨by simp, List.Pairwise.nil⟩
  | cons line rest ih =>
    unfold parseEntries at h
    split at h
    · rename_i p0 p1 hsplit
      have hname : entryName line = some (trimSpace p1) := by
        unfold entryName
        rw [hsplit]
      simp only at h
      split at h
      · cases h
      · rename_i hnot
        split at h
        · cases h
        · rename_i len hlen
          obtain ⟨ih1, ih2⟩ := ih _ _ h
          have hnot1 : trimSpace p1 ∉ used := by simpa using hnot
          constructor
          · intro l hl n hn
            rcases List.mem_cons.1 hl with rfl | hl
            · rw [hname] at hn
              cases hn
              exact hnot1
            · intro hmem
              exact ih1 l hl n hn (List.mem_append_left _ hmem)
          · refine List.pairwise_cons.2 ⟨?_, ih2⟩
            intro l hl n hn hn2
            rw [hname] at hn
            cases hn
            exact ih1 l hl _ hn2 (List.mem_append_right _ (List.mem_singleton_self _))
    · cases h

theorem parseEntries_duplicate (L : List Bytes) (i j : Nat) (li lj name : Bytes)
    (hij : i < j) (hi : L[i]? = some li) (hj : L[j]? = some lj)
    (hni : entryName li = some name) (hnj : entryName lj = some name) :
    ∃ err, parseEntries L [] [] = .error err := by
  cases h : parseEntries L [] [] with
  | error err => exact ⟨err, rfl⟩
  | ok res =>
    exfalso
    obtain ⟨_, hpw⟩ := parseEntries_ok_distinct L [] [] res h
    obtain ⟨hi1, hi2⟩ := List.getElem?_eq_some.1 hi
    obtain ⟨hj1, hj2⟩ := List.getElem?_eq_some.1 hj
    have := List.pairwise_iff_getElem.1 hpw i j hi1 hj1 hij
    rw [hi2, hj2] at this
    exact this name hni hnj

/-- C4: for every input with a complete header section in which two
different entry lines declare the same segment name, Read returns an error;
no envelope results from a wire blob that names a segment twice. -/
theorem read_rejects_duplicate (X : Ext) (source : Bytes) (lines : List Bytes) (total : Nat)
    (i j : Nat) (li lj name : Bytes)
    (hscan : headerLoop source.length source [] 0 = .ok (lines, total))
    (hij : i < j) (hi : (entryLines lines)[i]? = some li) (hj : (entryLines lines)[j]? = some lj)
    (hni : entryName li = some name) (hnj : entryName lj = some name) :
    ∃ err, Read X source = .error err := by
  unfold Read
  rw [hscan]
  simp only
  split
  · exact ⟨_, rfl⟩
  · obtain ⟨err, herr⟩ := parseEntries_duplicate (entryLines lines) i j li lj name hij hi hj hni hnj
    unfold entryLines at herr
    rw [herr]
    exact ⟨_, rfl⟩

set_option maxRecDepth 100000 in
/-- C4 (witness): a blob whose second and third entry lines both name `a.txt`. -/
theorem read_rejects_duplicate_witness : ∃ err, Read refExt duplicateBlob = .error err :=
  read_rejects_duplicate refExt duplicateBlob
    [MAGIC, ascii "94 .", ascii "2 a.txt", ascii "3 a.txt", endLine] 34 1 2
    (ascii "2 a.txt") (ascii "3 a.txt") (ascii "a.txt")
    (by rfl) (by decide) (by rfl) (by rfl) (by rfl) (by rfl)

/-! ### Decimal numbers -/

theorem parseDigits_append (ds rest : Bytes) (a : Nat) :
    parseDigits (ds ++ rest) a
      = match parseDigits ds a with
        | none => none
        | some v => parseDigits rest v := by
  induction ds generalizing a with
  | nil => rfl
  | cons c cs ih =>
    simp only [List.cons_append, parseDigits]
    split
    · exact ih _
    · rfl

theorem itoaAux_spec (f n : Nat) (acc : Bytes) (h : n < 10 ^ (f + 1)) :
    ∃ ds : Bytes, itoaAux (f + 1) n acc = ds ++ acc ∧ ds ≠ []
      ∧ (∀ c ∈ ds, 48 ≤ c ∧ c ≤ 57)
      ∧ ∀ a, parseDigits ds a = some (a * 10 ^ ds.length + n) := by
  induction f generalizing n acc with
  | zero =>
    have hn : n < 10 := by simpa using h
    refine ⟨[48 + n], ?_, by simp, ?_, ?_⟩
    · simp [itoaAux, hn]
    · intro c hc
      simp at hc
      omega
    · intro a
      have h1 : 48 ≤ 48 + n ∧ 48 + n ≤ 57 := by omega
      simp [parseDigits, h1]
  | succ f ih =>
    by_cases hn : n < 10
    · refine ⟨[48 + n], ?_, by simp, ?_, ?_⟩
      · simp [itoaAux, hn]
      · intro c hc
        simp at hc
        omega
      · intro a
        have h1 : 48 ≤ 48 + n ∧ 48 + n ≤ 57 := by omega
        simp [parseDigits, h1]
    · have hdiv : n / 10 < 10 ^ (f + 1) := by
        rw [Nat.div_lt_iff_lt_mul (by norm_num)]
        calc n < 10 ^ (f + 1 + 1) := h
          _ = 10 ^ (f + 1) * 10 := by rw [pow_succ]
      obtain ⟨ds, h1, h2, h3, h4⟩ := ih (n / 10) ((48 + n % 10) :: acc) hdiv
      refine ⟨ds ++ [48 + n % 10], ?_, by simp, ?_, ?_⟩
      · rw [itoaAux, if_neg hn, h1]
        simp
      · intro c hc
        rcases List.mem_append.1 hc with hc | hc
        · exact h3 c hc
        · simp at hc
          omega
      · intro a
        rw [parseDigits_append, h4 a]
        have hd : 48 ≤ 48 + n % 10 ∧ 48 + n % 10 ≤ 57 := by omega
        simp only [parseDigits, hd, and_self, if_true, List.length_append, List.length_singleton]
        congr 1
        have := Nat.div_add_mod n 10
        rw [pow_succ]
        have e : 48 + n % 10 - 48 = n % 10 := by omega
        rw [e]
        nlinarith [Nat.div_add_mod n 10]

theorem itoa_spec (n : Nat) :
    itoa n ≠ [] ∧ (∀ c ∈ itoa n, 48 ≤ c ∧ c ≤ 57) ∧ parseDigits (itoa n) 0 = some n := by
  have hlt : n < 10 ^ (n + 1) := by
    calc n < n + 1 := Nat.lt_succ_self n
      _ < 10 ^ (n + 1) := Nat.lt_pow_self (by norm_num) _
  obtain ⟨ds, h1, h2, h3, h4⟩ := itoaAux_spec n n [] hlt
  have : itoa n = ds := by
    unfold itoa
    rw [h1]
    simp
  rw [this]
  refine ⟨h2, h3, ?_⟩
  rw [h4 0]
  simp

theorem atoi_itoa (n : Nat) (h : n < 2 ^ 63) : atoi (itoa n) = some (n : Int) := by
  obtain ⟨h1, h2, h3⟩ := itoa_spec n
  cases hds : itoa n with
  | nil => exact absurd hds h1
  | cons c cs =>
    rw [hds] at h2 h3
    have hc := h2 c (List.mem_cons_self _ _)
    have h45 : c ≠ 45 := by omega
    have h43 : c ≠ 43 := by omega
    unfold atoi
    simp only [h45, h43, if_false, h3, h, if_true]

/-! ### Cutting lines -/

theorem hasPrefix_single (c : Nat) (cs : Bytes) (b : Nat) :
    hasPrefix (c :: cs) [b] = decide (c = b) := by
  unfold hasPrefix
  by_cases h : c = b
  · simp [h, hasPrefix]
  · simp [h]

theorem index_blank (ds rest : Bytes) (b : Nat) (h : b ∉ ds) :
    index (ds ++ b :: rest) [b] = some ds.length := by
  induction ds with
  | nil =>
    simp [index, hasPrefix_single]
  | cons c cs ih =>
    have hc : c ≠ b := fun hcb => h (by simp [hcb])
    have hcs : b ∉ cs := fun hm => h (List.mem_cons_of_mem _ hm)
    simp only [List.cons_append, index, hasPrefix_single, hc, decide_False, List.append_eq,
      ih hcs]
    simp

theorem splitN2_blank (ds rest : Bytes) (h : 32 ∉ ds) :
    splitN2 (ds ++ 32 :: rest) [32] = [ds, rest] := by
  unfold splitN2
  rw [index_blank ds rest 32 h]
  simp

theorem readString_line (l rest : Bytes) (h : 10 ∉ l) :
    readString 10 (l ++ 10 :: rest) = some (l ++ [10], rest) := by
  induction l with
  | nil => simp [readString]
  | cons c cs ih =>
    have hc : c ≠ 10 := fun hcb => h (by simp [hcb])
    have hcs : 10 ∉ cs := fun hm => h (List.mem_cons_of_mem _ hm)
    simp only [List.cons_append, readString, hc, if_false, List.append_eq, ih hcs]

theorem trimRightNL_line (l : Bytes) (h : 10 ∉ l) : trimRightNL (l ++ [10]) = l := by
  unfold trimRightNL
  rw [List.reverse_append]
  simp only [List.reverse_singleton, List.singleton_append, List.dropWhile_cons, decide_True,
    if_true]
  have : List.dropWhile (fun c => decide (c = 10)) l.reverse = l.reverse := by
    cases hr : l.reverse with
    | nil => rfl
    | cons x xs =>
      have hx : x ∈ l := by
        rw [← List.mem_reverse, hr]
        exact List.mem_cons_self _ _
      have : x ≠ 10 := fun hx10 => h (hx10 ▸ hx)
      simp [List.dropWhile, this]
  rw [this, List.reverse_reverse]

/-! ### Read on a well-formed wire text -/

theorem wrapInt64_small (x : Int) (h0 : 0 ≤ x) (h1 : x < 2 ^ 63) : wrapInt64 x = x := by
  unfold wrapInt64
  have e63 : (2 : Int) ^ 63 = 9223372036854775808 := by norm_num
  have e64 : (2 : Int) ^ 64 = 18446744073709551616 := by norm_num
  rw [e63] at h1 ⊢
  rw [e64]
  omega

theorem mapSet_fresh {β : Type} (m : GoMap β) (k : Bytes) (v : β) (h : k ∉ mapKeys m) :
    mapSet m k v = m ++ [(k, v)] := by
  induction m with
  | nil => rfl
  | cons p r ih =>
    obtain ⟨k1, v1⟩ := p
    have hk : k1 ≠ k := fun hk => h (by simp [mapKeys, hk])
    have hr : k ∉ mapKeys r := fun hm => h (by
      simp only [mapKeys, List.map_cons, List.mem_cons]
      exact Or.inr hm)
    simp only [mapSet, hk, if_false, ih hr, List.cons_append]

theorem joinLines_length_pos (l : Bytes) (ls : List Bytes) : 0 < (joinLines (l :: ls)).length := by
  simp [joinLines]

theorem headerLoop_lines (ls : List Bytes) (rest : Bytes) (acc : List Bytes) (t fuel : Nat)
    (hnl : ∀ l ∈ ls, 10 ∉ l) (hne : ∀ l ∈ ls, l ≠ endLine)
    (hfuel : (joinLines ls ++ (endLine ++ 10 :: rest)).length ≤ fuel) :
    headerLoop fuel (joinLines ls ++ (endLine ++ 10 :: rest)) acc t
      = .ok (acc ++ ls ++ [endLine], t + (joinLines ls).length + 4) := by
  induction ls generalizing acc t fuel with
  | nil =>
    have hlen : (endLine ++ 10 :: rest).length = rest.length + 4 := by
      simp [endLine, ascii]
    cases fuel with
    | zero =>
      simp only [joinLines, List.nil_append, hlen] at hfuel
      omega
    | succ f =>
      have hr : readString 10 (endLine ++ 10 :: rest) = some (endLine ++ [10], rest) :=
        readString_line endLine rest (by decide)
      have ht : trimRightNL (endLine ++ [10]) = endLine := trimRightNL_line endLine (by decide)
      simp only [joinLines, List.nil_append, headerLoop, hr, ht, if_true, List.append_nil,
        List.length_nil, Nat.add_zero]
      simp [endLine, ascii]
  | cons l ls ih =>
    have hl10 : 10 ∉ l := hnl l (List.mem_cons_self _ _)
    have hlend : l ≠ endLine := hne l (List.mem_cons_self _ _)
    have hsrc : joinLines (l :: ls) ++ (endLine ++ 10 :: rest)
        = l ++ 10 :: (joinLines ls ++ (endLine ++ 10 :: rest)) := by
      simp [joinLines]
    rw [hsrc] at hfuel ⊢
    cases fuel with
    | zero =>
      simp at hfuel
    | succ f =>
      have hr := readString_line l (joinLines ls ++ (endLine ++ 10 :: rest)) hl10
      have ht : trimRightNL (l ++ [10]) = l := trimRightNL_line l hl10
      have hf : (joinLines ls ++ (endLine ++ 10 :: rest)).length ≤ f := by
        simp only [List.length_append, List.length_cons] at hfuel ⊢
        omega
      simp only [headerLoop, hr, ht, hlend, if_false]
      rw [ih (acc ++ [l]) _ f (fun x hx => hnl x (List.mem_cons_of_mem _ hx))
        (fun x hx => hne x (List.mem_cons_of_mem _ hx)) hf]
      have e1 : acc ++ [l] ++ ls ++ [endLine] = acc ++ l :: ls ++ [endLine] := by simp
      have e2 : t + (l ++ [10]).length + (joinLines ls).length + 4
          = t + (joinLines (l :: ls)).length + 4 := by
        simp only [joinLines, List.length_append, List.length_cons, List.length_nil]
        omega
      rw [e1, e2]

theorem parseEntries_entryLines (ents : List (Nat × Bytes)) (es : List (Bytes × Int))
    (used : List Bytes) (hlt : ∀ p ∈ ents, p.1 < 2 ^ 63)
    (hnd : (used ++ ents.map (fun p => trimSpace p.2)).Nodup) :
    parseEntries (ents.map entryLine) es used
      = .ok (es ++ ents.map (fun p => (trimSpace p.2, (p.1 : Int)))) := by
  induction ents generalizing es used with
  | nil => simp [parseEntries]
  | cons p rest ih =>
    have hsplit : splitN2 (entryLine p) [32] = [itoa p.1, p.2] := by
      unfold entryLine
      apply splitN2_blank
      intro hm
      have := (itoa_spec p.1).2.1 32 hm
      omega
    have hfresh : trimSpace p.2 ∉ used := by
      intro hm
      have := List.nodup_append.1 hnd
      exact this.2.2 hm (by simp)
    have hnd2 : ((used ++ [trimSpace p.2]) ++ rest.map (fun p => trimSpace p.2)).Nodup := by
      simpa using hnd
    have hat := atoi_itoa p.1 (hlt p (List.mem_cons_self _ _))
    simp only [List.map_cons, parseEntries, hsplit]
    have hc : used.contains (trimSpace p.2) = false := by
      simpa using hfresh
    simp only [hc, hat]
    rw [ih _ _ (fun q hq => hlt q (List.mem_cons_of_mem _ hq)) hnd2]
    simp

theorem fillLoop_segments (body : Bytes) (ents : List (Nat × Bytes)) (off : Nat)
    (env : Envelope) (hsum : off + totalLen ents ≤ body.length) (hsz : body.length < 2 ^ 63)
    (hnd : (mapKeys env ++ ents.map (fun p => trimSpace p.2)).Nodup) :
    fillLoop body (ents.map (fun p => (trimSpace p.2, (p.1 : Int)))) (off : Int) env
      = .ok (env ++ segments ents body off) := by
  induction ents generalizing off env with
  | nil => simp [fillLoop, segments]
  | cons p rest ih =>
    have hsum1 : off + p.1 + totalLen rest ≤ body.length := by
      simp only [totalLen, List.map_cons, List.sum_cons] at hsum ⊢
      omega
    have hhi : wrapInt64 ((off : Int) + (p.1 : Int)) = ((off + p.1 : Nat) : Int) := by
      rw [wrapInt64_small]
      · push_cast; rfl
      · omega
      · have : ((off + p.1 : Nat) : Int) < 2 ^ 63 := by
          have h2 : off + p.1 < 2 ^ 63 := by omega
          exact_mod_cast h2
        push_cast at this
        exact this
    have hfresh : trimSpace p.2 ∉ mapKeys env := by
      intro hm
      have := List.nodup_append.1 hnd
      exact this.2.2 hm (by simp)
    have hnd2 : (mapKeys (env ++ [(trimSpace p.2, (body.drop off).take p.1)])
        ++ rest.map (fun p => trimSpace p.2)).Nodup := by
      simpa [mapKeys] using hnd
    simp only [List.map_cons, fillLoop, hhi]
    have c1 : ¬ (((off + p.1 : Nat) : Int) > (body.length : Int)) := by
      have : off + p.1 ≤ body.length := by omega
      omega
    have c2 : ¬ ((off : Int) < 0 ∨ ((off + p.1 : Nat) : Int) < (off : Int)) := by omega
    simp only [c1, c2, if_false]
    have e1 : (off : Int).toNat = off := by simp
    have e2 : (((off + p.1 : Nat) : Int) - (off : Int)).toNat = p.1 := by
      push_cast
      simp
    rw [e1, e2, mapSet_fresh _ _ _ hfresh, ih (off + p.1) _ hsum1 hnd2]
    simp [segments]

theorem take_dropLast_lines (a : Bytes) (ls : List Bytes) (z : Bytes) :
    entryLines (a :: (ls ++ [z])) = ls := by
  unfold entryLines
  have : (a :: (ls ++ [z])).length - 1 = (a :: ls).length := by simp
  rw [this]
  have h2 : a :: (ls ++ [z]) = (a :: ls) ++ [z] := by simp
  rw [h2, List.take_left']
  · simp
  · rfl

theorem le_totalLen (ents : List (Nat × Bytes)) (p : Nat × Bytes) (hp : p ∈ ents) :
    p.1 ≤ totalLen ents := by
  unfold totalLen
  exact List.single_le_sum (by simp) _ (List.mem_map_of_mem Prod.fst hp)

theorem wire_length (els : List Bytes) (body : Bytes) :
    (wire els body).length = (joinLines (MAGIC :: els)).length + 4 + body.length := by
  unfold wire
  simp [endLine, ascii]
  omega

theorem Read_wire (X : Ext) (ents : List (Nat × Bytes)) (body : Bytes)
    (hnl : ∀ p ∈ ents, 10 ∉ p.2)
    (hdist : (ents.map (fun p => trimSpace p.2)).Nodup)
    (hlen : totalLen ents ≤ body.length)
    (hsize : (wire (ents.map entryLine) body).length < 2 ^ 63) :
    Read X (wire (ents.map entryLine) body)
      = match Verify X (segments ents body 0) with
        | some err => .error (.decoding err)
        | none => .ok (segments ents body 0) := by
  have hwl := wire_length (ents.map entryLine) body
  have hbody : body.length < 2 ^ 63 := by omega
  have hlt : ∀ p ∈ ents, p.1 < 2 ^ 63 := fun p hp => by
    have := le_totalLen ents p hp
    omega
  have hscan : headerLoop (wire (ents.map entryLine) body).length (wire (ents.map entryLine) body)
      [] 0 = .ok ([] ++ (MAGIC :: ents.map entryLine) ++ [endLine],
        0 + (joinLines (MAGIC :: ents.map entryLine)).length + 4) := by
    unfold wire
    apply headerLoop_lines
    · intro l hl
      rcases List.mem_cons.1 hl with rfl | hl
      · decide
      · obtain ⟨p, hp, rfl⟩ := List.mem_map.1 hl
        unfold entryLine
        intro hm
        rcases List.mem_append.1 hm with hm | hm
        · have := (itoa_spec p.1).2.1 10 hm
          omega
        · rcases List.mem_cons.1 hm with hm | hm
          · omega
          · exact hnl p hp hm
    · intro l hl
      rcases List.mem_cons.1 hl with rfl | hl
      · decide
      · obtain ⟨p, hp, rfl⟩ := List.mem_map.1 hl
        unfold entryLine
        intro heq
        have h32 : 32 ∈ itoa p.1 ++ 32 :: p.2 := by simp
        rw [heq] at h32
        revert h32
        decide
    · exact le_refl _
  have hdrop : (wire (ents.map entryLine) body).drop
      (0 + (joinLines (MAGIC :: ents.map entryLine)).length + 4) = body := by
    unfold wire
    have e : joinLines (MAGIC :: ents.map entryLine) ++ (endLine ++ 10 :: body)
        = (joinLines (MAGIC :: ents.map entryLine) ++ (endLine ++ [10])) ++ body := by simp
    rw [e]
    apply List.drop_left'
    simp [endLine, ascii]
  unfold Read
  rw [hscan]
  simp only [List.nil_append, List.cons_append, List.length_cons, List.head?_cons]
  have hcond : ¬ ((ents.map entryLine ++ [endLine]).length + 1 = 0 ∨ some MAGIC ≠ some MAGIC) := by
    simp
  rw [if_neg hcond]
  have hel := take_dropLast_lines MAGIC (ents.map entryLine) endLine
  unfold entryLines at hel
  simp only [List.length_cons] at hel
  rw [hel, parseEntries_entryLines ents [] [] hlt (by simpa using hdist)]
  simp only [List.nil_append]
  rw [hdrop]
  have hfill := fillLoop_segments body ents 0 [] (by simpa using hlen) hbody
    (by simpa [mapKeys] using hdist)
  simp only [Nat.cast_zero, List.nil_append] at hfill
  rw [hfill]

theorem totalLen_cons (p : Nat × Bytes) (rest : List (Nat × Bytes)) :
    totalLen (p :: rest) = p.1 + totalLen rest := by
  simp [totalLen]

theorem mapGet_segments (ents : List (Nat × Bytes)) (body : Bytes) (off i : Nat)
    (p : Nat × Bytes) (hdist : (ents.map (fun p => trimSpace p.2)).Nodup)
    (hi : ents[i]? = some p) :
    mapGet (segments ents body off) (trimSpace p.2)
      = some ((body.drop (off + totalLen (ents.take i))).take p.1) := by
  induction ents generalizing off i with
  | nil => simp at hi
  | cons q rest ih =>
    have hnd := List.nodup_cons.1 (by simpa using hdist :
      (trimSpace q.2 :: rest.map (fun p => trimSpace p.2)).Nodup)
    cases i with
    | zero =>
      simp only [List.getElem?_cons_zero, Option.some.injEq] at hi
      subst hi
      simp [segments, mapGet, totalLen]
    | succ i =>
      simp only [List.getElem?_cons_succ] at hi
      have hmem : p ∈ rest := List.getElem?_mem hi
      have hne : trimSpace q.2 ≠ trimSpace p.2 := by
        intro heq
        apply hnd.1
        rw [heq]
        exact List.mem_map_of_mem (fun p => trimSpace p.2) hmem
      simp only [segments, mapGet, hne, if_false, List.take_succ_cons, totalLen_cons]
      rw [ih (off + q.1) i hnd.2 hi]
      congr 3
      omega

/-- C5 (counterexample to the claim as stated): the input made of the magic
line, the entry lines `94 .` and `1  a` (the name ` a` starts with a blank),
the line `end` and a body of 95 bytes has pairwise distinct names, and the
mapping of its names to the pieces of the body passes Verify; Read succeeds
on it, but the envelope it returns has no segment named ` a`: the piece is
stored under the name `a`. -/
theorem read_trims_declared_name :
    (spacedEnts.map Prod.snd).Nodup
    ∧ totalLen spacedEnts ≤ spacedBody.length
    ∧ Verify refExt [(dot, sampleMsg), (ascii " a", ascii "x")] = none
    ∧ Read refExt (wire (spacedEnts.map entryLine) spacedBody)
        = .ok [(dot, sampleMsg), (ascii "a", ascii "x")]
    ∧ mapGet [(dot, sampleMsg), (ascii "a", ascii "x")] (ascii " a") = none := by
  refine ⟨by decide, by decide, by decide, by rfl, by decide⟩

/-- C5 (amended): for every input made of the magic line, entry lines
`<len_i> <name_i>` whose names are pairwise distinct once the white space
around them is removed (in any order; the names hold no line feed), the line
`end`, and a body section of at least len_1+...+len_n bytes, whose resulting
mapping passes Verify, Read succeeds and maps each name_i, with the white
space around it removed, to exactly the len_i bytes of the body section that
start at offset len_1+...+len_(i-1).  The input is below 2^63 bytes long, as
every Go slice is. -/
theorem read_decodes (X : Ext) (ents : List (Nat × Bytes)) (body : Bytes)
    (hnl : ∀ p ∈ ents, 10 ∉ p.2)
    (hdist : (ents.map (fun p => trimSpace p.2)).Nodup)
    (hlen : totalLen ents ≤ body.length)
    (hsize : (wire (ents.map entryLine) body).length < 2 ^ 63)
    (hver : Verify X (segments ents body 0) = none) :
    ∃ env, Read X (wire (ents.map entryLine) body) = .ok env
      ∧ ∀ i p, ents[i]? = some p →
          mapGet env (trimSpace p.2) = some ((body.drop (totalLen (ents.take i))).take p.1) := by
  refine ⟨segments ents body 0, ?_, ?_⟩
  · rw [Read_wire X ents body hnl hdist hlen hsize, hver]
  · intro i p hi
    have := mapGet_segments ents body 0 i p hdist hi
    simpa using this

set_option maxRecDepth 100000 in
/-- C5 (witness): three entry lines that are not in sorted order and a body
section with two bytes to spare. -/
theorem read_decodes_witness :
    ∃ env, Read refExt (wire (sampleEnts.map entryLine) sampleBody) = .ok env
      ∧ ∀ i p, sampleEnts[i]? = some p →
          mapGet env (trimSpace p.2)
            = some ((sampleBody.drop (totalLen (sampleEnts.take i))).take p.1) :=
  read_decodes refExt sampleEnts sampleBody (by decide) (by decide) (by decide)
    (by decide) (by decide)

/-! ### The output of Write -/

theorem writeLoop_eq (e : Envelope) (names : List Bytes) (header body : Bytes) :
    writeLoop e names header body
      = (header ++ joinLines (names.map (fun n => entryLine ((contentOf e n).length, n))),
         body ++ (names.map (contentOf e)).flatten) := by
  induction names generalizing header body with
  | nil => simp [writeLoop, joinLines]
  | cons n ns ih =>
    simp only [writeLoop, ih, List.map_cons, joinLines, entryLine, contentOf, List.flatten_cons]
    simp

theorem map_contentOf (e : Envelope) (hwf : mapWF e) :
    (mapKeys e).map (fun n => (n, contentOf e n)) = e := by
  unfold mapKeys
  rw [List.map_map]
  conv_rhs => rw [← List.map_id e]
  apply List.map_congr_left
  intro p hp
  obtain ⟨k, v⟩ := p
  simp only [Function.comp, contentOf, mapGet_of_mem e k v hwf hp, Option.getD_some, id]

theorem map_trimSpace_id (names : List Bytes) (h : ∀ fn ∈ names, trimSpace fn = fn) :
    names.map trimSpace = names := by
  conv_rhs => rw [← List.map_id names]
  exact List.map_congr_left (fun fn hfn => by simp [h fn hfn])

theorem Write_wire (X : Ext) (e : Envelope) (hwf : mapWF e) (hver : Verify X e = none)
    (htrim : ∀ fn ∈ mapKeys e, trimSpace fn = fn) :
    ∃ ents : List (Bytes × Bytes), ents.Perm e
      ∧ ents.map Prod.fst = sortStrings (mapKeys e)
      ∧ Write X e = .ok (wire ((ents.map (fun p => (p.2.length, p.1))).map entryLine)
          (ents.map Prod.snd).flatten) := by
  refine ⟨(sortStrings (mapKeys e)).map (fun n => (n, contentOf e n)), ?_, ?_, ?_⟩
  · have h1 := (sortStrings_perm (mapKeys e)).map (fun n => (n, contentOf e n))
    rw [map_contentOf e hwf] at h1
    exact h1
  · rw [List.map_map]
    conv_rhs => rw [← List.map_id (sortStrings (mapKeys e))]
    exact List.map_congr_left (fun _ _ => rfl)
  · unfold Write
    rw [hver]
    simp only [map_trimSpace_id _ htrim, writeLoop_eq, List.map_map, List.nil_append]
    unfold wire
    simp [joinLines, Function.comp]
    rfl

theorem strict_of_sorted_nodup (l : List Bytes) (hs : l.Pairwise StrLE) (hnd : l.Nodup) :
    l.Pairwise (fun a b => StrLE a b ∧ a ≠ b) := by
  exact List.Pairwise.and hs hnd

/-- C6 (failing input): the envelope spacedEnv, which holds the message file
and an attachment named ` a` (with a blank in front) of three bytes, passes
Verify.  Its names in ascending order are ` a` and `.`, so the claimed output
is spacedExpected; Write looks the content up under the trimmed name and emits
the lines `94 .` and `0 a` and no attachment content. -/
theorem write_trims_names :
    mapWF spacedEnv ∧ Verify refExt spacedEnv = none
    ∧ (sortStrings (mapKeys spacedEnv) = [ascii " a", dot])
    ∧ Write refExt spacedEnv = .ok (ascii "ECHO 1.0\n94 .\n0 a\nend\n" ++ sampleMsg)
    ∧ Write refExt spacedEnv ≠ .ok spacedExpected := by
  refine ⟨by unfold mapWF mapKeys; decide, by decide, by decide, by rfl, ?_⟩
  have h : Write refExt spacedEnv = .ok (ascii "ECHO 1.0\n94 .\n0 a\nend\n" ++ sampleMsg) := by rfl
  rw [h]
  intro heq
  have h2 := Except.ok.inj heq
  revert h2
  decide

/-- The format of the output where the lookup under the trimmed name finds
the segment: for every envelope on which Verify succeeds and whose
segment names carry no white space at either end, Write returns exactly the
bytes `ECHO 1.0\n`, then for each segment, the segments taken in strictly
ascending lexicographic order of their names, one line
`<decimal byte length of the content> <name>\n`, then `end\n`, then the
contents of the segments concatenated in the same order. -/
theorem write_format (X : Ext) (e : Envelope) (hwf : mapWF e) (hver : Verify X e = none)
    (htrim : ∀ fn ∈ mapKeys e, trimSpace fn = fn) :
    ∃ ents : List (Bytes × Bytes), ents.Perm e
      ∧ (ents.map Prod.fst).Pairwise (fun a b => StrLE a b ∧ a ≠ b)
      ∧ Write X e = .ok (ascii "ECHO 1.0\n"
          ++ joinLines (ents.map (fun p => itoa p.2.length ++ ascii " " ++ p.1))
          ++ ascii "end\n" ++ (ents.map Prod.snd).flatten) := by
  obtain ⟨ents, hp, hs, hw⟩ := Write_wire X e hwf hver htrim
  refine ⟨ents, hp, ?_, ?_⟩
  · apply strict_of_sorted_nodup
    · rw [hs]; exact sortStrings_sorted _
    · exact (List.Perm.nodup_iff (hp.map Prod.fst)).2 hwf
  · rw [hw]
    unfold wire
    have e1 : ascii "ECHO 1.0\n" = MAGIC ++ [10] := by decide
    have e2 : ascii "end\n" = endLine ++ [10] := by decide
    have e3 : ascii " " = [32] := by decide
    rw [e1, e2, e3]
    simp [joinLines, List.map_map, Function.comp]
    rfl

set_option maxRecDepth 100000 in
/-- The statement write_format at the sample envelope. -/
theorem write_format_witness :
    ∃ ents : List (Bytes × Bytes), ents.Perm sampleEnv
      ∧ (ents.map Prod.fst).Pairwise (fun a b => StrLE a b ∧ a ≠ b)
      ∧ Write refExt sampleEnv = .ok (ascii "ECHO 1.0\n"
          ++ joinLines (ents.map (fun p => itoa p.2.length ++ ascii " " ++ p.1))
          ++ ascii "end\n" ++ (ents.map Prod.snd).flatten) :=
  write_format refExt sampleEnv (by unfold mapWF mapKeys; decide) (by decide) (by decide)

/-! ### Round trip -/

theorem segments_flatten (ents : List (Bytes × Bytes)) (pre : Bytes) :
    segments (ents.map (fun p => (p.2.length, p.1))) (pre ++ (ents.map Prod.snd).flatten)
        pre.length
      = ents.map (fun p => (trimSpace p.1, p.2)) := by
  induction ents generalizing pre with
  | nil => rfl
  | cons p rest ih =>
    simp only [List.map_cons, segments, List.flatten_cons]
    have h1 : ((pre ++ (p.2 ++ (rest.map Prod.snd).flatten)).drop pre.length).take p.2.length
        = p.2 := by
      rw [List.drop_left, List.take_left]
    have h2 := ih (pre ++ p.2)
    rw [List.length_append, List.append_assoc] at h2
    rw [h1, h2]

theorem totalLen_flatten (ents : List (Bytes × Bytes)) :
    totalLen (ents.map (fun p => (p.2.length, p.1))) = (ents.map Prod.snd).flatten.length := by
  induction ents with
  | nil => rfl
  | cons p rest ih =>
    simp only [List.map_cons, totalLen_cons, ih, List.flatten_cons, List.length_append]

set_option maxRecDepth 100000 in
/-- C1 (failing input): the envelope spacedEnv holds the message file and
three bytes under the name ` a` (with a blank in front) and passes Verify.
Write succeeds on it and Read succeeds on the output, but the three bytes are
gone: the envelope read back has no segment named ` a`, it has an empty
segment named `a`.  The envelope clashEnv holds the names ` a` and `a`; it
passes Verify and Write succeeds, with the entry line `2 a` twice, and Read
rejects the output for the duplicate name. -/
theorem roundtrip_loses_spaced_name :
    (mapWF spacedEnv ∧ Verify refExt spacedEnv = none
      ∧ mapGet spacedEnv (ascii " a") = some (ascii "xyz")
      ∧ ∃ out, Write refExt spacedEnv = .ok out
          ∧ Read refExt out = .ok [(dot, sampleMsg), (ascii "a", [])]
          ∧ mapGet [(dot, sampleMsg), (ascii "a", [])] (ascii " a") = none)
    ∧ (mapWF clashEnv ∧ Verify refExt clashEnv = none
      ∧ ∃ out, Write refExt clashEnv = .ok out
          ∧ out = ascii "ECHO 1.0\n94 .\n2 a\n2 a\nend\n" ++ sampleMsg ++ ascii "pqpq"
          ∧ Read refExt out = .error (Err.duplicateName (ascii "a"))) := by
  refine ⟨⟨by unfold mapWF mapKeys; decide, by decide, by decide, _, rfl, by rfl, by decide⟩,
    by unfold mapWF mapKeys; decide, by decide, _, rfl, by rfl, by rfl⟩

/-- The round trip where the lookup under the trimmed name finds the
segment: for every envelope on which Verify succeeds and whose
segment names hold no line feed and no white space at either end, Write
succeeds and Read applied to its output succeeds and returns an envelope with
exactly the same entries: the same segment names, each mapped to the same
content.  The output is below 2^63 bytes long, as every Go slice is. -/
theorem write_read_roundtrip (X : Ext) (e : Envelope) (hwf : mapWF e)
    (hver : Verify X e = none)
    (hnames : ∀ fn ∈ mapKeys e, trimSpace fn = fn ∧ 10 ∉ fn)
    (hsize : ∀ out, Write X e = .ok out → out.length < 2 ^ 63) :
    ∃ out env, Write X e = .ok out ∧ Read X out = .ok env
      ∧ env.Perm e ∧ ∀ k, mapGet env k = mapGet e k := by
  obtain ⟨ents, hp, hs, hw⟩ := Write_wire X e hwf hver (fun fn hfn => (hnames fn hfn).1)
  have hkeys : (ents.map Prod.fst).Perm (mapKeys e) := hp.map Prod.fst
  have hn : ∀ p ∈ ents, trimSpace p.1 = p.1 ∧ 10 ∉ p.1 := fun p hp1 =>
    hnames p.1 (hkeys.mem_iff.1 (List.mem_map_of_mem Prod.fst hp1))
  have hwfe : mapWF ents := (List.Perm.nodup_iff hkeys).2 hwf
  have hseg : segments (ents.map (fun p => (p.2.length, p.1))) (ents.map Prod.snd).flatten 0
      = ents := by
    have h := segments_flatten ents []
    simp only [List.nil_append, List.length_nil] at h
    rw [h]
    conv_rhs => rw [← List.map_id ents]
    exact List.map_congr_left (fun p hp1 => by simp [(hn p hp1).1])
  have hread := Read_wire X (ents.map (fun p => (p.2.length, p.1))) (ents.map Prod.snd).flatten
    (by
      intro q hq
      obtain ⟨p, hp1, rfl⟩ := List.mem_map.1 hq
      exact (hn p hp1).2)
    (by
      rw [List.map_map]
      have : ents.map ((fun p : Nat × Bytes => trimSpace p.2) ∘ fun p => (p.2.length, p.1))
          = ents.map Prod.fst :=
        List.map_congr_left (fun p hp1 => by simp [Function.comp, (hn p hp1).1])
      rw [this]
      exact hwfe)
    (by rw [totalLen_flatten])
    (hsize _ hw)
  rw [hseg, (Verify_none_perm X hp hwfe).2 hver] at hread
  exact ⟨_, ents, hw, hread, hp, fun k => mapGet_perm hp hwfe k⟩

set_option maxRecDepth 100000 in
/-- The statement write_read_roundtrip at the sample envelope. -/
theorem write_read_roundtrip_witness :
    ∃ out env, Write refExt sampleEnv = .ok out ∧ Read refExt out = .ok env
      ∧ env.Perm sampleEnv ∧ ∀ k, mapGet env k = mapGet sampleEnv k :=
  write_read_roundtrip refExt sampleEnv (by unfold mapWF mapKeys; decide) (by decide)
    (by decide)
    (fun out h => by
      have h2 : Write refExt sampleEnv
          = .ok (ascii "ECHO 1.0\n94 .\n2 a.txt\n3 b.txt\nend\n" ++ sampleMsg ++ ascii "12xyz") := by
        rfl
      rw [h2] at h
      cases h
      decide)

/-! ### The bounds on the number of steps are never reached -/

theorem readString_shorter (d : Nat) (s l r : Bytes) (h : readString d s = some (l, r)) :
    r.length < s.length := by
  induction s generalizing l with
  | nil => simp [readString] at h
  | cons c cs ih =>
    unfold readString at h
    by_cases hc : c = d
    · rw [if_pos hc] at h
      cases h
      simp
    · rw [if_neg hc] at h
      cases hr : readString d cs with
      | none => rw [hr] at h; cases h
      | some p =>
        obtain ⟨l1, r1⟩ := p
        rw [hr] at h
        cases h
        have := ih l1 hr
        simp only [List.length_cons]
        omega

theorem headerLoop_fuel (f1 f2 : Nat) (src : Bytes) (lines : List Bytes) (t : Nat)
    (h1 : src.length ≤ f1) (h2 : src.length ≤ f2) :
    headerLoop f1 src lines t = headerLoop f2 src lines t := by
  induction f1 generalizing f2 src lines t with
  | zero =>
    have hs : src = [] := List.length_eq_zero.1 (Nat.le_zero.1 h1)
    subst hs
    cases f2 with
    | zero => rfl
    | succ f2 => simp [headerLoop, readString]
  | succ f1 ih =>
    cases f2 with
    | zero =>
      have hs : src = [] := List.length_eq_zero.1 (Nat.le_zero.1 h2)
      subst hs
      simp [headerLoop, readString]
    | succ f2 =>
      unfold headerLoop
      cases hr : readString 10 src with
      | none => rfl
      | some p =>
        obtain ⟨line, rest⟩ := p
        have hlt := readString_shorter 10 src line rest hr
        simp only
        split
        · rfl
        · exact ih f2 rest _ _ (by omega) (by omega)

theorem hasPrefix_length (s q : Bytes) (h : hasPrefix s q = true) : q.length ≤ s.length := by
  induction s generalizing q with
  | nil =>
    cases q with
    | nil => simp
    | cons a as => simp [hasPrefix] at h
  | cons c cs ih =>
    cases q with
    | nil => simp
    | cons a as =>
      unfold hasPrefix at h
      by_cases hca : c = a
      · rw [if_pos hca] at h
        have := ih as h
        simp only [List.length_cons]
        omega
      · rw [if_neg hca] at h
        cases h

theorem leadLen_le (seqs : List Bytes) (s : Bytes) : leadLen seqs s ≤ s.length := by
  unfold leadLen
  cases hf : seqs.find? (fun q => hasPrefix s q) with
  | none => simp
  | some q =>
    have := List.find?_some hf
    exact hasPrefix_length s q this

theorem stripLeading_fuel (seqs : List Bytes) (f1 f2 : Nat) (s : Bytes)
    (h1 : s.length ≤ f1) (h2 : s.length ≤ f2) :
    stripLeading seqs f1 s = stripLeading seqs f2 s := by
  induction f1 generalizing f2 s with
  | zero =>
    have hs : s = [] := List.length_eq_zero.1 (Nat.le_zero.1 h1)
    subst hs
    have h0 : leadLen seqs [] = 0 := Nat.le_zero.1 (leadLen_le seqs [])
    cases f2 with
    | zero => rfl
    | succ f2 => simp [stripLeading, h0]
  | succ f1 ih =>
    cases f2 with
    | zero =>
      have hs : s = [] := List.length_eq_zero.1 (Nat.le_zero.1 h2)
      subst hs
      have h0 : leadLen seqs [] = 0 := Nat.le_zero.1 (leadLen_le seqs [])
      simp [stripLeading, h0]
    | succ f2 =>
      unfold stripLeading
      cases hk : leadLen seqs s with
      | zero => rfl
      | succ k =>
        have hle := leadLen_le seqs s
        simp only
        apply ih
        · simp only [List.length_drop]; omega
        · simp only [List.length_drop]; omega

/-! ### Bytes after the declared segments -/

theorem readString_split (d : Nat) (s l r : Bytes) (h : readString d s = some (l, r)) :
    s = l ++ r := by
  induction s generalizing l with
  | nil => simp [readString] at h
  | cons c cs ih =>
    unfold readString at h
    by_cases hc : c = d
    · rw [if_pos hc] at h
      cases h
      rfl
    · rw [if_neg hc] at h
      cases hr : readString d cs with
      | none => rw [hr] at h; cases h
      | some p =>
        obtain ⟨l1, r1⟩ := p
        rw [hr] at h
        cases h
        rw [ih l1 hr]
        rfl

theorem readString_append (d : Nat) (s l r x : Bytes) (h : readString d s = some (l, r)) :
    readString d (s ++ x) = some (l, r ++ x) := by
  induction s generalizing l with
  | nil => simp [readString] at h
  | cons c cs ih =>
    unfold readString at h
    by_cases hc : c = d
    · rw [if_pos hc] at h
      cases h
      simp [readString, hc]
    · rw [if_neg hc] at h
      cases hr : readString d cs with
      | none => rw [hr] at h; cases h
      | some p =>
        obtain ⟨l1, r1⟩ := p
        rw [hr] at h
        cases h
        have := ih l1 hr
        simp only [List.cons_append, readString, hc, if_false, List.append_eq, this]

theorem headerLoop_append (f k : Nat) (s x : Bytes) (lines : List Bytes) (t : Nat)
    (r : List Bytes × Nat) (h : headerLoop f s lines t = .ok r) :
    headerLoop (f + k) (s ++ x) lines t = .ok r := by
  induction f generalizing s lines t with
  | zero => simp [headerLoop] at h
  | succ f ih =>
    have e : f + 1 + k = (f + k) + 1 := by omega
    rw [e]
    unfold headerLoop at h ⊢
    cases hr : readString 10 s with
    | none => rw [hr] at h; cases h
    | some p =>
      obtain ⟨line, rest⟩ := p
      rw [hr] at h
      rw [readString_append 10 s line rest x hr]
      simp only at h ⊢
      split
      · rename_i hend
        rw [if_pos hend] at h
        exact h
      · rename_i hend
        rw [if_neg hend] at h
        exact ih rest _ _ h

theorem headerLoop_total (f : Nat) (s : Bytes) (lines : List Bytes) (t : Nat)
    (L : List Bytes) (total : Nat) (h : headerLoop f s lines t = .ok (L, total)) :
    total ≤ t + s.length := by
  induction f generalizing s lines t with
  | zero => simp [headerLoop] at h
  | succ f ih =>
    unfold headerLoop at h
    cases hr : readString 10 s with
    | none => rw [hr] at h; cases h
    | some p =>
      obtain ⟨line, rest⟩ := p
      rw [hr] at h
      have hs := readString_split 10 s line rest hr
      have hlen : s.length = line.length + rest.length := by rw [hs]; simp
      simp only at h
      split at h
      · cases h
        omega
      · have := ih rest _ _ h
        omega

theorem fillLoop_append (body x : Bytes) (ents : List (Bytes × Int)) (off : Int)
    (env r : Envelope) (h : fillLoop body ents off env = .ok r) :
    fillLoop (body ++ x) ents off env = .ok r := by
  induction ents generalizing off env with
  | nil => exact h
  | cons p rest ih =>
    obtain ⟨name, len⟩ := p
    unfold fillLoop at h ⊢
    simp only at h ⊢
    by_cases c1 : wrapInt64 (off + len) > (body.length : Int)
    · rw [if_pos c1] at h
      cases h
    · rw [if_neg c1] at h
      by_cases c2 : off < 0 ∨ wrapInt64 (off + len) < off
      · rw [if_pos c2] at h
        cases h
      · rw [if_neg c2] at h
        have c1' : ¬ wrapInt64 (off + len) > ((body ++ x).length : Int) := by
          simp only [List.length_append, Nat.cast_add]
          omega
        rw [if_neg c1', if_neg c2]
        have hslice : ((body ++ x).drop off.toNat).take (wrapInt64 (off + len) - off).toNat
            = (body.drop off.toNat).take (wrapInt64 (off + len) - off).toNat := by
          have h1 : off.toNat ≤ body.length := by omega
          rw [List.drop_append_of_le_length h1, List.take_append_of_le_length]
          simp only [List.length_drop]
          omega
        rw [hslice]
        exact ih _ _ h

/-- C20: Read ignores bytes past the declared segments: for every input b
on which Read succeeds and every byte sequence x, Read applied to b followed
by x succeeds and returns the same envelope (the same segment names with the
same contents). -/
theorem read_ignores_trailing (X : Ext) (b x : Bytes) (env : Envelope)
    (h : Read X b = .ok env) : Read X (b ++ x) = .ok env := by
  unfold Read at h ⊢
  cases hs : headerLoop b.length b [] 0 with
  | error err => rw [hs] at h; cases h
  | ok p =>
    obtain ⟨lines, total⟩ := p
    rw [hs] at h
    have hs2 : headerLoop (b ++ x).length (b ++ x) [] 0 = .ok (lines, total) := by
      rw [List.length_append]
      exact headerLoop_append _ _ _ _ _ _ _ hs
    have htot : total ≤ b.length := by
      have := headerLoop_total _ _ _ _ _ _ hs
      omega
    rw [hs2]
    simp only at h ⊢
    split at h
    · cases h
    · rename_i hcond
      rw [if_neg hcond]
      cases hp : parseEntries ((lines.take (lines.length - 1)).drop 1) [] [] with
      | error err => rw [hp] at h; cases h
      | ok entries =>
        rw [hp] at h
        simp only at h ⊢
        rw [List.drop_append_of_le_length htot]
        cases hf : fillLoop (b.drop total) entries 0 [] with
        | panic => rw [hf] at h; cases h
        | error err => rw [hf] at h; cases h
        | ok envelope =>
          rw [hf] at h
          rw [fillLoop_append _ x _ _ _ _ hf]
          exact h

set_option maxRecDepth 100000 in
/-- C20 (witness): the wire text of three segments followed by two bytes. -/
theorem read_ignores_trailing_witness :
    Read refExt (wire (sampleEnts.map entryLine) (ascii "xyz" ++ sampleMsg ++ ascii "12")
        ++ ascii "!!")
      = .ok [(ascii "b.txt", ascii "xyz"), (dot, sampleMsg), (ascii "a.txt", ascii "12")] :=
  read_ignores_trailing refExt _ (ascii "!!") _ (by rfl)

/-! ### The message record -/

theorem mem_mapKeys_filter {β : Type} (m : GoMap β) (f : Bytes × β → Bool) (k : Bytes)
    (h : k ∈ mapKeys (m.filter f)) : k ∈ mapKeys m := by
  unfold mapKeys at h ⊢
  obtain ⟨p, hp, rfl⟩ := List.mem_map.1 h
  exact List.mem_map_of_mem Prod.fst (List.mem_filter.1 hp).1

theorem mapGet_filter_ne (e : Envelope) (hwf : mapWF e) (k : Bytes) (hk : k ≠ dot) :
    mapGet (e.filter (fun p => decide (p.1 ≠ dot))) k = mapGet e k := by
  have hwf2 : mapWF (e.filter (fun p => decide (p.1 ≠ dot))) := by
    unfold mapWF mapKeys
    exact (List.Nodup.sublist ((List.filter_sublist e).map Prod.fst) hwf)
  cases h : mapGet e k with
  | none =>
    rw [mapGet_none_iff] at h ⊢
    exact fun hm => h (mem_mapKeys_filter e _ k hm)
  | some v =>
    apply mapGet_of_mem _ _ _ hwf2
    exact List.mem_filter.2 ⟨mapGet_mem e k v h, by simpa using hk⟩

/-- C11: for every envelope on which Verify succeeds, Parse succeeds and
returns a message whose body is exactly the bytes of the `.` segment, whose
MsgId is the digest of those bytes, whose Header is the parsed header of that
segment and whose Sender and Group are the values of its Sender and Group
fields, and whose Attachments has as keys exactly the segment names of the
envelope other than `.`, each mapped to the content the envelope holds under
that same name. -/
theorem parse_postcondition (X : Ext) (e : Envelope) (hwf : mapWF e)
    (hver : Verify X e = none) :
    ∃ msg idx fields sender group, Parse X e = .ok msg
      ∧ mapGet e dot = some idx ∧ MessageHeader idx = .ok fields
      ∧ mapGet fields (ascii "Sender") = some sender
      ∧ mapGet fields (ascii "Group") = some group
      ∧ msg.Message = idx ∧ msg.MsgId = X.computeMsgId idx
      ∧ msg.Header = fields ∧ msg.Sender = sender ∧ msg.Group = group
      ∧ (∀ k, k ∈ mapKeys msg.Attachments ↔ (k ∈ mapKeys e ∧ k ≠ dot))
      ∧ (∀ k, k ≠ dot → mapGet msg.Attachments k = mapGet e k)
      ∧ mapWF msg.Attachments := by
  obtain ⟨idx, fields, sender, group, hv⟩ := (Verify_eq_none_iff X e).1 hver
  have hh := hv.hhdr
  unfold MessageHeader at hh
  cases hg : getHeader idx with
  | error err => rw [hg] at hh; cases hh
  | ok hdr =>
    rw [hg] at hh
    simp only at hh
    unfold Parse
    rw [hver]
    simp only
    refine ⟨_, idx, fields, sender, group, rfl, hv.hidx, hv.hhdr, hv.hsender, hv.hgroup, ?_⟩
    · simp only [hv.hidx, Option.getD_some, hg, hh, hv.hsender, hv.hgroup, true_and]
      refine ⟨?_, ?_, ?_⟩
      · intro k
        constructor
        · intro hk
          refine ⟨mem_mapKeys_filter e _ k hk, ?_⟩
          unfold mapKeys at hk
          obtain ⟨p, hp, rfl⟩ := List.mem_map.1 hk
          simpa using (List.mem_filter.1 hp).2
        · rintro ⟨hk, hne⟩
          unfold mapKeys at hk ⊢
          obtain ⟨p, hp, rfl⟩ := List.mem_map.1 hk
          exact List.mem_map_of_mem Prod.fst (List.mem_filter.2 ⟨hp, by simpa using hne⟩)
      · intro k hk
        exact mapGet_filter_ne e hwf k hk
      · unfold mapWF mapKeys
        exact (List.Nodup.sublist ((List.filter_sublist e).map Prod.fst) hwf)

set_option maxRecDepth 100000 in
/-- C11 (witness): the postcondition at the sample envelope, which has two
attachments. -/
theorem parse_postcondition_witness :
    ∃ msg idx fields sender group, Parse refExt sampleEnv = .ok msg
      ∧ mapGet sampleEnv dot = some idx ∧ MessageHeader idx = .ok fields
      ∧ mapGet fields (ascii "Sender") = some sender
      ∧ mapGet fields (ascii "Group") = some group
      ∧ msg.Message = idx ∧ msg.MsgId = refExt.computeMsgId idx
      ∧ msg.Header = fields ∧ msg.Sender = sender ∧ msg.Group = group
      ∧ (∀ k, k ∈ mapKeys msg.Attachments ↔ (k ∈ mapKeys sampleEnv ∧ k ≠ dot))
      ∧ (∀ k, k ≠ dot → mapGet msg.Attachments k = mapGet sampleEnv k)
      ∧ mapWF msg.Attachments :=
  parse_postcondition refExt sampleEnv (by unfold mapWF mapKeys; decide) (by decide)

/-! ### Prefixes and first occurrences -/

theorem hasPrefix_iff (s q : Bytes) : hasPrefix s q = true ↔ ∃ t, s = q ++ t := by
  induction s generalizing q with
  | nil =>
    cases q with
    | nil => simp [hasPrefix]
    | cons a as => simp [hasPrefix]
  | cons c cs ih =>
    cases q with
    | nil => simp [hasPrefix]
    | cons a as =>
      unfold hasPrefix
      by_cases hca : c = a
      · subst hca
        rw [if_pos rfl, ih]
        simp
      · rw [if_neg hca]
        simp [hca]

theorem index_none_iff (s sep : Bytes) :
    index s sep = none ↔ ¬ ∃ pre post, s = pre ++ sep ++ post := by
  induction s with
  | nil =>
    unfold index
    by_cases h : sep = []
    · simp [h]
    · simp only [h, if_false, true_iff]
      rintro ⟨pre, post, hpp⟩
      have := congrArg List.length hpp
      simp only [List.length_nil, List.length_append] at this
      have : sep.length = 0 := by omega
      exact h (List.length_eq_zero.1 this)
  | cons c cs ih =>
    unfold index
    by_cases hp : hasPrefix (c :: cs) sep = true
    · rw [if_pos hp]
      simp only [reduceCtorEq, false_iff, not_not]
      obtain ⟨t, ht⟩ := (hasPrefix_iff _ _).1 hp
      exact ⟨[], t, by simpa using ht⟩
    · rw [if_neg hp]
      cases hi : index cs sep with
      | some i =>
        simp only [reduceCtorEq, false_iff, not_not]
        have : ¬ index cs sep = none := by rw [hi]; simp
        rw [ih] at this
        obtain ⟨pre, post, hpp⟩ := not_not.1 this
        exact ⟨c :: pre, post, by simp [hpp]⟩
      | none =>
        simp only [true_iff]
        rintro ⟨pre, post, hpp⟩
        cases pre with
        | nil =>
          apply hp
          rw [hasPrefix_iff]
          exact ⟨post, by simpa using hpp⟩
        | cons a pre' =>
          simp only [List.cons_append, List.cons.injEq] at hpp
          exact (ih.1 hi) ⟨pre', post, by simpa using hpp.2⟩

theorem index_some_cut (s sep : Bytes) (i : Nat) (h : index s sep = some i) :
    FirstCut s sep (s.take i) (s.drop (i + sep.length)) := by
  induction s generalizing i with
  | nil =>
    unfold index at h
    by_cases hs : sep = []
    · rw [if_pos hs] at h
      cases h
      subst hs
      exact ⟨by simp, fun _ _ _ => by simp⟩
    · rw [if_neg hs] at h
      cases h
  | cons c cs ih =>
    unfold index at h
    by_cases hp : hasPrefix (c :: cs) sep = true
    · rw [if_pos hp] at h
      cases h
      obtain ⟨t, ht⟩ := (hasPrefix_iff _ _).1 hp
      refine ⟨?_, fun _ _ _ => by simp⟩
      rw [ht]
      simp
    · rw [if_neg hp] at h
      cases hi : index cs sep with
      | none => rw [hi] at h; cases h
      | some j =>
        rw [hi] at h
        cases h
        obtain ⟨h1, h2⟩ := ih j hi
        constructor
        · have e : j + 1 + sep.length = (j + sep.length) + 1 := by omega
          rw [e]
          simp only [List.take_succ_cons, List.drop_succ_cons, List.cons_append]
          rw [← h1]
        · intro pre1 post1 hpp
          cases pre1 with
          | nil =>
            exfalso
            apply hp
            rw [hasPrefix_iff]
            exact ⟨post1, by simpa using hpp⟩
          | cons a pre' =>
            simp only [List.cons_append, List.cons.injEq] at hpp
            have := h2 pre' post1 (by simpa using hpp.2)
            simp only [List.length_take, List.length_cons] at this ⊢
            omega

theorem FirstCut_unique (s sep pre post pre1 post1 : Bytes) (h : FirstCut s sep pre post)
    (h1 : FirstCut s sep pre1 post1) : pre = pre1 ∧ post = post1 := by
  have hl : pre.length = pre1.length :=
    Nat.le_antisymm (h.2 pre1 post1 h1.1) (h1.2 pre post h.1)
  have e := h.1.symm.trans h1.1
  rw [List.append_assoc, List.append_assoc] at e
  have := List.append_inj e hl
  exact ⟨this.1, List.append_cancel_left this.2⟩

theorem splitN2_cases (s sep : Bytes) :
    (splitN2 s sep = [s] ∧ ¬ ∃ pre post, s = pre ++ sep ++ post)
    ∨ ∃ pre post, splitN2 s sep = [pre, post] ∧ FirstCut s sep pre post := by
  unfold splitN2
  cases hi : index s sep with
  | none => exact Or.inl ⟨rfl, (index_none_iff s sep).1 hi⟩
  | some i => exact Or.inr ⟨_, _, rfl, index_some_cut s sep i hi⟩

/-! ### The header parser line by line -/

theorem mapGet_mapSet_self {β : Type} (m : GoMap β) (k : Bytes) (v : β) :
    mapGet (mapSet m k v) k = some v := by
  induction m with
  | nil => simp [mapSet, mapGet]
  | cons p r ih =>
    obtain ⟨k1, v1⟩ := p
    unfold mapSet
    by_cases hk : k1 = k
    · rw [if_pos hk]
      simp [mapGet]
    · rw [if_neg hk]
      simp only [mapGet, hk, if_false]
      exact ih

theorem mapGet_mapSet_ne {β : Type} (m : GoMap β) (k k2 : Bytes) (v : β) (h : k ≠ k2) :
    mapGet (mapSet m k v) k2 = mapGet m k2 := by
  induction m with
  | nil => simp [mapSet, mapGet, h]
  | cons p r ih =>
    obtain ⟨k1, v1⟩ := p
    unfold mapSet
    by_cases hk : k1 = k
    · rw [if_pos hk]
      subst hk
      simp [mapGet, h]
    · rw [if_neg hk]
      by_cases hk2 : k1 = k2
      · simp [mapGet, hk2]
      · simp only [mapGet, hk2, if_false]
        exact ih

theorem LineField_unique (line k v k1 v1 : Bytes) (h : LineField line k v)
    (h1 : LineField line k1 v1) : k = k1 ∧ v = v1 := by
  obtain ⟨pre, post, hc, hk, hv⟩ := h
  obtain ⟨pre1, post1, hc1, hk1, hv1⟩ := h1
  obtain ⟨e1, e2⟩ := FirstCut_unique _ _ _ _ _ _ hc hc1
  subst e1 e2
  exact ⟨hk.trans hk1.symm, hv.trans hv1.symm⟩

theorem line_step (line : Bytes) :
    (BadLine line ∧ ∀ rest fields, ∃ err, parseHeaderLines (line :: rest) fields = .error err)
    ∨ (∃ k v, LineField line k v ∧ k ≠ [] ∧ ¬ BadLine line
        ∧ ∀ rest fields,
            parseHeaderLines (line :: rest) fields = parseHeaderLines rest (mapSet fields k v)) := by
  by_cases hlen : line.length > 1024
  · left
    refine ⟨Or.inl hlen, fun rest fields => ?_⟩
    unfold parseHeaderLines
    rw [if_pos hlen]
    exact ⟨_, rfl⟩
  by_cases hemp : trimSpace line = []
  · left
    refine ⟨Or.inr (Or.inl hemp), fun rest fields => ?_⟩
    unfold parseHeaderLines
    rw [if_neg hlen]
    simp only [hemp, if_true]
    exact ⟨_, rfl⟩
  rcases splitN2_cases (trimSpace line) (ascii ": ") with ⟨hs, hno⟩ | ⟨pre, post, hs, hcut⟩
  · left
    refine ⟨Or.inr (Or.inr (Or.inl hno)), fun rest fields => ?_⟩
    unfold parseHeaderLines
    rw [if_neg hlen]
    simp only [hemp, if_false, hs]
    exact ⟨_, rfl⟩
  · by_cases hkey : trimSpace pre = []
    · left
      refine ⟨Or.inr (Or.inr (Or.inr ⟨pre, post, hcut, hkey⟩)), fun rest fields => ?_⟩
      unfold parseHeaderLines
      rw [if_neg hlen]
      simp only [hemp, if_false, hs, hkey, if_true]
      exact ⟨_, rfl⟩
    · right
      refine ⟨trimSpace pre, trimSpace post, ⟨pre, post, hcut, rfl, rfl⟩, hkey, ?_, ?_⟩
      · rintro (h | h | h | ⟨pre1, post1, hc1, hk1⟩)
        · exact hlen h
        · exact hemp h
        · exact h ⟨pre, post, hcut.1⟩
        · obtain ⟨e1, _⟩ := FirstCut_unique _ _ _ _ _ _ hcut hc1
          rw [e1] at hkey
          exact hkey hk1
      · intro rest fields
        conv_lhs => unfold parseHeaderLines
        rw [if_neg hlen]
        simp only [hemp, if_false, hs, hkey]

theorem parseHeaderLines_error_iff (L : List Bytes) (fields : GoMap Bytes) :
    (∃ err, parseHeaderLines L fields = .error err) ↔ ∃ line ∈ L, BadLine line := by
  induction L generalizing fields with
  | nil => simp [parseHeaderLines]
  | cons line rest ih =>
    rcases line_step line with ⟨hbad, herr⟩ | ⟨k, v, hf, hk, hgood, hstep⟩
    · constructor
      · intro _
        exact ⟨line, List.mem_cons_self _ _, hbad⟩
      · intro _
        exact herr rest fields
    · rw [hstep rest fields, ih]
      constructor
      · rintro ⟨l, hl, hb⟩
        exact ⟨l, List.mem_cons_of_mem _ hl, hb⟩
      · rintro ⟨l, hl, hb⟩
        rcases List.mem_cons.1 hl with rfl | hl
        · exact absurd hb hgood
        · exact ⟨l, hl, hb⟩

theorem parseHeaderLines_ok (L : List Bytes) (fields r : GoMap Bytes)
    (h : parseHeaderLines L fields = .ok r) :
    (∀ line ∈ L, ∃ k v, LineField line k v ∧ k ≠ [])
    ∧ (∀ k v (i : Nat) line, L[i]? = some line → LineField line k v →
        (∀ (j : Nat) line1, i < j → L[j]? = some line1 → ¬ ∃ v1, LineField line1 k v1) →
        mapGet r k = some v)
    ∧ (∀ k, (∀ line ∈ L, ¬ ∃ v, LineField line k v) → mapGet r k = mapGet fields k) := by
  induction L generalizing fields with
  | nil =>
    simp only [parseHeaderLines, Except.ok.injEq] at h
    subst h
    refine ⟨by simp, ?_, fun _ _ => rfl⟩
    intro k v i line hi
    simp at hi
  | cons line rest ih =>
    rcases line_step line with ⟨hbad, herr⟩ | ⟨k0, v0, hf, hk, hgood, hstep⟩
    · obtain ⟨err, he⟩ := herr rest fields
      rw [he] at h
      cases h
    · rw [hstep rest fields] at h
      obtain ⟨ih1, ih2, ih3⟩ := ih _ h
      refine ⟨?_, ?_, ?_⟩
      · intro l hl
        rcases List.mem_cons.1 hl with rfl | hl
        · exact ⟨k0, v0, hf, hk⟩
        · exact ih1 l hl
      · intro k v i l hi hfl hlast
        cases i with
        | zero =>
          simp only [List.getElem?_cons_zero, Option.some.injEq] at hi
          subst hi
          obtain ⟨e1, e2⟩ := LineField_unique _ _ _ _ _ hf hfl
          subst e1 e2
          rw [ih3 k0, mapGet_mapSet_self]
          intro l1 hl1 hex
          obtain ⟨j, hj⟩ := List.mem_iff_getElem?.1 hl1
          exact hlast (j + 1) l1 (Nat.succ_pos j) (by simpa using hj) hex
        | succ i =>
          simp only [List.getElem?_cons_succ] at hi
          apply ih2 k v i l hi hfl
          intro j l1 hij hj hex
          exact hlast (j + 1) l1 (by omega) (by simpa using hj) hex
      · intro k hno
        rw [ih3 k (fun l hl => hno l (List.mem_cons_of_mem _ hl))]
        apply mapGet_mapSet_ne
        intro hkk
        subst hkk
        exact hno line (List.mem_cons_self _ _) ⟨v0, hf⟩

theorem exists_last (L : List Bytes) (P : Bytes → Prop) (h : ∃ line ∈ L, P line) :
    ∃ (i : Nat) (line : Bytes), L[i]? = some line ∧ P line
      ∧ ∀ (j : Nat) line1, i < j → L[j]? = some line1 → ¬ P line1 := by
  induction L with
  | nil => simp at h
  | cons a rest ih =>
    by_cases hr : ∃ line ∈ rest, P line
    · obtain ⟨i, line, hi, hp, hlast⟩ := ih hr
      refine ⟨i + 1, line, by simpa using hi, hp, ?_⟩
      intro j l1 hij hj
      cases j with
      | zero => omega
      | succ j =>
        simp only [List.getElem?_cons_succ] at hj
        exact hlast j l1 (by omega) hj
    · obtain ⟨line, hl, hp⟩ := h
      rcases List.mem_cons.1 hl with rfl | hl
      · refine ⟨0, line, by simp, hp, ?_⟩
        intro j l1 hij hj hp1
        cases j with
        | zero => omega
        | succ j =>
          simp only [List.getElem?_cons_succ] at hj
          exact hr ⟨l1, List.getElem?_mem hj, hp1⟩
      · exact absurd ⟨line, hl, hp⟩ hr

/-! ### What trimming leaves -/

theorem stripLeading_suffix (seqs : List Bytes) (f : Nat) (s : Bytes) :
    ∃ pre, s = pre ++ stripLeading seqs f s := by
  induction f generalizing s with
  | zero => exact ⟨[], rfl⟩
  | succ f ih =>
    unfold stripLeading
    cases hk : leadLen seqs s with
    | zero => exact ⟨[], rfl⟩
    | succ k =>
      obtain ⟨pre, hpre⟩ := ih (s.drop (k + 1))
      refine ⟨s.take (k + 1) ++ pre, ?_⟩
      simp only
      rw [List.append_assoc, ← hpre, List.take_append_drop]

theorem trimSpace_infix (s : Bytes) : ∃ a b, s = a ++ trimSpace s ++ b := by
  obtain ⟨a, ha⟩ := stripLeading_suffix spaceSeqs s.length s
  obtain ⟨b, hb⟩ := stripLeading_suffix (spaceSeqs.map List.reverse)
    (trimLeftSpace s).length (trimLeftSpace s).reverse
  refine ⟨a, b.reverse, ?_⟩
  have h2 : trimLeftSpace s = trimSpace s ++ b.reverse := by
    have := congrArg List.reverse hb
    rw [List.reverse_reverse, List.reverse_append] at this
    exact this
  have h1 : s = a ++ trimLeftSpace s := ha
  rw [List.append_assoc, ← h2]
  exact h1

/-! ### Failure and result of the header parser -/

/-- C12 (counterexample): the header block `Subj: ` is one line of 6 bytes;
the line is not empty once trimmed, it contains the separator `: ` and the
text before its first separator is the key `Subj`.  None of the conditions of
the claim holds of the line, and parseHeader returns the error of a missing
separator: it looks for the separator after it has trimmed the line. -/
theorem parseHeader_rejects_completed_separator :
    headerLines (ascii "Subj: ") = [ascii "Subj: "]
    ∧ (ascii "Subj: ").length = 6
    ∧ trimSpace (ascii "Subj: ") ≠ []
    ∧ FirstCut (ascii "Subj: ") (ascii ": ") (ascii "Subj") []
    ∧ trimSpace (ascii "Subj") = ascii "Subj"
    ∧ parseHeader (ascii "Subj: ") = .error Err.missingSeparator := by
  refine ⟨by decide, by decide, by decide, ?_, by decide, by rfl⟩
  exact index_some_cut (ascii "Subj: ") (ascii ": ") 4 (by decide)

/-- C12 (amended): for every header block, parseHeader returns an error if
and only if, after replacing CRLF by LF and splitting on LF, some line is
longer than 1024 bytes, or is empty after trimming white space, or, once
trimmed, does not contain the separator `: `, or has an empty key: the text
before the first `: ` of the trimmed line, trimmed.  In particular any line
without `: ` makes it fail. -/
theorem parseHeader_error_iff (data : Bytes) :
    ((∃ err, parseHeader data = .error err) ↔
      ∃ line ∈ headerLines data,
        1024 < line.length ∨ trimSpace line = []
        ∨ (¬ ∃ pre post, trimSpace line = pre ++ ascii ": " ++ post)
        ∨ (∃ pre post, FirstCut (trimSpace line) (ascii ": ") pre post ∧ trimSpace pre = []))
    ∧ (∀ line ∈ headerLines data, (¬ ∃ pre post, line = pre ++ ascii ": " ++ post) →
        ∃ err, parseHeader data = .error err) := by
  have key := parseHeaderLines_error_iff (headerLines data) []
  refine ⟨key, ?_⟩
  intro line hl hno
  apply key.2
  refine ⟨line, hl, Or.inr (Or.inr (Or.inl ?_))⟩
  rintro ⟨pre, post, hpp⟩
  obtain ⟨a, b, hab⟩ := trimSpace_infix line
  apply hno
  refine ⟨a ++ pre, post ++ b, ?_⟩
  rw [hpp] at hab
  rw [hab]
  simp

/-- C13: whenever parseHeader succeeds, the returned mapping has as keys
exactly the trimmed keys occurring on the lines, and it maps a key k to v
exactly when v is the trimmed text after the first `: ` on the last line
whose trimmed key is k; an earlier line with the same key never determines
the value. -/
theorem parseHeader_last_wins (data : Bytes) (fields : GoMap Bytes)
    (h : parseHeader data = .ok fields) :
    (∀ k, k ∈ mapKeys fields ↔ ∃ line ∈ headerLines data, ∃ v, LineField line k v)
    ∧ (∀ k v, mapGet fields k = some v ↔
        ∃ (i : Nat) (line : Bytes), (headerLines data)[i]? = some line ∧ LineField line k v
          ∧ ∀ (j : Nat) line1, i < j → (headerLines data)[j]? = some line1 →
              ¬ ∃ v1, LineField line1 k v1) := by
  obtain ⟨h1, h2, h3⟩ := parseHeaderLines_ok (headerLines data) [] fields h
  have hval : ∀ k v, mapGet fields k = some v ↔
      ∃ (i : Nat) (line : Bytes), (headerLines data)[i]? = some line ∧ LineField line k v
        ∧ ∀ (j : Nat) line1, i < j → (headerLines data)[j]? = some line1 →
            ¬ ∃ v1, LineField line1 k v1 := by
    intro k v
    constructor
    · intro hg
      have hex : ∃ line ∈ headerLines data, ∃ v1, LineField line k v1 := by
        by_contra hno
        have := h3 k (fun line hl hv => hno ⟨line, hl, hv⟩)
        rw [hg] at this
        simp [mapGet] at this
      obtain ⟨i, line, hi, ⟨v1, hf⟩, hlast⟩ :=
        exists_last (headerLines data) (fun l => ∃ v1, LineField l k v1) hex
      have := h2 k v1 i line hi hf hlast
      rw [hg] at this
      cases this
      exact ⟨i, line, hi, hf, hlast⟩
    · rintro ⟨i, line, hi, hf, hlast⟩
      exact h2 k v i line hi hf hlast
  refine ⟨?_, hval⟩
  intro k
  constructor
  · intro hk
    cases hg : mapGet fields k with
    | none => exact absurd hk ((mapGet_none_iff fields k).1 hg)
    | some v =>
      obtain ⟨i, line, hi, hf, _⟩ := (hval k v).1 hg
      exact ⟨line, List.getElem?_mem hi, v, hf⟩
  · rintro ⟨line, hl, v, hf⟩
    obtain ⟨i, line1, hi, ⟨v1, hf1⟩, hlast⟩ :=
      exists_last (headerLines data) (fun l => ∃ v1, LineField l k v1) ⟨line, hl, v, hf⟩
    have := h2 k v1 i line1 hi hf1 hlast
    by_contra hk
    rw [(mapGet_none_iff fields k).2 hk] at this
    cases this

/-- C13 (witness): in the block repeatedKeyHeader the key `A` occurs on the
first and on the third line; the result holds the value of the third. -/
theorem parseHeader_last_wins_witness :
    mapGet [(ascii "A", ascii "3"), (ascii "B", ascii "2")] (ascii "A") = some (ascii "3") ↔
      ∃ (i : Nat) (line : Bytes), (headerLines repeatedKeyHeader)[i]? = some line
        ∧ LineField line (ascii "A") (ascii "3")
        ∧ ∀ (j : Nat) line1, i < j → (headerLines repeatedKeyHeader)[j]? = some line1 →
            ¬ ∃ v1, LineField line1 (ascii "A") v1 :=
  (parseHeader_last_wins repeatedKeyHeader [(ascii "A", ascii "3"), (ascii "B", ascii "2")]
    (by rfl)).2 (ascii "A") (ascii "3")

/-! ### Trimmed texts -/

theorem seqs_nonempty : ∀ q ∈ spaceSeqs, q ≠ [] := by decide

theorem revSeqs_nonempty : ∀ q ∈ spaceSeqs.map List.reverse, q ≠ [] := by decide

theorem leadLen_pos (seqs : List Bytes) (s : Bytes) (k : Nat) (h : leadLen seqs s = k + 1) :
    ∃ q ∈ seqs, q.length = k + 1 ∧ q <+: s := by
  unfold leadLen at h
  cases hf : seqs.find? (fun q => hasPrefix s q) with
  | none => rw [hf] at h; cases h
  | some q =>
    rw [hf] at h
    have h1 := List.find?_some hf
    obtain ⟨t, ht⟩ := (hasPrefix_iff s q).1 h1
    exact ⟨q, List.mem_of_find?_eq_some hf, h, ⟨t, ht.symm⟩⟩

theorem leadLen_zero (seqs : List Bytes) (hne : ∀ q ∈ seqs, q ≠ []) (s : Bytes)
    (h : leadLen seqs s = 0) : ∀ q ∈ seqs, ¬ q <+: s := by
  intro q hq hpre
  unfold leadLen at h
  cases hf : seqs.find? (fun q => hasPrefix s q) with
  | none =>
    have := List.find?_eq_none.1 hf q hq
    apply this
    obtain ⟨t, ht⟩ := hpre
    exact (hasPrefix_iff s q).2 ⟨t, ht.symm⟩
  | some q1 =>
    rw [hf] at h
    exact hne q1 (List.mem_of_find?_eq_some hf) (List.length_eq_zero.1 h)

theorem leadLen_eq_zero_of (seqs : List Bytes) (s : Bytes) (h : ∀ q ∈ seqs, ¬ q <+: s) :
    leadLen seqs s = 0 := by
  cases hk : leadLen seqs s with
  | zero => rfl
  | succ k =>
    obtain ⟨q, hq, _, hpre⟩ := leadLen_pos seqs s k hk
    exact absurd hpre (h q hq)

theorem stripLeading_clean (seqs : List Bytes) (f : Nat) (s : Bytes) (hf : s.length ≤ f) :
    leadLen seqs (stripLeading seqs f s) = 0 := by
  induction f generalizing s with
  | zero =>
    have hs : s = [] := List.length_eq_zero.1 (Nat.le_zero.1 hf)
    subst hs
    exact Nat.le_zero.1 (leadLen_le seqs [])
  | succ f ih =>
    unfold stripLeading
    cases hk : leadLen seqs s with
    | zero => simpa using hk
    | succ k =>
      have hle := leadLen_le seqs s
      simp only
      apply ih
      simp only [List.length_drop]
      omega

theorem stripLeading_of_clean (seqs : List Bytes) (f : Nat) (s : Bytes)
    (h : leadLen seqs s = 0) : stripLeading seqs f s = s := by
  cases f with
  | zero => rfl
  | succ f =>
    unfold stripLeading
    rw [h]

theorem trimSpace_trimmed (s : Bytes) : Trimmed (trimSpace s) := by
  intro q hq
  have hleft : leadLen spaceSeqs (trimLeftSpace s) = 0 :=
    stripLeading_clean spaceSeqs s.length s (le_refl _)
  have hright : leadLen (spaceSeqs.map List.reverse)
      (stripLeading (spaceSeqs.map List.reverse) (trimLeftSpace s).length
        (trimLeftSpace s).reverse) = 0 :=
    stripLeading_clean _ _ _ (by simp)
  obtain ⟨b, hb⟩ := stripLeading_suffix (spaceSeqs.map List.reverse)
    (trimLeftSpace s).length (trimLeftSpace s).reverse
  have h2 : trimLeftSpace s = trimSpace s ++ b.reverse := by
    have := congrArg List.reverse hb
    rw [List.reverse_reverse, List.reverse_append] at this
    exact this
  constructor
  · intro hpre
    apply leadLen_zero spaceSeqs seqs_nonempty _ hleft q hq
    rw [h2]
    exact hpre.trans (List.prefix_append _ _)
  · intro hsuf
    apply leadLen_zero _ revSeqs_nonempty _ hright q.reverse (List.mem_map_of_mem _ hq)
    have : trimSpace s = (stripLeading (spaceSeqs.map List.reverse) (trimLeftSpace s).length
        (trimLeftSpace s).reverse).reverse := rfl
    rw [this] at hsuf
    have h3 := List.reverse_prefix.2 hsuf
    rw [List.reverse_reverse] at h3
    exact h3

theorem trimSpace_of_trimmed (s : Bytes) (h : Trimmed s) : trimSpace s = s := by
  have hl : trimLeftSpace s = s := by
    apply stripLeading_of_clean
    exact leadLen_eq_zero_of _ _ (fun q hq => (h q hq).1)
  unfold trimSpace trimRightSpace
  rw [hl, stripLeading_of_clean, List.reverse_reverse]
  apply leadLen_eq_zero_of
  intro q hq
  obtain ⟨q0, hq0, rfl⟩ := List.mem_map.1 hq
  intro hpre
  exact (h q0 hq0).2 (List.reverse_prefix.1 hpre)

theorem strip_all_suffix (seqs : List Bytes) (f : Nat) (s : Bytes)
    (h : stripLeading seqs f s = []) (hs : s ≠ []) : ∃ q ∈ seqs, q ≠ [] ∧ q <:+ s := by
  induction f generalizing s with
  | zero => exact absurd h hs
  | succ f ih =>
    unfold stripLeading at h
    cases hk : leadLen seqs s with
    | zero =>
      rw [hk] at h
      exact absurd h hs
    | succ k =>
      rw [hk] at h
      simp only at h
      obtain ⟨q, hq, hlen, ⟨t, ht⟩⟩ := leadLen_pos seqs s k hk
      have hqne : q ≠ [] := by
        intro h0
        rw [h0] at hlen
        simp at hlen
      by_cases hd : s.drop (k + 1) = []
      · refine ⟨q, hq, hqne, ?_⟩
        rw [← ht, ← hlen, List.drop_left] at hd
        rw [← ht, hd]
        simp
      · obtain ⟨q1, hq1, hne1, hsuf⟩ := ih _ h hd
        exact ⟨q1, hq1, hne1, hsuf.trans (List.drop_suffix _ _)⟩

theorem strip_all_prefix (seqs : List Bytes) (f : Nat) (s : Bytes)
    (h : stripLeading seqs f s = []) (hs : s ≠ []) : ∃ q ∈ seqs, q <+: s := by
  cases f with
  | zero => exact absurd h hs
  | succ f =>
    unfold stripLeading at h
    cases hk : leadLen seqs s with
    | zero =>
      rw [hk] at h
      exact absurd h hs
    | succ k =>
      obtain ⟨q, hq, _, hpre⟩ := leadLen_pos seqs s k hk
      exact ⟨q, hq, hpre⟩

theorem value_nonempty (L pre post : Bytes) (hT : Trimmed L)
    (hcut : L = pre ++ ascii ": " ++ post) : trimSpace post ≠ [] := by
  have hsufL : post <:+ L := ⟨pre ++ ascii ": ", hcut.symm⟩
  have hpost : post ≠ [] := by
    intro h0
    apply (hT [32] (by decide)).2
    rw [hcut, h0]
    exact ⟨pre ++ [58], by simp [ascii]⟩
  have hleft : trimLeftSpace post ≠ [] := by
    intro h0
    obtain ⟨q, hq, _, hsuf⟩ := strip_all_suffix spaceSeqs post.length post h0 hpost
    exact (hT q hq).2 (hsuf.trans hsufL)
  obtain ⟨a, ha⟩ := stripLeading_suffix spaceSeqs post.length post
  have hsuft : trimLeftSpace post <:+ post := ⟨a, ha.symm⟩
  intro h0
  have h1 : stripLeading (spaceSeqs.map List.reverse) (trimLeftSpace post).length
      (trimLeftSpace post).reverse = [] := by
    have : trimSpace post = (stripLeading (spaceSeqs.map List.reverse)
        (trimLeftSpace post).length (trimLeftSpace post).reverse).reverse := rfl
    rw [this] at h0
    exact List.reverse_eq_nil_iff.1 h0
  obtain ⟨q, hq, hpre⟩ := strip_all_prefix _ _ _ h1 (by simpa using hleft)
  obtain ⟨q0, hq0, rfl⟩ := List.mem_map.1 hq
  exact (hT q0 hq0).2 ((List.reverse_prefix.1 hpre).trans (hsuft.trans hsufL))

/-! ### Lines with an empty value -/

theorem revSeqs_code : ∀ q1 ∈ spaceSeqs.map List.reverse, ∀ q2 ∈ spaceSeqs.map List.reverse,
    hasPrefix q2 q1 = true → q1 = q2 := by decide

theorem revSeqs_head : ∀ q ∈ spaceSeqs.map List.reverse, q.head? ≠ some 58 := by decide

theorem seqs_no_colon : ∀ q ∈ spaceSeqs, 58 ∉ q := by decide

theorem leadLen_head (q z : Bytes) (hq : q ∈ spaceSeqs.map List.reverse) :
    leadLen (spaceSeqs.map List.reverse) (q ++ z) = q.length := by
  cases hk : leadLen (spaceSeqs.map List.reverse) (q ++ z) with
  | zero =>
    exact absurd (List.prefix_append q z) (leadLen_zero _ revSeqs_nonempty _ hk q hq)
  | succ k =>
    obtain ⟨q1, hq1, hlen, hpre⟩ := leadLen_pos _ _ k hk
    have : q1 = q := by
      rcases List.prefix_or_prefix_of_prefix hpre (List.prefix_append q z) with h | h
      · obtain ⟨t, ht⟩ := h
        exact revSeqs_code q1 hq1 q hq ((hasPrefix_iff q q1).2 ⟨t, ht.symm⟩)
      · obtain ⟨t, ht⟩ := h
        exact (revSeqs_code q hq q1 hq1 ((hasPrefix_iff q1 q).2 ⟨t, ht.symm⟩)).symm
    rw [← this, hlen]

theorem stars_strip (u : Bytes) (h : Stars (spaceSeqs.map List.reverse) u) (z : Bytes)
    (f : Nat) (hf : (u ++ z).length ≤ f) :
    stripLeading (spaceSeqs.map List.reverse) f (u ++ z)
      = stripLeading (spaceSeqs.map List.reverse) f z := by
  induction h generalizing f with
  | nil => rfl
  | cons q s hq hs ih =>
    have hqne := revSeqs_nonempty q hq
    have hqlen : 0 < q.length := List.length_pos.2 hqne
    cases f with
    | zero =>
      simp only [List.length_append] at hf
      omega
    | succ f =>
      have hl : leadLen (spaceSeqs.map List.reverse) (q ++ s ++ z) = (q.length - 1) + 1 := by
        rw [List.append_assoc, leadLen_head q (s ++ z) hq]
        omega
      conv_lhs => unfold stripLeading
      rw [hl]
      simp only
      have hd : (q ++ s ++ z).drop (q.length - 1 + 1) = s ++ z := by
        have e : q.length - 1 + 1 = q.length := by omega
        rw [e, List.append_assoc, List.drop_left]
      rw [hd]
      have hlen2 : (s ++ z).length ≤ f := by
        simp only [List.length_append] at hf ⊢
        omega
      rw [ih f hlen2]
      apply stripLeading_fuel
      · simp only [List.length_append] at hlen2
        omega
      · simp only [List.length_append] at hf
        omega

theorem stars_append (seqs : List Bytes) (a b : Bytes) (ha : Stars seqs a) (hb : Stars seqs b) :
    Stars seqs (a ++ b) := by
  induction ha with
  | nil => exact hb
  | cons q s hq _ ih =>
    rw [List.append_assoc]
    exact Stars.cons q _ hq ih

theorem stars_reverse (seqs : List Bytes) (s : Bytes) (h : Stars seqs s) :
    Stars (seqs.map List.reverse) s.reverse := by
  induction h with
  | nil => exact Stars.nil
  | cons q s hq _ ih =>
    rw [List.reverse_append]
    apply stars_append _ _ _ ih
    have := Stars.cons q.reverse [] (List.mem_map_of_mem List.reverse hq) Stars.nil
    simpa using this

theorem stars_no_colon (ws : Bytes) (h : Stars spaceSeqs ws) : 58 ∉ ws := by
  induction h with
  | nil => simp
  | cons q s hq _ ih =>
    intro hm
    rcases List.mem_append.1 hm with hm | hm
    · exact seqs_no_colon q hq hm
    · exact ih hm

theorem strip_stops_at_colon (f : Nat) (r : Bytes) :
    stripLeading (spaceSeqs.map List.reverse) f (58 :: r) = 58 :: r := by
  apply stripLeading_of_clean
  apply leadLen_eq_zero_of
  intro q hq hpre
  obtain ⟨t, ht⟩ := hpre
  cases q with
  | nil => exact revSeqs_nonempty [] hq rfl
  | cons c cs =>
    simp only [List.cons_append, List.cons.injEq] at ht
    have := revSeqs_head (c :: cs) hq
    simp [ht.1] at this

theorem empty_value_bad (line key ws : Bytes) (hline : line = key ++ 58 :: ws)
    (hws : OnlySpace ws) (hkey : ¬ ∃ a b, key = a ++ ascii ": " ++ b) : BadLine line := by
  rcases line_step line with ⟨hbad, _⟩ | ⟨k, v, ⟨pre, post, hcut, _, _⟩, _, _, _⟩
  · exact hbad
  · exfalso
    obtain ⟨a, ha⟩ := stripLeading_suffix spaceSeqs line.length line
    obtain ⟨br, hbr⟩ := stripLeading_suffix (spaceSeqs.map List.reverse)
      (trimLeftSpace line).length (trimLeftSpace line).reverse
    have hT : trimSpace line = (stripLeading (spaceSeqs.map List.reverse)
        (trimLeftSpace line).length (trimLeftSpace line).reverse).reverse := rfl
    have ht : trimLeftSpace line = trimSpace line ++ br.reverse := by
      have := congrArg List.reverse hbr
      rw [List.reverse_reverse, List.reverse_append] at this
      exact this
    have hsep : ascii ": " = [58, 32] := by decide
    have hc := hcut.1
    rw [hsep] at hc
    have hl : line = a ++ trimLeftSpace line := ha
    have e : (a ++ pre) ++ (58 :: 32 :: (post ++ br.reverse)) = key ++ (58 :: ws) := by
      rw [← hline, hl, ht, hc]
      simp
    have hws2 : ws = 32 :: (post ++ br.reverse) := by
      rcases List.append_eq_append_iff.1 e with ⟨a1, h1, h2⟩ | ⟨c1, h1, h2⟩
      · cases a1 with
        | nil =>
          simp only [List.nil_append, List.cons.injEq, true_and] at h2
          exact h2.symm
        | cons x a2 =>
          simp only [List.cons_append, List.cons.injEq] at h2
          cases a2 with
          | nil =>
            simp only [List.nil_append, List.cons.injEq] at h2
            omega
          | cons y a3 =>
            simp only [List.cons_append, List.cons.injEq] at h2
            exfalso
            apply hkey
            refine ⟨a ++ pre, a3, ?_⟩
            rw [h1, hsep, ← h2.1, ← h2.2.1]
            simp
      · cases c1 with
        | nil =>
          simp only [List.nil_append, List.cons.injEq, true_and] at h2
          exact h2
        | cons x c2 =>
          simp only [List.cons_append, List.cons.injEq] at h2
          exfalso
          apply stars_no_colon ws hws
          rw [h2.2]
          simp
    have ht2 : (trimLeftSpace line).reverse = ws.reverse ++ 58 :: pre.reverse := by
      rw [ht, hc, hws2]
      simp
    have hstrip : stripLeading (spaceSeqs.map List.reverse) (trimLeftSpace line).length
        (trimLeftSpace line).reverse = 58 :: pre.reverse := by
      rw [ht2, stars_strip _ (stars_reverse _ _ hws) _ _ (by rw [← ht2]; simp)]
      exact strip_stops_at_colon _ _
    rw [hstrip] at hT
    rw [hT] at hc
    have := congrArg List.length hc
    simp at this

theorem parseHeader_entry (data : Bytes) (fields : GoMap Bytes) (k v : Bytes)
    (h : parseHeader data = .ok fields) (hg : mapGet fields k = some v) :
    ∃ line ∈ headerLines data, LineField line k v ∧ k ≠ [] := by
  obtain ⟨h1, h2, h3⟩ := parseHeaderLines_ok (headerLines data) [] fields h
  have hex : ∃ line ∈ headerLines data, ∃ v1, LineField line k v1 := by
    by_contra hno
    have := h3 k (fun line hl hv => hno ⟨line, hl, hv⟩)
    rw [hg] at this
    simp [mapGet] at this
  obtain ⟨i, line, hi, ⟨v1, hf⟩, hlast⟩ :=
    exists_last (headerLines data) (fun l => ∃ v1, LineField l k v1) hex
  have := h2 k v1 i line hi hf hlast
  rw [hg] at this
  cases this
  obtain ⟨k2, v2, hf2, hk2⟩ := h1 line (List.getElem?_mem hi)
  obtain ⟨e1, _⟩ := LineField_unique _ _ _ _ _ hf hf2
  exact ⟨line, List.getElem?_mem hi, hf, e1 ▸ hk2⟩

theorem field_clean (line k v : Bytes) (h : LineField line k v) :
    v ≠ [] ∧ Trimmed k ∧ Trimmed v := by
  obtain ⟨pre, post, hcut, hk, hv⟩ := h
  refine ⟨?_, hk ▸ trimSpace_trimmed pre, hv ▸ trimSpace_trimmed post⟩
  rw [hv]
  exact value_nonempty (trimSpace line) pre post (trimSpace_trimmed line) hcut.1

/-- C19: whenever parseHeader succeeds, every key and every value of the
returned mapping is non-empty and has no leading or trailing white space (no
encoding of a white-space rune starts or ends it, and TrimSpace leaves it
unchanged).  Consequently a header line with an empty value, that is a key
without `: ` inside, a colon, and then nothing or white space only, makes
parseHeader fail; and a Group field of a parsed message header is never of
length 0, so that case of Verify is not reached with a present Group. -/
theorem parseHeader_fields_nonempty (data : Bytes) (fields : GoMap Bytes)
    (h : parseHeader data = .ok fields) :
    (∀ k v, mapGet fields k = some v →
        k ≠ [] ∧ v ≠ [] ∧ Trimmed k ∧ Trimmed v ∧ trimSpace k = k ∧ trimSpace v = v)
    ∧ (∀ data1 line key ws, line ∈ headerLines data1 → line = key ++ 58 :: ws → OnlySpace ws →
        (¬ ∃ a b, key = a ++ ascii ": " ++ b) → ∃ err, parseHeader data1 = .error err)
    ∧ (∀ idx fields1 group, MessageHeader idx = .ok fields1 →
        mapGet fields1 (ascii "Group") = some group → group.length ≠ 0) := by
  have inv : ∀ d f, parseHeader d = .ok f → ∀ k v, mapGet f k = some v →
      k ≠ [] ∧ v ≠ [] ∧ Trimmed k ∧ Trimmed v ∧ trimSpace k = k ∧ trimSpace v = v := by
    intro d f hd k v hg
    obtain ⟨line, _, hf, hk⟩ := parseHeader_entry d f k v hd hg
    obtain ⟨hv, htk, htv⟩ := field_clean line k v hf
    exact ⟨hk, hv, htk, htv, trimSpace_of_trimmed k htk, trimSpace_of_trimmed v htv⟩
  refine ⟨inv data fields h, ?_, ?_⟩
  · intro data1 line key ws hl hline hws hkey
    exact (parseHeaderLines_error_iff (headerLines data1) []).2
      ⟨line, hl, empty_value_bad line key ws hline hws hkey⟩
  · intro idx fields1 group hm hg
    unfold MessageHeader at hm
    cases hgh : getHeader idx with
    | error err => rw [hgh] at hm; cases hm
    | ok hdr =>
      rw [hgh] at hm
      have := (inv hdr fields1 hm _ _ hg).2.1
      intro h0
      exact this (List.length_eq_zero.1 h0)

/-- C19 (witness): a block that parses has trimmed, non-empty fields, and
the blocks `Subj:` and `Subj: ` followed by white space fail. -/
theorem parseHeader_fields_nonempty_witness :
    (∀ k v, mapGet [(ascii "Subj", ascii "hello world"), (ascii "Group", ascii "test")] k
        = some v →
        k ≠ [] ∧ v ≠ [] ∧ Trimmed k ∧ Trimmed v ∧ trimSpace k = k ∧ trimSpace v = v)
    ∧ (∃ err, parseHeader (ascii "Subj:") = .error err)
    ∧ (∃ err, parseHeader (ascii "From: me\nSubj: \t ") = .error err) :=
  have h := parseHeader_fields_nonempty tidyHeader
    [(ascii "Subj", ascii "hello world"), (ascii "Group", ascii "test")] (by rfl)
  ⟨h.1,
   h.2.1 (ascii "Subj:") (ascii "Subj:") (ascii "Subj") [] (by decide) (by decide) Stars.nil
     (by
       rintro ⟨a, b, hab⟩
       have : 32 ∈ ascii "Subj" := by rw [hab]; simp [ascii]
       revert this
       decide),
   h.2.1 (ascii "From: me\nSubj: \t ") (ascii "Subj: \t ") (ascii "Subj") (ascii " \t ")
     (by decide) (by decide)
     (Stars.cons [32] _ (by decide) (Stars.cons [9] _ (by decide)
       (Stars.cons [32] _ (by decide) Stars.nil)))
     (by
       rintro ⟨a, b, hab⟩
       have : 32 ∈ ascii "Subj" := by rw [hab]; simp [ascii]
       revert this
       decide)⟩

theorem setKids_cons (k : Bytes) (v : Message) (r : GoMap Message) (id : Bytes)
    (cs : List Bytes) :
    setKids ((k, v) :: r) id cs
      = (if k = id then (k, { v with Children := cs }) else (k, v)) :: setKids r id cs := rfl

theorem mapGet_setKids (heap : GoMap Message) (id : Bytes) (cs : List Bytes) (q : Bytes) :
    mapGet (setKids heap id cs) q
      = (mapGet heap q).map (fun m => if q = id then { m with Children := cs } else m) := by
  induction heap with
  | nil => rfl
  | cons e r ih =>
    obtain ⟨k, v⟩ := e
    rw [setKids_cons]
    by_cases hk : k = id
    · rw [if_pos hk]
      by_cases hq : k = q
      · have hqi : q = id := by rw [← hq, hk]
        rw [mapGet, mapGet, if_pos hq, if_pos hq, Option.map_some', if_pos hqi]
      · rw [mapGet, mapGet, if_neg hq, if_neg hq]
        exact ih
    · rw [if_neg hk]
      by_cases hq : k = q
      · have hqi : ¬ q = id := by rw [← hq]; exact hk
        rw [mapGet, mapGet, if_pos hq, if_pos hq, Option.map_some', if_neg hqi]
      · rw [mapGet, mapGet, if_neg hq, if_neg hq]
        exact ih

theorem mapKeys_setKids (heap : GoMap Message) (id : Bytes) (cs : List Bytes) :
    mapKeys (setKids heap id cs) = mapKeys heap := by
  unfold mapKeys setKids
  rw [List.map_map]
  apply List.map_congr_left
  intro e _
  simp only [Function.comp]
  split <;> rfl

theorem dateOf_setKids (heap : GoMap Message) (id : Bytes) (cs : List Bytes) (q : Bytes) :
    dateOf (setKids heap id cs) q = dateOf heap q := by
  unfold dateOf
  rw [mapGet_setKids]
  cases mapGet heap q with
  | none => rfl
  | some m =>
    simp only [Option.map_some']
    split <;> rfl

theorem kids_setKids_ne (heap : GoMap Message) (id : Bytes) (cs : List Bytes) (q : Bytes)
    (h : q ≠ id) : kids (setKids heap id cs) q = kids heap q := by
  unfold kids
  rw [mapGet_setKids]
  cases mapGet heap q with
  | none => rfl
  | some m => simp [h]

theorem kids_setKids_self (heap : GoMap Message) (id : Bytes) (cs : List Bytes)
    (h : id ∈ mapKeys heap) : kids (setKids heap id cs) id = cs := by
  unfold kids
  rw [mapGet_setKids]
  cases hg : mapGet heap id with
  | none => exact ((mapGet_none_iff heap id).1 hg h).elim
  | some m => simp

theorem kids_of_not_mem (heap : GoMap Message) (id : Bytes) (h : id ∉ mapKeys heap) :
    kids heap id = [] := by
  unfold kids
  rw [(mapGet_none_iff heap id).2 h]

theorem kids_setKids_perm (heap : GoMap Message) (id : Bytes) (cs : List Bytes)
    (h : cs.Perm (kids heap id)) : kids (setKids heap id cs) id = cs := by
  by_cases hm : id ∈ mapKeys heap
  · exact kids_setKids_self heap id cs hm
  · have h0 : kids heap id = [] := kids_of_not_mem heap id hm
    rw [h0] at h
    rw [List.Perm.eq_nil h]
    exact kids_of_not_mem _ id (by rw [mapKeys_setKids]; exact hm)

theorem parentOf_entry (msgMap : GoMap Message) (id : Bytes) (msg : Message)
    (h : mapGet msgMap id = some msg) :
    parentOf msgMap id = match msg.Parent with
      | none => none
      | some p => if p ∈ mapKeys msgMap then some p else none := by
  unfold parentOf
  rw [h]

theorem parentOf_some_mem (msgMap : GoMap Message) (n p : Bytes)
    (h : parentOf msgMap n = some p) : n ∈ mapKeys msgMap ∧ p ∈ mapKeys msgMap := by
  cases hg : mapGet msgMap n with
  | none =>
    unfold parentOf at h
    rw [hg] at h
    cases h
  | some m =>
    rw [parentOf_entry msgMap n m hg] at h
    have hn : n ∈ mapKeys msgMap := by
      by_contra hc
      rw [(mapGet_none_iff msgMap n).2 hc] at hg
      cases hg
    cases hp : m.Parent with
    | none => rw [hp] at h; cases h
    | some q =>
      rw [hp] at h
      simp only at h
      by_cases hq : q ∈ mapKeys msgMap
      · rw [if_pos hq] at h
        cases h
        exact ⟨hn, hq⟩
      · rw [if_neg hq] at h
        cases h

theorem linkLoop_spec (msgMap : GoMap Message) :
    ∀ (todo : List (Bytes × Message)) (heap : GoMap Message) (roots : List Bytes),
      (∀ e ∈ todo, mapGet msgMap e.1 = some e.2) → mapKeys heap = mapKeys msgMap →
      mapKeys (linkLoop todo heap roots).1 = mapKeys msgMap
      ∧ (∀ n, dateOf (linkLoop todo heap roots).1 n = dateOf heap n)
      ∧ (linkLoop todo heap roots).2
          = roots ++ (mapKeys todo).filter (fun n => parentOf msgMap n = none)
      ∧ ∀ p, kids (linkLoop todo heap roots).1 p
          = kids heap p ++ (mapKeys todo).filter (fun n => parentOf msgMap n = some p) := by
  intro todo
  induction todo with
  | nil =>
    intro heap roots _ hk
    simp [linkLoop, mapKeys, hk]
    exact hk
  | cons e rest ih =>
    intro heap roots hall hk
    obtain ⟨id, msg⟩ := e
    have hid : mapGet msgMap id = some msg := hall (id, msg) (List.mem_cons_self _ _)
    have hrest : ∀ e ∈ rest, mapGet msgMap e.1 = some e.2 :=
      fun e he => hall e (List.mem_cons_of_mem _ he)
    have hpar := parentOf_entry msgMap id msg hid
    have hkeys : mapKeys ((id, msg) :: rest) = id :: mapKeys rest := rfl
    rw [hkeys]
    unfold linkLoop
    cases hp : msg.Parent with
    | none =>
      rw [hp] at hpar
      simp only at hpar ⊢
      obtain ⟨h1, h2, h3, h4⟩ := ih heap (roots ++ [id]) hrest hk
      refine ⟨h1, h2, ?_, ?_⟩
      · rw [h3, List.filter_cons]
        simp [hpar]
      · intro p
        rw [h4 p, List.filter_cons]
        simp [hpar]
    | some q =>
      rw [hp] at hpar
      simp only at hpar ⊢
      cases hq : mapGet heap q with
      | none =>
        have hqn : q ∉ mapKeys msgMap := by
          rw [← hk]; exact (mapGet_none_iff heap q).1 hq
        rw [if_neg hqn] at hpar
        simp only
        obtain ⟨h1, h2, h3, h4⟩ := ih heap (roots ++ [id]) hrest hk
        refine ⟨h1, h2, ?_, ?_⟩
        · rw [h3, List.filter_cons]
          simp [hpar]
        · intro p
          rw [h4 p, List.filter_cons]
          simp [hpar]
      | some parent =>
        have hqm : q ∈ mapKeys msgMap := by
          rw [← hk]
          by_contra hc
          rw [(mapGet_none_iff heap q).2 hc] at hq
          cases hq
        rw [if_pos hqm] at hpar
        simp only
        have hk2 : mapKeys (setKids heap q (parent.Children ++ [id])) = mapKeys msgMap := by
          rw [mapKeys_setKids]; exact hk
        obtain ⟨h1, h2, h3, h4⟩ :=
          ih (setKids heap q (parent.Children ++ [id])) roots hrest hk2
        refine ⟨h1, ?_, ?_, ?_⟩
        · intro n
          rw [h2 n, dateOf_setKids]
        · rw [h3, List.filter_cons]
          simp [hpar]
        · intro p
          rw [h4 p, List.filter_cons]
          have hkq : kids heap q = parent.Children := by
            unfold kids; rw [hq]
          by_cases hpq : p = q
          · subst hpq
            rw [kids_setKids_self heap p _ (by rw [hk]; exact hqm), hkq]
            simp [hpar]
          · rw [kids_setKids_ne heap q _ p hpq]
            have : ¬ (some q = some p) := fun h => hpq (Option.some.inj h).symm
            simp [hpar, this]

theorem mapGet_entries (msgMap : GoMap Message) (hwf : mapWF msgMap) :
    ∀ e ∈ msgMap, mapGet msgMap e.1 = some e.2 :=
  fun e he => mapGet_of_mem msgMap e.1 e.2 hwf he

theorem kids_fresh (msgMap : GoMap Message) (hf : FreshMap msgMap) (p : Bytes) :
    kids msgMap p = [] := by
  unfold kids
  cases hg : mapGet msgMap p with
  | none => rfl
  | some m => exact hf (p, m) (mapGet_mem msgMap p m hg)

theorem linkMessages_spec (msgMap : GoMap Message) (hwf : mapWF msgMap) (hf : FreshMap msgMap) :
    mapKeys (linkMessages msgMap).heap = mapKeys msgMap
    ∧ (∀ n, dateOf (linkMessages msgMap).heap n = dateOf msgMap n)
    ∧ (linkMessages msgMap).roots = (mapKeys msgMap).filter (fun n => parentOf msgMap n = none)
    ∧ ∀ p, kids (linkMessages msgMap).heap p
        = (mapKeys msgMap).filter (fun n => parentOf msgMap n = some p) := by
  obtain ⟨h1, h2, h3, h4⟩ := linkLoop_spec msgMap msgMap msgMap [] (mapGet_entries msgMap hwf) rfl
  refine ⟨h1, h2, ?_, ?_⟩
  · unfold linkMessages; simp only; rw [h3]; rfl
  · intro p
    unfold linkMessages; simp only; rw [h4 p, kids_fresh msgMap hf p]; rfl

theorem linkMessages_linked (msgMap : GoMap Message) (hwf : mapWF msgMap)
    (hf : FreshMap msgMap) : Linked msgMap (linkMessages msgMap) := by
  obtain ⟨h1, h2, h3, h4⟩ := linkMessages_spec msgMap hwf hf
  exact ⟨h1, h2, by rw [h3], fun p => by rw [h4 p]⟩

theorem linked_mem_roots (msgMap : GoMap Message) (st : Forest) (h : Linked msgMap st)
    (n : Bytes) : n ∈ st.roots ↔ n ∈ mapKeys msgMap ∧ parentOf msgMap n = none := by
  rw [h.2.2.1.mem_iff, List.mem_filter, decide_eq_true_eq]

theorem linked_mem_kids (msgMap : GoMap Message) (st : Forest) (h : Linked msgMap st)
    (n p : Bytes) : n ∈ kids st.heap p ↔ parentOf msgMap n = some p := by
  rw [(h.2.2.2 p).mem_iff, List.mem_filter, decide_eq_true_eq]
  exact ⟨fun h => h.2, fun h => ⟨(parentOf_some_mem msgMap n p h).1, h⟩⟩

theorem linked_setSlice (msgMap : GoMap Message) (st : Forest) (h : Linked msgMap st)
    (ref : Option Bytes) (l : List Bytes) (hl : l.Perm (slice st ref)) :
    Linked msgMap (setSlice st ref l) ∧ slice (setSlice st ref l) ref = l := by
  obtain ⟨h1, h2, h3, h4⟩ := h
  cases ref with
  | none => exact ⟨⟨h1, h2, hl.trans h3, h4⟩, rfl⟩
  | some id =>
    have hself : kids (setKids st.heap id l) id = l := kids_setKids_perm st.heap id l hl
    refine ⟨⟨?_, ?_, h3, ?_⟩, hself⟩
    · show mapKeys (setKids st.heap id l) = _
      rw [mapKeys_setKids]; exact h1
    · intro n
      show dateOf (setKids st.heap id l) n = _
      rw [dateOf_setKids]; exact h2 n
    · intro p
      show (kids (setKids st.heap id l) p).Perm _
      by_cases hp : p = id
      · subst hp
        rw [hself]
        exact hl.trans (h4 p)
      · rw [kids_setKids_ne st.heap id l p hp]
        exact h4 p

theorem keeps_refl (msgMap : GoMap Message) (st : Forest) : Keeps msgMap st st :=
  ⟨fun h => h, fun _ h => h⟩

theorem keeps_trans (msgMap : GoMap Message) (a b c : Forest) (h1 : Keeps msgMap a b)
    (h2 : Keeps msgMap b c) : Keeps msgMap a c :=
  ⟨fun h => h2.1 (h1.1 h), fun n h => h2.2 n (h1.2 n h)⟩

theorem keeps_setSlice (msgMap : GoMap Message) (st : Forest) (ref : Option Bytes)
    (l : List Bytes) (hl : l.Perm (slice st ref)) (hs : DateSorted msgMap l) :
    Keeps msgMap st (setSlice st ref l) := by
  cases ref with
  | none => exact ⟨fun _ => hs, fun _ h => h⟩
  | some id =>
    refine ⟨fun h => h, fun n h => ?_⟩
    show DateSorted msgMap (kids (setKids st.heap id l) n)
    by_cases hn : n = id
    · subst hn
      rw [kids_setKids_perm st.heap n l hl]
      exact hs
    · rw [kids_setKids_ne st.heap id l n hn]
      exact h

theorem compareDates_neg_iff (a b : Option Time) :
    compareDates a b < 0 ↔ dateKey a < dateKey b := by
  cases a with
  | none =>
    cases b with
    | none => simp [compareDates, dateKey]
    | some y =>
      simp only [compareDates, dateKey, Time.toList]
      exact iff_of_true (by decide) (List.nil_lt_cons _ _)
  | some x =>
    cases b with
    | none => simp [compareDates, dateKey]
    | some y =>
      simp only [compareDates, dateKey, Time.Compare]
      by_cases h1 : x.toList < y.toList
      · simp [h1]
      · by_cases h2 : y.toList < x.toList
        · simp [h1, h2]
        · simp [h1, h2]

theorem dateLE_iff (a b : Option Time) : DateLE a b ↔ dateKey a ≤ dateKey b := by
  cases a with
  | none => simp [DateLE, dateKey]
  | some x =>
    cases b with
    | none =>
      simp only [DateLE, dateKey, Time.toList, false_iff, not_le]
      exact List.nil_lt_cons _ _
    | some y => simp [DateLE, dateKey]

theorem strictWeak_dates (heap : GoMap Message) :
    StrictWeak (fun a b => compareDates (dateOf heap a) (dateOf heap b)) := by
  refine ⟨fun a => ?_, fun a b c => ?_, fun a b c => ?_⟩
  · simp only [compareDates_neg_iff]
    exact lt_irrefl _
  · simp only [compareDates_neg_iff]
    exact lt_trans
  · simp only [compareDates_neg_iff, not_lt]
    intro h1 h2 h3 h4
    exact ⟨le_trans h3 h1, le_trans h2 h4⟩

theorem sortMessagesByDate_spec (sort : SortFn) (hs : SortContract sort)
    (msgMap heap : GoMap Message) (hd : ∀ n, dateOf heap n = dateOf msgMap n)
    (l : List Bytes) :
    (sortMessagesByDate sort heap l).Perm l
      ∧ DateSorted msgMap (sortMessagesByDate sort heap l) := by
  obtain ⟨hp, hsorted⟩ := hs (fun a b => compareDates (dateOf heap a) (dateOf heap b)) l
  refine ⟨hp, ?_⟩
  have := hsorted (strictWeak_dates heap)
  unfold DateSorted sortMessagesByDate
  refine List.Pairwise.imp ?_ this
  intro a b hab
  rw [dateLE_iff, ← hd a, ← hd b]
  rw [compareDates_neg_iff, not_lt] at hab
  exact hab

theorem atDepth_unique (msgMap : GoMap Message) (d : Nat) (n : Bytes)
    (h : AtDepth msgMap d n) : ∀ e, AtDepth msgMap e n → d = e := by
  induction h with
  | root n hn hp =>
    intro e he
    cases he with
    | root _ _ _ => rfl
    | step _ _ p hp2 _ => rw [hp] at hp2; cases hp2
  | step d n p hp h ih =>
    intro e he
    cases he with
    | root _ _ hp2 => rw [hp] at hp2; cases hp2
    | step e2 _ p2 hp2 h2 =>
      rw [hp] at hp2
      cases hp2
      rw [ih e2 h2]

theorem atDepth_mem (msgMap : GoMap Message) (d : Nat) (n : Bytes)
    (h : AtDepth msgMap d n) : n ∈ mapKeys msgMap := by
  cases h with
  | root _ hn _ => exact hn
  | step _ _ p hp _ => exact (parentOf_some_mem msgMap n p hp).1

theorem atDepth_chain (msgMap : GoMap Message) (d : Nat) (n : Bytes)
    (h : AtDepth msgMap d n) :
    ∃ l : List Bytes, l.length = d + 1 ∧ l.Nodup ∧ ∀ x ∈ l, ∃ e, e ≤ d ∧ AtDepth msgMap e x := by
  induction h with
  | root n hn hp =>
    exact ⟨[n], rfl, List.nodup_singleton n,
      fun x hx => ⟨0, le_refl 0, by rw [List.mem_singleton.1 hx]; exact AtDepth.root n hn hp⟩⟩
  | step d n p hp h ih =>
    obtain ⟨l, hlen, hnd, hall⟩ := ih
    refine ⟨n :: l, by simp [hlen], List.nodup_cons.2 ⟨?_, hnd⟩, ?_⟩
    · intro hmem
      obtain ⟨e, he, hae⟩ := hall n hmem
      have := atDepth_unique msgMap (d + 1) n (AtDepth.step d n p hp h) e hae
      omega
    · intro x hx
      rcases List.mem_cons.1 hx with hx | hx
      · exact ⟨d + 1, le_refl _, by rw [hx]; exact AtDepth.step d n p hp h⟩
      · obtain ⟨e, he, hae⟩ := hall x hx
        exact ⟨e, Nat.le_succ_of_le he, hae⟩

theorem atDepth_lt (msgMap : GoMap Message) (d : Nat) (n : Bytes)
    (h : AtDepth msgMap d n) : d < (mapKeys msgMap).length := by
  obtain ⟨l, hlen, hnd, hall⟩ := atDepth_chain msgMap d n h
  have hsub : l ⊆ mapKeys msgMap := by
    intro x hx
    obtain ⟨e, _, hae⟩ := hall x hx
    exact atDepth_mem msgMap e x hae
  have := (List.subperm_of_subset hnd hsub).length_le
  omega

theorem ancestor_last (msgMap : GoMap Message) :
    ∀ (k : Nat) (n a : Bytes), Ancestor msgMap (k + 1) n a →
      ∃ c, Ancestor msgMap k n c ∧ parentOf msgMap c = some a := by
  intro k
  induction k with
  | zero =>
    intro n a h
    cases h with
    | step _ _ p _ hp h2 =>
      cases h2
      exact ⟨n, Ancestor.self n, hp⟩
  | succ k ih =>
    intro n a h
    cases h with
    | step _ _ p _ hp h2 =>
      obtain ⟨c, hc, hpc⟩ := ih p a h2
      exact ⟨c, Ancestor.step k n p c hp hc, hpc⟩

theorem atDepth_ancestor (msgMap : GoMap Message) (k : Nat) (n a : Bytes)
    (h : Ancestor msgMap k n a) :
    ∀ d, AtDepth msgMap d n → k ≤ d ∧ AtDepth msgMap (d - k) a := by
  induction h with
  | self n => exact fun d hd => ⟨Nat.zero_le d, hd⟩
  | step k n p a hp h ih =>
    intro d hd
    cases hd with
    | root _ _ hp2 => rw [hp] at hp2; cases hp2
    | step d2 _ p2 hp2 h2 =>
      rw [hp] at hp2
      cases hp2
      obtain ⟨hle, ha⟩ := ih d2 h2
      refine ⟨Nat.succ_le_succ hle, ?_⟩
      rw [Nat.add_sub_add_right]
      exact ha

theorem atDepth_root (msgMap : GoMap Message) (d : Nat) (n : Bytes)
    (h : AtDepth msgMap d n) :
    ∃ r, Ancestor msgMap d n r ∧ r ∈ mapKeys msgMap ∧ parentOf msgMap r = none := by
  induction h with
  | root n hn hp => exact ⟨n, Ancestor.self n, hn, hp⟩
  | step d n p hp h ih =>
    obtain ⟨r, hr, hm, hpr⟩ := ih
    exact ⟨r, Ancestor.step d n p r hp hr, hm, hpr⟩

theorem onCycle_no_depth (msgMap : GoMap Message) (n : Bytes) (h : OnCycle msgMap n) :
    ¬ ∃ d, AtDepth msgMap d n := by
  rintro ⟨d, hd⟩
  obtain ⟨k, hk⟩ := h
  obtain ⟨hle, ha⟩ := atDepth_ancestor msgMap (k + 1) n n hk d hd
  have := atDepth_unique msgMap d n hd _ ha
  omega

theorem reach_iff (msgMap : GoMap Message) (st : Forest) (h : Linked msgMap st) (n : Bytes) :
    Reach st n ↔ ∃ d, AtDepth msgMap d n := by
  constructor
  · intro hr
    induction hr with
    | root n hn =>
      obtain ⟨hm, hp⟩ := (linked_mem_roots msgMap st h n).1 hn
      exact ⟨0, AtDepth.root n hm hp⟩
    | kid n p _ hk ih =>
      obtain ⟨d, hd⟩ := ih
      exact ⟨d + 1, AtDepth.step d n p ((linked_mem_kids msgMap st h n p).1 hk) hd⟩
  · rintro ⟨d, hd⟩
    induction hd with
    | root n hn hp => exact Reach.root n ((linked_mem_roots msgMap st h n).2 ⟨hn, hp⟩)
    | step d n p hp _ ih => exact Reach.kid n p ih ((linked_mem_kids msgMap st h n p).2 hp)

theorem pathUp_unique (msgMap : GoMap Message) (st : Forest) (h : Linked msgMap st)
    (l : List Bytes) (n : Bytes) (hl : PathUp st l n) :
    ∀ l2, PathUp st l2 n → l = l2 := by
  induction hl with
  | root r hr =>
    intro l2 h2
    cases h2 with
    | root _ _ => rfl
    | kid l3 _ p _ hk =>
      have h1 := ((linked_mem_roots msgMap st h r).1 hr).2
      rw [(linked_mem_kids msgMap st h r p).1 hk] at h1
      cases h1
  | kid l n p _ hk ih =>
    intro l2 h2
    cases h2 with
    | root _ hr =>
      have h1 := ((linked_mem_roots msgMap st h n).1 hr).2
      rw [(linked_mem_kids msgMap st h n p).1 hk] at h1
      cases h1
    | kid l3 _ p2 hp2 hk2 =>
      have e1 := (linked_mem_kids msgMap st h n p).1 hk
      have e2 := (linked_mem_kids msgMap st h n p2).1 hk2
      rw [e1] at e2
      cases e2
      rw [ih l3 hp2]

theorem linked_nodup (msgMap : GoMap Message) (hwf : mapWF msgMap) (st : Forest)
    (h : Linked msgMap st) : st.roots.Nodup ∧ ∀ p, (kids st.heap p).Nodup :=
  ⟨(h.2.2.1.nodup_iff).2 (List.Nodup.filter _ hwf),
   fun p => ((h.2.2.2 p).nodup_iff).2 (List.Nodup.filter _ hwf)⟩

theorem sortLoop_run (msgMap : GoMap Message) (Q : Bytes → Prop)
    (recur : Forest → Option Bytes → Option Forest)
    (H : ∀ st c, Linked msgMap st → Q c →
      ∃ st1, recur st (some c) = some st1 ∧ Linked msgMap st1 ∧ Keeps msgMap st st1
        ∧ ∀ n j, Ancestor msgMap j n c → DateSorted msgMap (kids st1.heap n)) :
    ∀ (l : List Bytes) (st : Forest), Linked msgMap st → (∀ c ∈ l, Q c) →
      ∃ st1, sortLoop recur l st = some st1 ∧ Linked msgMap st1 ∧ Keeps msgMap st st1
        ∧ ∀ c ∈ l, ∀ n j, Ancestor msgMap j n c → DateSorted msgMap (kids st1.heap n) := by
  intro l
  induction l with
  | nil =>
    intro st hl _
    exact ⟨st, rfl, hl, keeps_refl msgMap st, fun c hc => by cases hc⟩
  | cons c rest ih =>
    intro st hl hq
    obtain ⟨st1, e1, l1, k1, s1⟩ := H st c hl (hq c (List.mem_cons_self _ _))
    obtain ⟨st2, e2, l2, k2, s2⟩ := ih st1 l1 (fun x hx => hq x (List.mem_cons_of_mem _ hx))
    refine ⟨st2, ?_, l2, keeps_trans msgMap st st1 st2 k1 k2, ?_⟩
    · rw [sortLoop, e1]
      exact e2
    · intro x hx n j ha
      rcases List.mem_cons.1 hx with hx | hx
      · subst hx
        exact k2.2 n (s1 n j ha)
      · exact s2 x hx n j ha

theorem sortTree_run (sort : SortFn) (hs : SortContract sort) (msgMap : GoMap Message) :
    ∀ (k : Nat) (st : Forest) (ref : Option Bytes), Linked msgMap st →
      (∀ c ∈ slice st ref, ∃ d, AtDepth msgMap d c ∧ (mapKeys msgMap).length ≤ d + k) →
      ∃ st1, sortTreeByDate sort (k + 1) st ref = some st1 ∧ Linked msgMap st1
        ∧ Keeps msgMap st st1 ∧ DateSorted msgMap (slice st1 ref)
        ∧ ∀ c ∈ slice st ref, ∀ n j, Ancestor msgMap j n c →
            DateSorted msgMap (kids st1.heap n) := by
  intro k
  induction k with
  | zero =>
    intro st ref hl hq
    have hempty : slice st ref = [] := by
      cases hsl : slice st ref with
      | nil => rfl
      | cons c r =>
        obtain ⟨d, hd, hle⟩ := hq c (by rw [hsl]; exact List.mem_cons_self _ _)
        have := atDepth_lt msgMap d c hd
        omega
    obtain ⟨hp, hsd⟩ := sortMessagesByDate_spec sort hs msgMap st.heap hl.2.1 (slice st ref)
    obtain ⟨hl1, hs1⟩ := linked_setSlice msgMap st hl ref _ hp
    have hnil : sortMessagesByDate sort st.heap (slice st ref) = [] :=
      List.Perm.eq_nil (hempty ▸ hp)
    refine ⟨setSlice st ref (sortMessagesByDate sort st.heap (slice st ref)), ?_, hl1,
      keeps_setSlice msgMap st ref _ hp hsd, by rw [hs1]; exact hsd, ?_⟩
    · rw [sortTreeByDate, hnil]
      rfl
    · intro c hc
      rw [hempty] at hc
      cases hc
  | succ k ih =>
    intro st ref hl hq
    obtain ⟨hp, hsd⟩ := sortMessagesByDate_spec sort hs msgMap st.heap hl.2.1 (slice st ref)
    obtain ⟨hl1, hs1⟩ := linked_setSlice msgMap st hl ref _ hp
    have hk1 := keeps_setSlice msgMap st ref _ hp hsd
    have H : ∀ st c, Linked msgMap st →
        (∃ d, AtDepth msgMap d c ∧ (mapKeys msgMap).length ≤ d + (k + 1)) →
        ∃ st1, sortTreeByDate sort (k + 1) st (some c) = some st1 ∧ Linked msgMap st1
          ∧ Keeps msgMap st st1
          ∧ ∀ n j, Ancestor msgMap j n c → DateSorted msgMap (kids st1.heap n) := by
      intro st2 c hl2 hc
      obtain ⟨d, hd, hle⟩ := hc
      have hkids : ∀ c2 ∈ slice st2 (some c),
          ∃ d2, AtDepth msgMap d2 c2 ∧ (mapKeys msgMap).length ≤ d2 + k := by
        intro c2 hc2
        have hpar := (linked_mem_kids msgMap st2 hl2 c2 c).1 hc2
        exact ⟨d + 1, AtDepth.step d c2 c hpar hd, by omega⟩
      obtain ⟨st3, e3, l3, k3, s3, a3⟩ := ih st2 (some c) hl2 hkids
      refine ⟨st3, e3, l3, k3, ?_⟩
      intro n j ha
      cases j with
      | zero =>
        cases ha
        exact s3
      | succ j =>
        obtain ⟨c2, hc2, hpc⟩ := ancestor_last msgMap j n c ha
        exact a3 c2 ((linked_mem_kids msgMap st2 hl2 c2 c).2 hpc) n j hc2
    have hq1 : ∀ c ∈ sortMessagesByDate sort st.heap (slice st ref),
        ∃ d, AtDepth msgMap d c ∧ (mapKeys msgMap).length ≤ d + (k + 1) :=
      fun c hc => hq c (hp.mem_iff.1 hc)
    obtain ⟨st4, e4, l4, k4, s4⟩ := sortLoop_run msgMap _ (sortTreeByDate sort (k + 1)) H
      (sortMessagesByDate sort st.heap (slice st ref))
      (setSlice st ref (sortMessagesByDate sort st.heap (slice st ref))) hl1 hq1
    refine ⟨st4, ?_, l4, keeps_trans msgMap _ _ _ hk1 k4, ?_, ?_⟩
    · rw [sortTreeByDate]
      exact e4
    · rw [← hs1] at hsd
      cases ref with
      | none => exact k4.1 hsd
      | some id => exact k4.2 id hsd
    · intro c hc
      exact s4 c (hp.mem_iff.2 hc)

theorem buildForest_run (sort : SortFn) (hs : SortContract sort) (msgMap : GoMap Message)
    (hwf : mapWF msgMap) (hf : FreshMap msgMap) (k : Nat) (hk : (mapKeys msgMap).length ≤ k) :
    ∃ st, sortTreeByDate sort (k + 1) (linkMessages msgMap) none = some st
      ∧ Linked msgMap st ∧ DateSorted msgMap st.roots
      ∧ ∀ n, Reach st n → DateSorted msgMap (kids st.heap n) := by
  have hl := linkMessages_linked msgMap hwf hf
  have hq : ∀ c ∈ slice (linkMessages msgMap) none,
      ∃ d, AtDepth msgMap d c ∧ (mapKeys msgMap).length ≤ d + k := by
    intro c hc
    obtain ⟨hm, hp⟩ := (linked_mem_roots msgMap _ hl c).1 hc
    exact ⟨0, AtDepth.root c hm hp, by omega⟩
  obtain ⟨st, e, l1, _, s1, a1⟩ :=
    sortTree_run sort hs msgMap k (linkMessages msgMap) none hl hq
  refine ⟨st, e, l1, s1, ?_⟩
  intro n hn
  obtain ⟨d, hd⟩ := (reach_iff msgMap st l1 n).1 hn
  obtain ⟨r, hr, hm, hp⟩ := atDepth_root msgMap d n hd
  exact a1 r ((linked_mem_roots msgMap _ hl r).2 ⟨hm, hp⟩) n d hr

theorem insertLeft_perm (cmp : Bytes → Bytes → Int) (x : Bytes) (l : List Bytes) :
    (insertLeft cmp x l).Perm (x :: l) := by
  induction l with
  | nil => exact List.Perm.refl _
  | cons y ys ih =>
    unfold insertLeft
    split
    · exact (List.Perm.cons y ih).trans (List.Perm.swap x y ys)
    · exact List.Perm.refl _

theorem strictWeak_negTrans (cmp : Bytes → Bytes → Int) (h : StrictWeak cmp) (x y z : Bytes)
    (h1 : ¬ cmp x y < 0) (h2 : ¬ cmp y z < 0) : ¬ cmp x z < 0 := by
  obtain ⟨_, htr, hinc⟩ := h
  intro hxz
  have h3 : ¬ cmp y x < 0 := fun hyx => h2 (htr y x z hyx hxz)
  have h4 : ¬ cmp z y < 0 := fun hzy => h1 (htr x z y hxz hzy)
  exact (hinc x y z h1 h3 h2 h4).1 hxz

theorem insertLeft_sorted (cmp : Bytes → Bytes → Int) (h : StrictWeak cmp) (x : Bytes)
    (l : List Bytes) (hl : l.Pairwise (fun a b => ¬ cmp a b < 0)) :
    (insertLeft cmp x l).Pairwise (fun a b => ¬ cmp a b < 0) := by
  induction l with
  | nil => exact List.pairwise_singleton _ _
  | cons y ys ih =>
    obtain ⟨hy, hys⟩ := List.pairwise_cons.1 hl
    unfold insertLeft
    split
    · rename_i hxy
      refine List.pairwise_cons.2 ⟨?_, ih hys⟩
      intro z hz
      rcases List.mem_cons.1 ((insertLeft_perm cmp x ys).mem_iff.1 hz) with hz | hz
      · rw [hz]
        intro hyx
        exact h.1 x (h.2.1 x y x hxy hyx)
      · exact hy z hz
    · rename_i hxy
      refine List.pairwise_cons.2 ⟨?_, hl⟩
      intro z hz
      rcases List.mem_cons.1 hz with hz | hz
      · rw [hz]; exact hxy
      · exact strictWeak_negTrans cmp h x y z hxy (hy z hz)

theorem insertionLoop_spec (cmp : Bytes → Bytes → Int) :
    ∀ (l done : List Bytes), (insertionLoop cmp done l).Perm (done ++ l)
      ∧ (StrictWeak cmp → done.Pairwise (fun a b => ¬ cmp a b < 0) →
          (insertionLoop cmp done l).Pairwise (fun a b => ¬ cmp b a < 0)) := by
  intro l
  induction l with
  | nil =>
    intro done
    rw [insertionLoop, List.append_nil]
    exact ⟨List.reverse_perm done, fun _ hd => List.pairwise_reverse.2 hd⟩
  | cons x xs ih =>
    intro done
    rw [insertionLoop]
    obtain ⟨hp, hs⟩ := ih (insertLeft cmp x done)
    refine ⟨?_, fun hsw hd => hs hsw (insertLeft_sorted cmp hsw x done hd)⟩
    refine hp.trans ?_
    refine ((insertLeft_perm cmp x done).append_right xs).trans ?_
    exact (List.perm_middle).symm

theorem insertionSort_contract : SortContract insertionSortFunc := by
  intro cmp l
  obtain ⟨hp, hs⟩ := insertionLoop_spec cmp l []
  exact ⟨hp, fun h => hs h List.Pairwise.nil⟩

theorem reach_of_no_roots (st : Forest) (h : st.roots = []) (n : Bytes) : ¬ Reach st n := by
  intro hr
  induction hr with
  | root n hn => rw [h] at hn; cases hn
  | kid _ _ _ _ ih => exact ih

theorem ancestor_snoc (msgMap : GoMap Message) (k : Nat) (n a p : Bytes)
    (h : Ancestor msgMap k n a) (hp : parentOf msgMap a = some p) :
    Ancestor msgMap (k + 1) n p := by
  induction h with
  | self n => exact Ancestor.step 0 n p p hp (Ancestor.self p)
  | step k n q a hq _ ih => exact Ancestor.step (k + 1) n q p hq (ih hp)

theorem ancestor_mem (msgMap : GoMap Message) (k : Nat) (n a : Bytes)
    (h : Ancestor msgMap k n a) (hn : n ∈ mapKeys msgMap) : a ∈ mapKeys msgMap := by
  induction h with
  | self n => exact hn
  | step k n q a hq _ ih => exact ih (parentOf_some_mem msgMap n q hq).2

theorem atDepth_of_ancestor (msgMap : GoMap Message) (k : Nat) (n a : Bytes)
    (h : Ancestor msgMap k n a) (ha : a ∈ mapKeys msgMap) (hp : parentOf msgMap a = none) :
    AtDepth msgMap k n := by
  induction h with
  | self n => exact AtDepth.root n ha hp
  | step k n q a hq _ ih => exact AtDepth.step k n q hq (ih ha hp)

theorem depth_or_ancestor (msgMap : GoMap Message) (n : Bytes) (hn : n ∈ mapKeys msgMap) :
    ∀ k, (∃ d, AtDepth msgMap d n) ∨ ∃ a, Ancestor msgMap k n a := by
  intro k
  induction k with
  | zero => exact Or.inr ⟨n, Ancestor.self n⟩
  | succ k ih =>
    rcases ih with h | ⟨a, ha⟩
    · exact Or.inl h
    · cases hp : parentOf msgMap a with
      | none =>
        exact Or.inl ⟨k, atDepth_of_ancestor msgMap k n a ha (ancestor_mem msgMap k n a ha hn) hp⟩
      | some p => exact Or.inr ⟨p, ancestor_snoc msgMap k n a p ha hp⟩

theorem ancestor_chain (msgMap : GoMap Message) (k : Nat) (n a : Bytes)
    (h : Ancestor msgMap k n a) (hn : n ∈ mapKeys msgMap) :
    (∃ j c, Ancestor msgMap j n c ∧ OnCycle msgMap c)
    ∨ ∃ l : List Bytes, l.length = k + 1 ∧ l.Nodup
        ∧ ∀ x ∈ l, x ∈ mapKeys msgMap ∧ ∃ j, Ancestor msgMap j n x := by
  induction h with
  | self n =>
    exact Or.inr ⟨[n], rfl, List.nodup_singleton n,
      fun x hx => by rw [List.mem_singleton.1 hx]; exact ⟨hn, 0, Ancestor.self n⟩⟩
  | step k n q a hq _ ih =>
    rcases ih (parentOf_some_mem msgMap n q hq).2 with ⟨j, c, hc, hcyc⟩ | ⟨l, hlen, hnd, hall⟩
    · exact Or.inl ⟨j + 1, c, Ancestor.step j n q c hq hc, hcyc⟩
    · by_cases hmem : n ∈ l
      · obtain ⟨_, j, hj⟩ := hall n hmem
        exact Or.inl ⟨0, n, Ancestor.self n, j, Ancestor.step j n q n hq hj⟩
      · refine Or.inr ⟨n :: l, by simp [hlen], List.nodup_cons.2 ⟨hmem, hnd⟩, ?_⟩
        intro x hx
        rcases List.mem_cons.1 hx with hx | hx
        · rw [hx]; exact ⟨hn, 0, Ancestor.self n⟩
        · obtain ⟨hm, j, hj⟩ := hall x hx
          exact ⟨hm, j + 1, Ancestor.step j n q x hq hj⟩

theorem depth_or_cycle (msgMap : GoMap Message) (n : Bytes) (hn : n ∈ mapKeys msgMap) :
    (∃ d, AtDepth msgMap d n) ∨ ∃ j c, Ancestor msgMap j n c ∧ OnCycle msgMap c := by
  rcases depth_or_ancestor msgMap n hn (mapKeys msgMap).length with h | ⟨a, ha⟩
  · exact Or.inl h
  · rcases ancestor_chain msgMap _ n a ha hn with h | ⟨l, hlen, hnd, hall⟩
    · exact Or.inr h
    · have hsub : l ⊆ mapKeys msgMap := fun x hx => (hall x hx).1
      have := (List.subperm_of_subset hnd hsub).length_le
      omega

theorem depth_iff_no_cycle (msgMap : GoMap Message) (n : Bytes) (hn : n ∈ mapKeys msgMap) :
    (∃ d, AtDepth msgMap d n) ↔ ¬ ∃ j c, Ancestor msgMap j n c ∧ OnCycle msgMap c := by
  constructor
  · rintro ⟨d, hd⟩ ⟨j, c, hc, hcyc⟩
    exact onCycle_no_depth msgMap c hcyc ⟨d - j, (atDepth_ancestor msgMap j n c hc d hd).2⟩
  · intro h
    rcases depth_or_cycle msgMap n hn with h1 | h1
    · exact h1
    · exact (h h1).elim

theorem pathUp_of_reach (st : Forest) (n : Bytes) (h : Reach st n) : ∃ l, PathUp st l n := by
  induction h with
  | root n hn => exact ⟨[n], PathUp.root n hn⟩
  | kid n p _ hk ih =>
    obtain ⟨l, hl⟩ := ih
    exact ⟨n :: l, PathUp.kid l n p hl hk⟩

theorem reach_of_pathUp (st : Forest) (l : List Bytes) (n : Bytes) (h : PathUp st l n) :
    Reach st n := by
  induction h with
  | root n hn => exact Reach.root n hn
  | kid l n p _ hk ih => exact Reach.kid n p ih hk

theorem dateSorted_congr (m1 m2 : GoMap Message) (h : ∀ n, dateOf m1 n = dateOf m2 n)
    (l : List Bytes) (hs : DateSorted m2 l) : DateSorted m1 l := by
  unfold DateSorted at hs ⊢
  refine List.Pairwise.imp ?_ hs
  intro a b hab
  rw [h a, h b]
  exact hab

/-- C14: after the linking loop over a map with distinct keys, a message
whose Parent names a key of the map is in the Children of the message under
that key and is not in the root slice; a message without Parent, or whose
Parent names no key of the map, is in the root slice. -/
theorem link_children_and_roots (msgMap : GoMap Message) (hwf : mapWF msgMap) (id : Bytes)
    (msg : Message) (hmem : (id, msg) ∈ msgMap) :
    (∀ p, msg.Parent = some p → p ∈ mapKeys msgMap →
        id ∈ kids (linkMessages msgMap).heap p ∧ id ∉ (linkMessages msgMap).roots)
    ∧ ((msg.Parent = none ∨ ∃ p, msg.Parent = some p ∧ p ∉ mapKeys msgMap) →
        id ∈ (linkMessages msgMap).roots) := by
  obtain ⟨_, _, h3, h4⟩ :=
    linkLoop_spec msgMap msgMap msgMap [] (mapGet_entries msgMap hwf) rfl
  have hget : mapGet msgMap id = some msg := mapGet_of_mem msgMap id msg hwf hmem
  have hkey : id ∈ mapKeys msgMap := List.mem_map_of_mem Prod.fst hmem
  have hpar := parentOf_entry msgMap id msg hget
  have hroots : (linkMessages msgMap).roots
      = (mapKeys msgMap).filter (fun n => parentOf msgMap n = none) := by
    unfold linkMessages; simp only; rw [h3]; rfl
  have hkids : ∀ p, kids (linkMessages msgMap).heap p
      = kids msgMap p ++ (mapKeys msgMap).filter (fun n => parentOf msgMap n = some p) := by
    intro p; unfold linkMessages; simp only; rw [h4 p]
  constructor
  · intro p hp hpm
    rw [hp] at hpar
    simp only [hpm, if_true] at hpar
    constructor
    · rw [hkids p]
      exact List.mem_append_right _ (List.mem_filter.2 ⟨hkey, by simp [hpar]⟩)
    · rw [hroots]
      intro hc
      have := (List.mem_filter.1 hc).2
      simp [hpar] at this
  · intro h
    rw [hroots]
    refine List.mem_filter.2 ⟨hkey, ?_⟩
    rcases h with h | ⟨p, hp, hpm⟩
    · rw [h] at hpar
      simp [hpar]
    · rw [hp] at hpar
      simp only [hpm, if_false] at hpar
      simp [hpar]

theorem link_children_and_roots_witness :
    (ascii "B" ∈ kids (linkMessages threadMap).heap (ascii "A")
      ∧ ascii "B" ∉ (linkMessages threadMap).roots)
    ∧ ascii "D" ∈ (linkMessages threadMap).roots
    ∧ (linkMessages threadMap).roots = [ascii "A", ascii "D"]
    ∧ kids (linkMessages threadMap).heap (ascii "A") = [ascii "B"]
    ∧ kids (linkMessages threadMap).heap (ascii "B") = [ascii "C"] :=
  ⟨(link_children_and_roots threadMap (by unfold mapWF mapKeys; decide) (ascii "B")
      (mkMsg (ascii "B") (some (ascii "A")) none).2 (by decide)).1 (ascii "A") rfl (by decide),
   (link_children_and_roots threadMap (by unfold mapWF mapKeys; decide) (ascii "D")
      (mkMsg (ascii "D") (some (ascii "missing")) none).2 (by decide)).2
      (Or.inr ⟨ascii "missing", rfl, by decide⟩),
   by decide, by decide, by decide⟩

/-- C15: for a map with distinct keys and no children yet, and a sorting
function that keeps the contract of slices.SortFunc, sortTreeByDate on the
linked forest returns; afterwards the root slice and the Children of every
message that occurs in the forest are rearrangements of what they held
before, in ascending order of Date with the messages without Date first. -/
theorem sortTree_orders_by_date (sort : SortFn) (hs : SortContract sort)
    (msgMap : GoMap Message) (hwf : mapWF msgMap) (hf : FreshMap msgMap) :
    ∃ fuel st, sortTreeByDate sort fuel (linkMessages msgMap) none = some st
      ∧ st.roots.Perm (linkMessages msgMap).roots
      ∧ DateSorted st.heap st.roots
      ∧ ∀ n, Reach st n →
          (kids st.heap n).Perm (kids (linkMessages msgMap).heap n)
          ∧ DateSorted st.heap (kids st.heap n) := by
  obtain ⟨st, e, hl, hr, hk⟩ :=
    buildForest_run sort hs msgMap hwf hf (mapKeys msgMap).length (le_refl _)
  have hl0 := linkMessages_linked msgMap hwf hf
  refine ⟨_, st, e, hl.2.2.1.trans hl0.2.2.1.symm,
    dateSorted_congr _ _ hl.2.1 _ hr, fun n hn => ⟨?_, ?_⟩⟩
  · exact (hl.2.2.2 n).trans (hl0.2.2.2 n).symm
  · exact dateSorted_congr _ _ hl.2.1 _ (hk n hn)

theorem sortTree_orders_by_date_witness :
    (∃ fuel st, sortTreeByDate insertionSortFunc fuel (linkMessages datedMap) none = some st
      ∧ st.roots.Perm (linkMessages datedMap).roots
      ∧ DateSorted st.heap st.roots
      ∧ ∀ n, Reach st n →
          (kids st.heap n).Perm (kids (linkMessages datedMap).heap n)
          ∧ DateSorted st.heap (kids st.heap n))
    ∧ (linkMessages datedMap).roots = [ascii "x", ascii "y", ascii "z"]
    ∧ (sortTreeByDate insertionSortFunc 2 (linkMessages datedMap) none).map Forest.roots
        = some [ascii "z", ascii "y", ascii "x"] :=
  ⟨sortTree_orders_by_date insertionSortFunc insertionSort_contract datedMap
      (by unfold mapWF mapKeys; decide) (by unfold FreshMap; decide),
   by decide, by decide⟩

/-- C17 (counterexample): of the four messages A and B that reply to each
other, S that replies to itself and E that replies to A, none occurs in the
forest: the root slice is empty. -/
theorem cycle_messages_lost :
    mapWF cycleMap ∧ FreshMap cycleMap
    ∧ mapKeys cycleMap = [ascii "A", ascii "B", ascii "S", ascii "E"]
    ∧ ∃ st, sortTreeByDate insertionSortFunc 1 (linkMessages cycleMap) none = some st
        ∧ st.roots = [] ∧ ∀ n, ¬ Reach st n := by
  refine ⟨by unfold mapWF mapKeys; decide, by unfold FreshMap; decide, by decide,
    linkMessages cycleMap, by decide, by decide, ?_⟩
  exact reach_of_no_roots _ (by decide)

/-- C17 (amended): a message of the map occurs in the forest exactly when
following ReplyTo from it never arrives at a message on a ReplyTo cycle (a
message that replies to itself is on a cycle), and then it occurs exactly
once; the roots are the messages with no resolvable parent; no slice of the
forest holds a message twice. -/
theorem forest_members (sort : SortFn) (hs : SortContract sort)
    (msgMap : GoMap Message) (hwf : mapWF msgMap) (hf : FreshMap msgMap) :
    ∃ fuel st, sortTreeByDate sort fuel (linkMessages msgMap) none = some st
      ∧ (∀ n ∈ mapKeys msgMap,
          (Reach st n ↔ ¬ ∃ j c, Ancestor msgMap j n c ∧ OnCycle msgMap c)
          ∧ (Reach st n → ∃ l, PathUp st l n ∧ ∀ l2, PathUp st l2 n → l2 = l))
      ∧ (∀ n, Reach st n → n ∈ mapKeys msgMap)
      ∧ (∀ n, n ∈ st.roots ↔ n ∈ mapKeys msgMap ∧ parentOf msgMap n = none)
      ∧ st.roots.Nodup ∧ ∀ p, (kids st.heap p).Nodup := by
  obtain ⟨st, e, hl, _, _⟩ :=
    buildForest_run sort hs msgMap hwf hf (mapKeys msgMap).length (le_refl _)
  refine ⟨_, st, e, ?_, ?_, linked_mem_roots msgMap st hl, linked_nodup msgMap hwf st hl⟩
  · intro n hn
    refine ⟨(reach_iff msgMap st hl n).trans (depth_iff_no_cycle msgMap n hn), ?_⟩
    intro hr
    obtain ⟨l, hp⟩ := pathUp_of_reach st n hr
    exact ⟨l, hp, fun l2 h2 => (pathUp_unique msgMap st hl l n hp l2 h2).symm⟩
  · intro n hr
    obtain ⟨d, hd⟩ := (reach_iff msgMap st hl n).1 hr
    exact atDepth_mem msgMap d n hd

theorem forest_members_witness :
    ∃ fuel st, sortTreeByDate insertionSortFunc fuel (linkMessages threadMap) none = some st
      ∧ (∀ n ∈ mapKeys threadMap,
          (Reach st n ↔ ¬ ∃ j c, Ancestor threadMap j n c ∧ OnCycle threadMap c)
          ∧ (Reach st n → ∃ l, PathUp st l n ∧ ∀ l2, PathUp st l2 n → l2 = l))
      ∧ (∀ n, Reach st n → n ∈ mapKeys threadMap)
      ∧ (∀ n, n ∈ st.roots ↔ n ∈ mapKeys threadMap ∧ parentOf threadMap n = none)
      ∧ st.roots.Nodup ∧ ∀ p, (kids st.heap p).Nodup :=
  forest_members insertionSortFunc insertionSort_contract threadMap
    (by unfold mapWF mapKeys; decide) (by unfold FreshMap; decide)

/-- C18: for a map with distinct keys and no children yet, sortTreeByDate on
the linked forest returns whenever the bound of the recursion depth is above
the number of messages, also when ReplyTo values form a cycle or a message
replies to itself: no message on a ReplyTo cycle occurs in the forest. -/
theorem thread_building_terminates (sort : SortFn) (hs : SortContract sort)
    (msgMap : GoMap Message) (hwf : mapWF msgMap) (hf : FreshMap msgMap) :
    (∀ fuel, msgMap.length < fuel →
        ∃ st, sortTreeByDate sort fuel (linkMessages msgMap) none = some st)
    ∧ ∀ n, OnCycle msgMap n → ¬ Reach (linkMessages msgMap) n := by
  constructor
  · intro fuel hfuel
    have hlen : (mapKeys msgMap).length = msgMap.length := List.length_map _ _
    obtain ⟨st, e, _⟩ := buildForest_run sort hs msgMap hwf hf (fuel - 1) (by omega)
    have hfe : fuel - 1 + 1 = fuel := by omega
    rw [hfe] at e
    exact ⟨st, e⟩
  · intro n hc hr
    exact onCycle_no_depth msgMap n hc
      ((reach_iff msgMap _ (linkMessages_linked msgMap hwf hf) n).1 hr)

theorem thread_building_terminates_witness :
    (∀ fuel, cycleMap.length < fuel →
        ∃ st, sortTreeByDate insertionSortFunc fuel (linkMessages cycleMap) none = some st)
    ∧ ∀ n, OnCycle cycleMap n → ¬ Reach (linkMessages cycleMap) n :=
  thread_building_terminates insertionSortFunc insertionSort_contract cycleMap
    (by unfold mapWF mapKeys; decide) (by unfold FreshMap; decide)

end Echomail
